import Mathlib

/-!
Verification development for the `x64_treemap` repository: a generic ordered
map backed by a left-leaning red-black tree (LLRB).  The repository ships the
public header `tree_map.h`, the sample domain and test helpers (`utils.h`,
`utils.cpp`) and two googletest suites; the tree engine itself (the object
code behind `putPair`, `deletePair`, `pollFirstPair`, `pollLastPair` and the
utility queries) is not part of the source tree.  The engine is therefore
modelled here from the specification's description of the algorithm
(sections 4.2 to 4.4 of the design document): recursive insertion with the
rotate-left / rotate-right / color-flip fixup on unwind, deletion with
move-red-left / move-red-right borrowing and the same fixup, and the
candidate-tracking neighbor queries.  The model is validated below against
every concrete tree shape the test suites pin down.  Keys are embedded as an
arbitrary linearly ordered type: the `KeyComparison` contract of the header
(negative / zero / positive trichotomy) is exactly a linear order on keys.
The sample-domain comparator `compareTreeNodeKey` of `utils.cpp` is embedded
separately, directly from its C source.
-/

namespace TreeMapSpec

/-- Status codes returned by the treemap operations, mirroring the
`Status` enum of `tree_map.h`. -/
inductive Status where
  | SUCCESS
  | ERR_HEAP_ALLOCATION
  | ERR_COPY_KEY
  | ERR_COPY_VALUE
  | DOES_NOT_CONTAIN
  | ALREADY_CONTAINS
  | KEY_SIZE_ZERO
  | VALUE_SIZE_ZERO
  | KEY_COMP_FUNC_NULLPTR
  | VALUE_EQUAL_FUNC_NULLPTR
  | KEY_COPY_FUNC_NULLPTR
  | VALUE_COPY_FUNC_NULLPTR
  | TREE_MAP_NULLPTR
  | TREE_NODE_PAIR_NULLPTR
  | KEY_BUFFER_NULLPTR
  | VALUE_BUFFER_NULLPTR
  | PAIR_BUFFER_NULLPTR
  deriving DecidableEq, Repr

/-- Red-black tree of key/value pairs: the node graph owned by a `TreeMap`.
A node carries the color bit (`red = true` means RED), the left and right
children and one pair, as the `TreeNode` struct of `utils.h` does. -/
inductive RBT (κ ν : Type) where
  | nil : RBT κ ν
  | node (red : Bool) (l : RBT κ ν) (key : κ) (val : ν) (r : RBT κ ν) : RBT κ ν
  deriving DecidableEq

/-- Map handle: the root node and the node count, as in the `TreeMap` struct
of `tree_map.h` (the element-size metadata and the capability function
pointers are byte-level plumbing with no observable content beyond what the
operations below model). -/
structure TreeMap (κ ν : Type) where
  root : RBT κ ν
  nodeAmount : Nat
  deriving DecidableEq

namespace RBT

variable {κ ν : Type}

/-- Color test treating `nil` as BLACK, as the engine does. -/
def isRed : RBT κ ν → Bool
  | .node true _ _ _ _ => true
  | _ => false

/-- Left child of a node; `nil` for a leaf. -/
def leftOf : RBT κ ν → RBT κ ν
  | .nil => .nil
  | .node _ l _ _ _ => l

/-- Right child of a node; `nil` for a leaf. -/
def rightOf : RBT κ ν → RBT κ ν
  | .nil => .nil
  | .node _ _ _ _ r => r

/-- Test for the null tree. -/
def isNil : RBT κ ν → Bool
  | .nil => true
  | .node _ _ _ _ _ => false

/-- Number of reachable nodes. -/
def size : RBT κ ν → Nat
  | .nil => 0
  | .node _ l _ _ r => size l + size r + 1

/-- In-order traversal of the key/value pairs. -/
def inorderKV : RBT κ ν → List (κ × ν)
  | .nil => []
  | .node _ l k v r => inorderKV l ++ (k, v) :: inorderKV r

/-- Keys in in-order traversal order. -/
def keysOf (t : RBT κ ν) : List κ :=
  (inorderKV t).map Prod.fst

/-- Modelled from the spec: left rotation of the tree engine (the engine
binary is absent from the source tree).  The right child is lifted to the
root, keeping the old root color, and the old root turns RED. -/
def rotL : RBT κ ν → RBT κ ν
  | .node c l k v (.node _ rl rk rv rr) => .node c (.node true l k v rl) rk rv rr
  | t => t

/-- Modelled from the spec: right rotation of the tree engine, mirror of
`rotL`. -/
def rotR : RBT κ ν → RBT κ ν
  | .node c (.node _ ll lk lv lr) k v r => .node c ll lk lv (.node true lr k v r)
  | t => t

/-- Modelled from the spec: color flip of the tree engine, inverting the
color of a node and of both of its children. -/
def flip : RBT κ ν → RBT κ ν
  | .node c (.node cl a ka va b) k v (.node cr x kr vr y) =>
      .node (!c) (.node (!cl) a ka va b) k v (.node (!cr) x kr vr y)
  | t => t

/-- Modelled from the spec: the fixup applied at every visited node while
unwinding insertion and deletion: rotate left on a right-leaning red link,
rotate right on a red-red left chain, flip when both children are RED. -/
def fixUp (t : RBT κ ν) : RBT κ ν :=
  let t1 := if isRed (rightOf t) && !isRed (leftOf t) then rotL t else t
  let t2 := if isRed (leftOf t1) && isRed (leftOf (leftOf t1)) then rotR t1 else t1
  if isRed (leftOf t2) && isRed (rightOf t2) then flip t2 else t2

/-- Replace the right child of a node. -/
def setRight : RBT κ ν → RBT κ ν → RBT κ ν
  | .node c l k v _, r => .node c l k v r
  | .nil, _ => .nil

/-- Modelled from the spec: redness borrowing before descending left in the
deletion protocol (flip, and when the right child's left child is RED, a
double rotation with a second flip). -/
def moveRedLeft (t : RBT κ ν) : RBT κ ν :=
  let t1 := flip t
  if isRed (leftOf (rightOf t1)) then
    flip (rotL (setRight t1 (rotR (rightOf t1))))
  else t1

/-- Modelled from the spec: redness borrowing before descending right in the
deletion protocol, mirror of `moveRedLeft`. -/
def moveRedRight (t : RBT κ ν) : RBT κ ν :=
  let t1 := flip t
  if isRed (leftOf (leftOf t1)) then flip (rotR t1) else t1

/-- Force the root BLACK, as the engine does after every full unwind. -/
def blacken : RBT κ ν → RBT κ ν
  | .nil => .nil
  | .node _ l k v r => .node false l k v r

/-- Force the root RED: the top-level redness seed of the deletion entry
points when both children of the root are BLACK. -/
def setRed : RBT κ ν → RBT κ ν
  | .nil => .nil
  | .node _ l k v r => .node true l k v r

/-- Modelled from the spec: the top-level preparation shared by the three
deletion entry points: when neither child of the root is RED the root is
recolored RED, guaranteeing the node descended into is never a lone BLACK
node with two BLACK children. -/
def redTop (t : RBT κ ν) : RBT κ ν :=
  if !isRed (leftOf t) && !isRed (rightOf t) then setRed t else t

variable [LinearOrder κ]

/-- Modelled from the spec: the recursive insertion of the tree engine.
Descend by key comparison; an existing key yields `none` (no mutation, the
caller reports ALREADY_CONTAINS); a leaf position receives a new RED node;
the fixup runs at every node on unwind. -/
def insGo (key : κ) (nv : ν) : RBT κ ν → Option (RBT κ ν)
  | .nil => some (.node true .nil key nv .nil)
  | .node c l k v r =>
    if key < k then (insGo key nv l).map (fun l2 => fixUp (.node c l2 k v r))
    else if k < key then (insGo key nv r).map (fun r2 => fixUp (.node c l k v r2))
    else none

/-- Modelled from the spec: delete-minimum of the tree engine, with an
explicit recursion bound (the algorithm rebalances while descending, so the
recursion is on the tree size rather than structural).  Returns the new
subtree and the removed pair.  A node whose left child is null is removed
directly; otherwise redness is borrowed when the left child is a BLACK node
with a BLACK left child, and the fixup runs on unwind. -/
def delMinF : Nat → RBT κ ν → RBT κ ν × Option (κ × ν)
  | 0, t => (t, none)
  | _ + 1, .nil => (.nil, none)
  | _ + 1, .node _ .nil k v _ => (.nil, some (k, v))
  | fuel + 1, .node c l k v r =>
      let h := if !isRed l && !isRed (leftOf l) then moveRedLeft (.node c l k v r)
               else .node c l k v r
      match h with
      | .nil => (.nil, none)
      | .node c2 l2 k2 v2 r2 =>
          let res := delMinF fuel l2
          (fixUp (.node c2 res.1 k2 v2 r2), res.2)

/-- Modelled from the spec: delete-maximum of the tree engine, mirror of
`delMinF` along the right edge, with an additional right rotation whenever
the current left child is RED. -/
def delMaxF : Nat → RBT κ ν → RBT κ ν × Option (κ × ν)
  | 0, t => (t, none)
  | _ + 1, .nil => (.nil, none)
  | fuel + 1, .node c l k v r =>
      let h := if isRed l then rotR (.node c l k v r) else .node c l k v r
      match h with
      | .nil => (.nil, none)
      | .node c1 l1 k1 v1 .nil => (.nil, some (k1, v1))
      | .node c1 l1 k1 v1 r1 =>
          let h2 := if !isRed r1 && !isRed (leftOf r1) then
                      moveRedRight (.node c1 l1 k1 v1 r1)
                    else .node c1 l1 k1 v1 r1
          match h2 with
          | .nil => (.nil, none)
          | .node c2 l2 k2 v2 r2 =>
              let res := delMaxF fuel r2
              (fixUp (.node c2 l2 k2 v2 res.1), res.2)

/-- Leftmost pair of a subtree: the in-order successor source used by
delete-by-key. -/
def minPairOf : RBT κ ν → Option (κ × ν)
  | .nil => none
  | .node _ .nil k v _ => some (k, v)
  | .node _ l _ _ _ => minPairOf l

/-- Modelled from the spec: delete-by-key of the tree engine.  Descend by
comparison with the same borrowing discipline; an exact match with no right
child is removed directly; an exact match with a right child is replaced by
the in-order successor (removed from the right subtree via delete-minimum),
while the original pair is reported as removed. -/
def delF : Nat → κ → RBT κ ν → RBT κ ν × Option (κ × ν)
  | 0, _, t => (t, none)
  | _ + 1, _, .nil => (.nil, none)
  | fuel + 1, key, .node c l k v r =>
      if key < k then
        let h := if !isRed l && !isRed (leftOf l) then moveRedLeft (.node c l k v r)
                 else .node c l k v r
        match h with
        | .nil => (.nil, none)
        | .node c2 l2 k2 v2 r2 =>
            let res := delF fuel key l2
            (fixUp (.node c2 res.1 k2 v2 r2), res.2)
      else
        let h1 := if isRed l then rotR (.node c l k v r) else .node c l k v r
        match h1 with
        | .nil => (.nil, none)
        | .node c1 l1 k1 v1 r1 =>
          if key = k1 ∧ r1.isNil then (.nil, some (k1, v1))
          else
            let h2 := if !isRed r1 && !isRed (leftOf r1) then
                        moveRedRight (.node c1 l1 k1 v1 r1)
                      else .node c1 l1 k1 v1 r1
            match h2 with
            | .nil => (.nil, none)
            | .node c2 l2 k2 v2 r2 =>
              if key = k2 then
                match minPairOf r2 with
                | none => (.nil, none)
                | some (sk, sv) =>
                    let res := delMinF fuel r2
                    (fixUp (.node c2 l2 sk sv res.1), some (k2, v2))
              else
                let res := delF fuel key r2
                (fixUp (.node c2 l2 k2 v2 res.1), res.2)

/-- Modelled from the spec: exact key search of the tree engine, the shared
descent of `containsKey`, `getValue` and `replaceValue`. -/
def getV : RBT κ ν → κ → Option ν
  | .nil, _ => none
  | .node _ l k v r, key =>
    if key < k then getV l key
    else if k < key then getV r key
    else some v

/-- Key membership: `getV` projected to a Boolean. -/
def containsB (t : RBT κ ν) (key : κ) : Bool :=
  (getV t key).isSome

/-- Modelled from the spec: the full value scan of `containsValue`, comparing
every stored value with the target through the pluggable value equality. -/
def containsVB (veq : ν → ν → Bool) : RBT κ ν → ν → Bool
  | .nil, _ => false
  | .node _ l _ v r, tgt => veq v tgt || containsVB veq l tgt || containsVB veq r tgt

/-- Modelled from the spec: the full traversal of `getKey`, returning the key
of the first pair (in traversal order) whose value matches. -/
def getKeyB (veq : ν → ν → Bool) : RBT κ ν → ν → Option κ
  | .nil, _ => none
  | .node _ l k v r, tgt =>
    if veq v tgt then some k
    else
      match getKeyB veq l tgt with
      | some k2 => some k2
      | none => getKeyB veq r tgt

/-- Modelled from the spec: in-place value replacement at the node holding
the given key (identity when the key is absent). -/
def replaceV : RBT κ ν → κ → ν → RBT κ ν
  | .nil, _, _ => .nil
  | .node c l k v r, key, nv =>
    if key < k then .node c (replaceV l key nv) k v r
    else if k < key then .node c l k v (replaceV r key nv)
    else .node c l k nv r

/-- Modelled from the spec: the floor descent, tracking the best candidate:
the largest key less than or equal to the target, exact match included. -/
def floorGo : RBT κ ν → κ → Option (κ × ν)
  | .nil, _ => none
  | .node _ l k v r, key =>
    if key < k then floorGo l key
    else if k < key then
      match floorGo r key with
      | some p => some p
      | none => some (k, v)
    else some (k, v)

/-- Modelled from the spec: the ceiling descent, tracking the best candidate:
the smallest key greater than or equal to the target, exact match
included. -/
def ceilGo : RBT κ ν → κ → Option (κ × ν)
  | .nil, _ => none
  | .node _ l k v r, key =>
    if k < key then ceilGo r key
    else if key < k then
      match ceilGo l key with
      | some p => some p
      | none => some (k, v)
    else some (k, v)

/-- Modelled from the spec: the strict floor descent of `lowerPair`, the
largest key strictly below the target. -/
def lowerGo : RBT κ ν → κ → Option (κ × ν)
  | .nil, _ => none
  | .node _ l k v r, key =>
    if k < key then
      match lowerGo r key with
      | some p => some p
      | none => some (k, v)
    else lowerGo l key

/-- Modelled from the spec: the strict ceiling descent of `higherPair`, the
smallest key strictly above the target. -/
def higherGo : RBT κ ν → κ → Option (κ × ν)
  | .nil, _ => none
  | .node _ l k v r, key =>
    if key < k then
      match higherGo l key with
      | some p => some p
      | none => some (k, v)
    else higherGo r key

/-- Rightmost pair of a subtree. -/
def maxPairOf : RBT κ ν → Option (κ × ν)
  | .nil => none
  | .node _ _ k v .nil => some (k, v)
  | .node _ _ _ _ r => maxPairOf r

end RBT

open RBT

variable {κ ν : Type}

/-- Modelled from the spec: `createTreeMap` of the base implementation (the
engine binary is absent from the source tree).  Arguments are the two element
sizes and the presence of the five capability functions; validation happens
before anything is allocated, in the order of the `Status` enum, and the
release function is optional.  A successful creation yields the empty map. -/
def createTreeMap (keySize valueSize : Nat)
    (kComp vEqual kCopy vCopy fPair : Bool) : Option (TreeMap κ ν) × Status :=
  if keySize = 0 then (none, .KEY_SIZE_ZERO)
  else if valueSize = 0 then (none, .VALUE_SIZE_ZERO)
  else if !kComp then (none, .KEY_COMP_FUNC_NULLPTR)
  else if !vEqual then (none, .VALUE_EQUAL_FUNC_NULLPTR)
  else if !kCopy then (none, .KEY_COPY_FUNC_NULLPTR)
  else if !vCopy then (none, .VALUE_COPY_FUNC_NULLPTR)
  else (some ⟨.nil, 0⟩, .SUCCESS)

variable [LinearOrder κ]

/-- Modelled from the spec: `putPair` of the base implementation.  An
existing key is a no-op reporting ALREADY_CONTAINS; otherwise a node is
allocated and the pair is copied in through the capability set, and a failing
allocation or copy aborts the call with the map exactly as before (the
already-allocated node and any partially copied key are released); on success
the fixup chain has run and the root is forced BLACK. -/
def putPair (tm : TreeMap κ ν) (key : κ) (nv : ν)
    (allocOk kOk vOk : Bool) : Status × TreeMap κ ν :=
  match insGo key nv tm.root with
  | none => (.ALREADY_CONTAINS, tm)
  | some t2 =>
    if !allocOk then (.ERR_HEAP_ALLOCATION, tm)
    else if !kOk then (.ERR_COPY_KEY, tm)
    else if !vOk then (.ERR_COPY_VALUE, tm)
    else (.SUCCESS, ⟨blacken t2, tm.nodeAmount + 1⟩)

/-- Modelled from the spec: `deletePair` of the base implementation.  An
empty map or absent key reports DOES_NOT_CONTAIN without mutation; otherwise
the recursive deletion runs on the redness-seeded root, the root is forced
BLACK, the count drops by one and the removed pair (the original pair of the
matched node) is surfaced as a shallow copy. -/
def deletePair (tm : TreeMap κ ν) (key : κ) : Status × TreeMap κ ν × Option (κ × ν) :=
  if containsB tm.root key then
    let t0 := redTop tm.root
    let res := delF (size t0) key t0
    (.SUCCESS, ⟨blacken res.1, tm.nodeAmount - 1⟩, res.2)
  else (.DOES_NOT_CONTAIN, tm, none)

/-- Modelled from the spec: `pollFirstPair` of the base implementation:
delete-minimum on the redness-seeded root, DOES_NOT_CONTAIN on an empty
map. -/
def pollFirstPair (tm : TreeMap κ ν) : Status × TreeMap κ ν × Option (κ × ν) :=
  match tm.root with
  | .nil => (.DOES_NOT_CONTAIN, tm, none)
  | t =>
    let t0 := redTop t
    let res := delMinF (size t0) t0
    (.SUCCESS, ⟨blacken res.1, tm.nodeAmount - 1⟩, res.2)

/-- Modelled from the spec: `pollLastPair` of the base implementation:
delete-maximum on the redness-seeded root, DOES_NOT_CONTAIN on an empty
map. -/
def pollLastPair (tm : TreeMap κ ν) : Status × TreeMap κ ν × Option (κ × ν) :=
  match tm.root with
  | .nil => (.DOES_NOT_CONTAIN, tm, none)
  | t =>
    let t0 := redTop t
    let res := delMaxF (size t0) t0
    (.SUCCESS, ⟨blacken res.1, tm.nodeAmount - 1⟩, res.2)

/-- Modelled from the spec: `getValue` of the utility implementation: exact
search, then a deep copy of the value into the caller's buffer; a failing
value copy aborts with ERR_COPY_VALUE and the map untouched.  The copy
capability is modelled by its failure knob: a successful byte copy hands back
a value equal to the stored one. -/
def getValue (tm : TreeMap κ ν) (key : κ) (vOk : Bool) :
    Status × TreeMap κ ν × Option ν :=
  match getV tm.root key with
  | none => (.DOES_NOT_CONTAIN, tm, none)
  | some v => if vOk then (.SUCCESS, tm, some v) else (.ERR_COPY_VALUE, tm, none)

/-- Modelled from the spec: `getKey` of the utility implementation: full
traversal by value equality, then a deep copy of the found key. -/
def getKey (veq : ν → ν → Bool) (tm : TreeMap κ ν) (tgt : ν) (kOk : Bool) :
    Status × TreeMap κ ν × Option κ :=
  match getKeyB veq tm.root tgt with
  | none => (.DOES_NOT_CONTAIN, tm, none)
  | some k => if kOk then (.SUCCESS, tm, some k) else (.ERR_COPY_KEY, tm, none)

/-- Modelled from the spec: `containsKey` of the utility implementation. -/
def containsKey (tm : TreeMap κ ν) (key : κ) : Status :=
  if containsB tm.root key then .SUCCESS else .DOES_NOT_CONTAIN

/-- Modelled from the spec: `containsValue` of the utility implementation. -/
def containsValue (veq : ν → ν → Bool) (tm : TreeMap κ ν) (tgt : ν) : Status :=
  if containsVB veq tm.root tgt then .SUCCESS else .DOES_NOT_CONTAIN

/-- Modelled from the spec: `replaceValue` of the utility implementation:
locate by key; on a hit the value is copied in with the replace flag set (a
failing copy aborts with the map untouched); on a miss DOES_NOT_CONTAIN, no
mutation. -/
def replaceValue (tm : TreeMap κ ν) (key : κ) (nv : ν) (vOk : Bool) :
    Status × TreeMap κ ν :=
  match getV tm.root key with
  | none => (.DOES_NOT_CONTAIN, tm)
  | some _ =>
    if vOk then (.SUCCESS, ⟨replaceV tm.root key nv, tm.nodeAmount⟩)
    else (.ERR_COPY_VALUE, tm)

/-- Modelled from the spec: `ceilingPair` of the utility implementation: the
candidate descent, then a deep copy of the found pair (a failing key or value
copy aborts with the map untouched). -/
def ceilingPair (tm : TreeMap κ ν) (key : κ) (kOk vOk : Bool) :
    Status × TreeMap κ ν × Option (κ × ν) :=
  match ceilGo tm.root key with
  | none => (.DOES_NOT_CONTAIN, tm, none)
  | some p =>
    if !kOk then (.ERR_COPY_KEY, tm, none)
    else if !vOk then (.ERR_COPY_VALUE, tm, none)
    else (.SUCCESS, tm, some p)

/-- Modelled from the spec: `floorPair` of the utility implementation. -/
def floorPair (tm : TreeMap κ ν) (key : κ) (kOk vOk : Bool) :
    Status × TreeMap κ ν × Option (κ × ν) :=
  match floorGo tm.root key with
  | none => (.DOES_NOT_CONTAIN, tm, none)
  | some p =>
    if !kOk then (.ERR_COPY_KEY, tm, none)
    else if !vOk then (.ERR_COPY_VALUE, tm, none)
    else (.SUCCESS, tm, some p)

/-- Modelled from the spec: `lowerPair` of the utility implementation. -/
def lowerPair (tm : TreeMap κ ν) (key : κ) (kOk vOk : Bool) :
    Status × TreeMap κ ν × Option (κ × ν) :=
  match lowerGo tm.root key with
  | none => (.DOES_NOT_CONTAIN, tm, none)
  | some p =>
    if !kOk then (.ERR_COPY_KEY, tm, none)
    else if !vOk then (.ERR_COPY_VALUE, tm, none)
    else (.SUCCESS, tm, some p)

/-- Modelled from the spec: `higherPair` of the utility implementation. -/
def higherPair (tm : TreeMap κ ν) (key : κ) (kOk vOk : Bool) :
    Status × TreeMap κ ν × Option (κ × ν) :=
  match higherGo tm.root key with
  | none => (.DOES_NOT_CONTAIN, tm, none)
  | some p =>
    if !kOk then (.ERR_COPY_KEY, tm, none)
    else if !vOk then (.ERR_COPY_VALUE, tm, none)
    else (.SUCCESS, tm, some p)

/-- Modelled from the spec: `minPair` of the utility implementation: the
leftmost pair, deep copied. -/
def minPair (tm : TreeMap κ ν) (kOk vOk : Bool) :
    Status × TreeMap κ ν × Option (κ × ν) :=
  match minPairOf tm.root with
  | none => (.DOES_NOT_CONTAIN, tm, none)
  | some p =>
    if !kOk then (.ERR_COPY_KEY, tm, none)
    else if !vOk then (.ERR_COPY_VALUE, tm, none)
    else (.SUCCESS, tm, some p)

/-- Modelled from the spec: `maxPair` of the utility implementation: the
rightmost pair, deep copied. -/
def maxPair (tm : TreeMap κ ν) (kOk vOk : Bool) :
    Status × TreeMap κ ν × Option (κ × ν) :=
  match maxPairOf tm.root with
  | none => (.DOES_NOT_CONTAIN, tm, none)
  | some p =>
    if !kOk then (.ERR_COPY_KEY, tm, none)
    else if !vOk then (.ERR_COPY_VALUE, tm, none)
    else (.SUCCESS, tm, some p)

/-!
Sample domain of `utils.h` / `utils.cpp`: keys hold a state name, values a
capital city with a year and a population.  These definitions are embedded
directly from the C++ source, not spec-modelled.
-/

/-- The `TreeNodeKey` struct of `utils.h`: a state name (a C string, embedded
as its character list) and its length. -/
structure TreeNodeKey where
  stateName : List Char
  nameLength : Nat
  deriving DecidableEq

/-- The `TreeNodeValue` struct of `utils.h`. -/
structure TreeNodeValue where
  capitalCity : List Char
  existsSince : Nat
  population : Nat
  deriving DecidableEq

/-- Sign model of the C `strcmp`: the first differing character position
decides, a proper prefix is smaller, result normalized to -1 / 0 / 1 (the C
library only contracts the sign). -/
def strcmp : List Char → List Char → Int
  | [], [] => 0
  | [], _ :: _ => -1
  | _ :: _, [] => 1
  | a :: as, b :: bs =>
    if a < b then -1
    else if b < a then 1
    else strcmp as bs

/-- The comparator `compareTreeNodeKey` of `utils.cpp`, embedded from its
source: with parameters `(tKey, insertedKey)` it returns
`strcmp(insertedKey->stateName, tKey->stateName)` - note the argument
order. -/
def compareTreeNodeKey (tKey insertedKey : TreeNodeKey) : Int :=
  strcmp insertedKey.stateName tKey.stateName

/-- The value equality `equalsTreeNodeValue` of `utils.cpp`, embedded from
its source: capital city strings compare equal under `strcmp` and the two
numeric fields coincide. -/
def equalsTreeNodeValue (tValue tValueSearched : TreeNodeValue) : Bool :=
  strcmp tValueSearched.capitalCity tValue.capitalCity == 0 &&
    tValueSearched.existsSince == tValue.existsSince &&
    tValueSearched.population == tValue.population

/-- Strict lexicographic order on character lists, the reference notion of
one C string being smaller than another: the first differing character
decides and a proper prefix is smaller. -/
def lexLtB : List Char → List Char → Bool
  | [], [] => false
  | [], _ :: _ => true
  | _ :: _, [] => false
  | a :: as, b :: bs =>
    if a < b then true
    else if b < a then false
    else lexLtB as bs

/-!
Structural invariants of the tree (section 3 of the design document) and the
machinery for quantifying over arbitrary operation sequences.
-/

namespace RBT

variable {κ ν : Type}

/-- Invariant I2: no node anywhere in the tree has a RED right child. -/
def NoRedRight : RBT κ ν → Prop
  | .nil => True
  | .node _ l _ _ r => NoRedRight l ∧ NoRedRight r ∧ isRed r = false

/-- Invariant I3: no RED node anywhere in the tree has a RED left child. -/
def NoRedRed : RBT κ ν → Prop
  | .nil => True
  | .node c l _ _ r => NoRedRed l ∧ NoRedRed r ∧ (c = true → isRed l = false)

/-- Combined local color discipline, the conjunction of I2 and I3 stated in
one recursion (convenient for induction). -/
def ColorOk : RBT κ ν → Prop
  | .nil => True
  | .node c l _ _ r =>
      ColorOk l ∧ ColorOk r ∧ isRed r = false ∧ (c = true → isRed l = false)

/-- Invariant I4 as an inductive black-height assignment: `IsBal t n` says
every root-to-null path of `t` passes through exactly `n` BLACK nodes. -/
inductive IsBal : RBT κ ν → Nat → Prop where
  | nil : IsBal .nil 0
  | red {l : RBT κ ν} {k : κ} {v : ν} {r : RBT κ ν} {n : Nat} :
      IsBal l n → IsBal r n → IsBal (.node true l k v r) n
  | black {l : RBT κ ν} {k : κ} {v : ν} {r : RBT κ ν} {n : Nat} :
      IsBal l n → IsBal r n → IsBal (.node false l k v r) (n + 1)

/-- Number of BLACK nodes crossed on each root-to-null path, in path order:
the list form of invariant I4 used by the invariant claim. -/
def pathBlacks : RBT κ ν → List Nat
  | .nil => [0]
  | .node c l _ _ r =>
      (pathBlacks l ++ pathBlacks r).map (fun m => m + (if c then 0 else 1))

variable [LinearOrder κ]

/-- Ordering invariant I1: the in-order key sequence is strictly sorted. -/
def Ordered (t : RBT κ ν) : Prop :=
  (keysOf t).Sorted (· < ·)

/-- Ordering is decidable, so concrete witnesses can be checked by
evaluation. -/
instance orderedDecidable (t : RBT κ ν) : Decidable (Ordered t) :=
  List.decidableSorted (keysOf t)

/-- Precondition of the deletion descent: the node is RED or its left child
is RED (the redness the entry points seed and the borrowing maintains). -/
def Pre (t : RBT κ ν) : Prop :=
  isRed t = true ∨ isRed (leftOf t) = true

/-- Transient right-leaning configuration handed to the right-descending
deletion recursions by the rotating branch of `moveRedRight`: a BLACK node
with a BLACK, internally disciplined left child and a RED, internally
disciplined right child, black-balanced at height `n`.  The right-red link
is repaired by the caller's fixup after the recursion returns. -/
def RightLeanCfg (t : RBT κ ν) (n : Nat) : Prop :=
  ∃ l k v rl rk rv rr, t = .node false l k v (.node true rl rk rv rr) ∧
    ColorOk l ∧ isRed l = false ∧ ColorOk (.node true rl rk rv rr) ∧
    ∃ m, n = m + 1 ∧ IsBal l m ∧ IsBal (.node true rl rk rv rr) m

/-- Shape contract of a successful recursive insertion, indexed by the color
of the node inserted into: below a BLACK node the result keeps the full
color discipline (any root color); below a RED node the result is a RED node
whose left child may be RED (the red-red signal the parent's fixup
absorbs), with both children internally disciplined and the right child
BLACK. -/
def InsShape (c : Bool) (t2 : RBT κ ν) : Prop :=
  if c then
    ∃ l2 k2 v2 r2, t2 = RBT.node true l2 k2 v2 r2 ∧ ColorOk l2 ∧ ColorOk r2 ∧
      isRed r2 = false
  else ColorOk t2

end RBT

/-- Full invariant of a map state: order, color discipline, black balance,
BLACK root and exact node count. -/
structure Inv (m : TreeMap κ ν) : Prop where
  ord : RBT.Ordered m.root
  color : RBT.ColorOk m.root
  bal : ∃ n, RBT.IsBal m.root n
  rootBlack : RBT.isRed m.root = false
  count : m.nodeAmount = RBT.size m.root

/-- One public mutating call, with the resource-failure knobs of the insert
path made explicit. -/
inductive MapOp (κ ν : Type) where
  | put (key : κ) (nv : ν) (allocOk kOk vOk : Bool)
  | del (key : κ)
  | pollFirst
  | pollLast


/-- State reached after one public mutating call (the returned status and
the surfaced pair are dropped; only the map state matters here). -/
def applyOp (m : TreeMap κ ν) : MapOp κ ν → TreeMap κ ν
  | .put key nv allocOk kOk vOk => (putPair m key nv allocOk kOk vOk).2
  | .del key => (deletePair m key).2.1
  | .pollFirst => (pollFirstPair m).2.1
  | .pollLast => (pollLastPair m).2.1

/-- State reached after a sequence of public mutating calls. -/
def applyOps (m : TreeMap κ ν) (ops : List (MapOp κ ν)) : TreeMap κ ν :=
  ops.foldl applyOp m

/-- Sorted-position insertion into an association list: the list-level
meaning of a successful `insGo`. -/
def insList (key : κ) (nv : ν) : List (κ × ν) → List (κ × ν)
  | [] => [(key, nv)]
  | p :: ps => if key < p.1 then (key, nv) :: p :: ps else p :: insList key nv ps

/-- Value stored under a key in an association list. -/
def lookupKV (key : κ) (l : List (κ × ν)) : Option ν :=
  (l.find? (fun p => decide (p.1 = key))).map Prod.snd

/-- Removal of every pair carrying the given key from an association list:
the list-level meaning of a successful deletion. -/
def eraseKey (key : κ) (l : List (κ × ν)) : List (κ × ν) :=
  l.filter (fun p => !(decide (p.1 = key)))

/-!
Concrete sample-domain data of the test suites (state names with their
capitals), used by the scenario claims.
-/

/-- Sample map type of the test suites: state-name keys ordered
lexicographically (the composite of the engine descent with
`compareTreeNodeKey`), capital-city values. -/
abbrev StateMap : Type := TreeMap (List Char) TreeNodeValue

def kAlabama : List Char := "Alabama".data
def kCalifornia : List Char := "California".data
def kConnecticut : List Char := "Connecticut".data
def kKansas : List Char := "Kansas".data
def kMinnesota : List Char := "Minnesota".data
def kNewYork : List Char := "New York".data
def kOregon : List Char := "Oregon".data
def kWashington : List Char := "Washington".data

def vAlabama : TreeNodeValue := ⟨"Montgomery".data, 1819, 5039877⟩
def vCalifornia : TreeNodeValue := ⟨"Sacramento".data, 1836, 39538223⟩
def vConnecticut : TreeNodeValue := ⟨"Hartford".data, 1788, 3605944⟩
def vKansas : TreeNodeValue := ⟨"Topeka".data, 1861, 2937880⟩
def vMinnesota : TreeNodeValue := ⟨"Saint Paul".data, 1858, 5706494⟩
def vNewYork : TreeNodeValue := ⟨"Albany".data, 1788, 20201249⟩
def vOregon : TreeNodeValue := ⟨"Salem".data, 1859, 4237256⟩
def vWashington : TreeNodeValue := ⟨"Olympia".data, 1889, 7705281⟩

/-- Insertion of one pair with all resource knobs succeeding. -/
def putOk (m : StateMap) (p : List Char × TreeNodeValue) : StateMap :=
  (putPair m p.1 p.2 true true true).2

/-- Map built from the empty map by successive insertions. -/
def mapOfList (ps : List (List Char × TreeNodeValue)) : StateMap :=
  ps.foldl putOk ⟨.nil, 0⟩

/-- The five-state map of the full-drain scenario, inserted in the order the
test `createTestTree` uses. -/
def drainMap : StateMap :=
  mapOfList [(kWashington, vWashington), (kOregon, vOregon), (kNewYork, vNewYork),
    (kMinnesota, vMinnesota), (kKansas, vKansas)]

def drainPoll1 : Status × StateMap × Option (List Char × TreeNodeValue) :=
  pollFirstPair drainMap

def drainPoll2 : Status × StateMap × Option (List Char × TreeNodeValue) :=
  pollFirstPair drainPoll1.2.1

def drainPoll3 : Status × StateMap × Option (List Char × TreeNodeValue) :=
  pollFirstPair drainPoll2.2.1

def drainPoll4 : Status × StateMap × Option (List Char × TreeNodeValue) :=
  pollFirstPair drainPoll3.2.1

def drainPoll5 : Status × StateMap × Option (List Char × TreeNodeValue) :=
  pollFirstPair drainPoll4.2.1

/-- Start state of the deletion-restructuring scenario: BLACK root Oregon
with BLACK children Minnesota and Washington, count 3. -/
def oregonThreeMap : StateMap :=
  ⟨.node false (.node false .nil kMinnesota vMinnesota .nil) kOregon vOregon
    (.node false .nil kWashington vWashington .nil), 3⟩

/-!
Theorems.  First the sample-domain comparator, then the creation validation,
the concrete scenarios, and the resource-failure discipline; the structural
invariant and round-trip developments follow.
-/

/-- Sign characterization of the `strcmp` model: negative exactly on
lexicographically smaller, zero exactly on equal, positive exactly on
lexicographically larger. -/
theorem strcmp_sign_spec : ∀ a b : List Char,
    (strcmp a b < 0 ↔ lexLtB a b = true) ∧ (strcmp a b = 0 ↔ a = b) ∧
      (0 < strcmp a b ↔ lexLtB b a = true) := by
  intro a
  induction a with
  | nil =>
    intro b
    cases b <;> simp [strcmp, lexLtB]
  | cons x xs ih =>
    intro b
    cases b with
    | nil => simp [strcmp, lexLtB]
    | cons y ys =>
      simp only [strcmp, lexLtB]
      rcases lt_trichotomy x y with h | h | h
      · have hne : x ≠ y := ne_of_lt h
        simp [h, asymm h, hne]
      · subst h
        simp [lt_irrefl, ih ys]
      · have hne : x ≠ y := ne_of_gt h
        simp [h, asymm h, hne]

/-- C10 counterexample: with k1 = "Kansas" and k2 = "Oregon" the first key is
lexicographically smaller, yet `compareTreeNodeKey` returns a positive value,
not the negative one the `KeyComparison` typedef documents. -/
theorem compareTreeNodeKey_direction_counterexample :
    lexLtB "Kansas".data "Oregon".data = true ∧
      compareTreeNodeKey ⟨"Kansas".data, 6⟩ ⟨"Oregon".data, 6⟩ = 1 ∧
      ¬ compareTreeNodeKey ⟨"Kansas".data, 6⟩ ⟨"Oregon".data, 6⟩ < 0 := by
  decide

/-- C10 (amended): `compareTreeNodeKey` orders its arguments in the reverse
of the direction the `KeyComparison` typedef documents: it computes
`strcmp(k2.stateName, k1.stateName)`, so it is negative exactly when k2's
stateName is lexicographically smaller than k1's, zero exactly when the
names are equal, and positive exactly when k2's stateName is larger. -/
theorem compareTreeNodeKey_reversed_direction (k1 k2 : TreeNodeKey) :
    (compareTreeNodeKey k1 k2 < 0 ↔ lexLtB k2.stateName k1.stateName = true) ∧
      (compareTreeNodeKey k1 k2 = 0 ↔ k2.stateName = k1.stateName) ∧
      (0 < compareTreeNodeKey k1 k2 ↔ lexLtB k1.stateName k2.stateName = true) :=
  strcmp_sign_spec k2.stateName k1.stateName

/-- C9: `createTreeMap` validates its arguments before building anything:
zero key size reports KEY_SIZE_ZERO with no map, zero value size reports
VALUE_SIZE_ZERO, each absent required function reports its dedicated status,
and with valid sizes and all four required functions present the creation
succeeds even with the optional release function absent, yielding the empty
map with null root and node count zero. -/
theorem createTreeMap_validation {κ ν : Type} (keySize valueSize : Nat)
    (kComp vEqual kCopy vCopy fPair : Bool) :
    (keySize = 0 →
      createTreeMap (κ := κ) (ν := ν) keySize valueSize kComp vEqual kCopy vCopy fPair
        = (none, .KEY_SIZE_ZERO)) ∧
    (keySize ≠ 0 → valueSize = 0 →
      createTreeMap (κ := κ) (ν := ν) keySize valueSize kComp vEqual kCopy vCopy fPair
        = (none, .VALUE_SIZE_ZERO)) ∧
    (keySize ≠ 0 → valueSize ≠ 0 → kComp = false →
      createTreeMap (κ := κ) (ν := ν) keySize valueSize kComp vEqual kCopy vCopy fPair
        = (none, .KEY_COMP_FUNC_NULLPTR)) ∧
    (keySize ≠ 0 → valueSize ≠ 0 → kComp = true → vEqual = false →
      createTreeMap (κ := κ) (ν := ν) keySize valueSize kComp vEqual kCopy vCopy fPair
        = (none, .VALUE_EQUAL_FUNC_NULLPTR)) ∧
    (keySize ≠ 0 → valueSize ≠ 0 → kComp = true → vEqual = true → kCopy = false →
      createTreeMap (κ := κ) (ν := ν) keySize valueSize kComp vEqual kCopy vCopy fPair
        = (none, .KEY_COPY_FUNC_NULLPTR)) ∧
    (keySize ≠ 0 → valueSize ≠ 0 → kComp = true → vEqual = true → kCopy = true →
        vCopy = false →
      createTreeMap (κ := κ) (ν := ν) keySize valueSize kComp vEqual kCopy vCopy fPair
        = (none, .VALUE_COPY_FUNC_NULLPTR)) ∧
    (keySize ≠ 0 → valueSize ≠ 0 → kComp = true → vEqual = true → kCopy = true →
        vCopy = true →
      createTreeMap (κ := κ) (ν := ν) keySize valueSize kComp vEqual kCopy vCopy fPair
        = (some ⟨.nil, 0⟩, .SUCCESS)) := by
  refine ⟨?_, ?_, ?_, ?_, ?_, ?_, ?_⟩ <;>
    · intros
      simp_all [createTreeMap]

/-- C9 witness: creation with valid sizes, all required functions and no
release function succeeds with the empty map. -/
theorem createTreeMap_validation_witness :
    createTreeMap (κ := Nat) (ν := Nat) 16 24 true true true true false
      = (some ⟨.nil, 0⟩, .SUCCESS) :=
  (createTreeMap_validation 16 24 true true true true false).2.2.2.2.2.2
    (by decide) (by decide) rfl rfl rfl rfl

/-- C5: inserting "Connecticut", "California", "Alabama" in that order into
an empty map produces the tree with BLACK root "California", BLACK left
child "Alabama" and BLACK right child "Connecticut", with node count 3 and
every insertion reporting SUCCESS. -/
theorem putPair_rotation_scenario :
    (putPair (⟨.nil, 0⟩ : StateMap) kConnecticut vConnecticut true true true).1 = .SUCCESS ∧
    (putPair (mapOfList [(kConnecticut, vConnecticut)]) kCalifornia vCalifornia
        true true true).1 = .SUCCESS ∧
    (putPair (mapOfList [(kConnecticut, vConnecticut), (kCalifornia, vCalifornia)])
        kAlabama vAlabama true true true).1 = .SUCCESS ∧
    mapOfList [(kConnecticut, vConnecticut), (kCalifornia, vCalifornia),
        (kAlabama, vAlabama)] =
      ⟨.node false (.node false .nil kAlabama vAlabama .nil) kCalifornia vCalifornia
        (.node false .nil kConnecticut vConnecticut .nil), 3⟩ := by
  decide

/-- C4: deleting the root key "Oregon" from the three-node tree with BLACK
root Oregon, left child Minnesota and right child Washington returns
SUCCESS, reports the original Oregon pair (not the successor's) in the
result buffer, and leaves the two-node tree with BLACK root Washington and
RED left child Minnesota, count 2. -/
theorem deletePair_root_three_node_scenario :
    deletePair oregonThreeMap kOregon =
      (.SUCCESS,
       ⟨.node false (.node true .nil kMinnesota vMinnesota .nil) kWashington vWashington .nil,
        2⟩,
       some (kOregon, vOregon)) := by
  decide

/-- C3: on the five-state map, successive `pollFirstPair` calls remove and
return the pairs in ascending key order (Kansas, Minnesota, New York,
Oregon, Washington); after the fifth call the root is null and the count is
0, and a further `pollFirstPair` reports DOES_NOT_CONTAIN. -/
theorem pollFirstPair_full_drain_scenario :
    drainPoll1.1 = .SUCCESS ∧ drainPoll1.2.2 = some (kKansas, vKansas) ∧
    drainPoll2.1 = .SUCCESS ∧ drainPoll2.2.2 = some (kMinnesota, vMinnesota) ∧
    drainPoll3.1 = .SUCCESS ∧ drainPoll3.2.2 = some (kNewYork, vNewYork) ∧
    drainPoll4.1 = .SUCCESS ∧ drainPoll4.2.2 = some (kOregon, vOregon) ∧
    drainPoll5.1 = .SUCCESS ∧ drainPoll5.2.2 = some (kWashington, vWashington) ∧
    drainPoll5.2.1 = ⟨.nil, 0⟩ ∧
    pollFirstPair drainPoll5.2.1 = (.DOES_NOT_CONTAIN, ⟨.nil, 0⟩, none) := by
  decide

/-- C8: a failing node allocation or a failing user copy aborts the
triggering operation with the dedicated error status and leaves the map
exactly as it was: any non-SUCCESS `putPair` leaves the state untouched,
each failure knob produces its dedicated status when the key is actually
absent, and a copy failure inside `getValue`, `getKey`, `replaceValue`, the
four neighbor queries or the two extremal queries reports the copy error
while the map state is unchanged. -/
theorem resource_failure_no_mutation {κ ν : Type} [LinearOrder κ]
    (m : TreeMap κ ν) (key : κ) (nv : ν) (veq : ν → ν → Bool) (tgt : ν)
    (allocOk kOk vOk : Bool) :
    ((putPair m key nv allocOk kOk vOk).1 ≠ .SUCCESS →
      (putPair m key nv allocOk kOk vOk).2 = m) ∧
    (insGo key nv m.root ≠ none →
      putPair m key nv false kOk vOk = (.ERR_HEAP_ALLOCATION, m) ∧
      putPair m key nv true false vOk = (.ERR_COPY_KEY, m) ∧
      putPair m key nv true true false = (.ERR_COPY_VALUE, m)) ∧
    ((getValue m key false).2.1 = m ∧
      (containsB m.root key = true → (getValue m key false).1 = .ERR_COPY_VALUE)) ∧
    ((getKey veq m tgt false).2.1 = m ∧
      (getKeyB veq m.root tgt ≠ none → (getKey veq m tgt false).1 = .ERR_COPY_KEY)) ∧
    ((replaceValue m key nv false).2 = m ∧
      (containsB m.root key = true → (replaceValue m key nv false).1 = .ERR_COPY_VALUE)) ∧
    ((ceilingPair m key kOk vOk).2.1 = m ∧
      (ceilGo m.root key ≠ none → (ceilingPair m key false vOk).1 = .ERR_COPY_KEY)) ∧
    ((floorPair m key kOk vOk).2.1 = m ∧
      (floorGo m.root key ≠ none → (floorPair m key false vOk).1 = .ERR_COPY_KEY)) ∧
    ((lowerPair m key kOk vOk).2.1 = m ∧
      (lowerGo m.root key ≠ none → (lowerPair m key false vOk).1 = .ERR_COPY_KEY)) ∧
    ((higherPair m key kOk vOk).2.1 = m ∧
      (higherGo m.root key ≠ none → (higherPair m key false vOk).1 = .ERR_COPY_KEY)) ∧
    ((minPair m kOk vOk).2.1 = m ∧
      (minPairOf m.root ≠ none → (minPair m false vOk).1 = .ERR_COPY_KEY)) ∧
    ((maxPair m kOk vOk).2.1 = m ∧
      (maxPairOf m.root ≠ none → (maxPair m false vOk).1 = .ERR_COPY_KEY)) := by
  constructor
  · intro hne
    revert hne
    unfold putPair
    cases h : insGo key nv m.root with
    | none => intro _; rfl
    | some t2 => cases allocOk <;> cases kOk <;> cases vOk <;> simp
  constructor
  · intro hne
    unfold putPair
    cases h : insGo key nv m.root with
    | none => exact absurd h hne
    | some t2 => cases kOk <;> cases vOk <;> simp
  constructor
  · constructor
    · unfold getValue
      cases h : getV m.root key <;> simp
    · intro hc
      unfold containsB at hc
      unfold getValue
      cases h : getV m.root key with
      | none => rw [h] at hc; simp [Option.isSome] at hc
      | some v => simp
  constructor
  · constructor
    · unfold getKey
      cases h : getKeyB veq m.root tgt <;> simp
    · intro hc
      unfold getKey
      cases h : getKeyB veq m.root tgt with
      | none => exact absurd h hc
      | some k2 => simp
  constructor
  · constructor
    · unfold replaceValue
      cases h : getV m.root key <;> simp
    · intro hc
      unfold containsB at hc
      unfold replaceValue
      cases h : getV m.root key with
      | none => rw [h] at hc; simp [Option.isSome] at hc
      | some v => simp
  constructor
  · constructor
    · unfold ceilingPair
      cases h : ceilGo m.root key <;> cases kOk <;> cases vOk <;> simp
    · intro hc
      unfold ceilingPair
      cases h : ceilGo m.root key with
      | none => exact absurd h hc
      | some p => simp
  constructor
  · constructor
    · unfold floorPair
      cases h : floorGo m.root key <;> cases kOk <;> cases vOk <;> simp
    · intro hc
      unfold floorPair
      cases h : floorGo m.root key with
      | none => exact absurd h hc
      | some p => simp
  constructor
  · constructor
    · unfold lowerPair
      cases h : lowerGo m.root key <;> cases kOk <;> cases vOk <;> simp
    · intro hc
      unfold lowerPair
      cases h : lowerGo m.root key with
      | none => exact absurd h hc
      | some p => simp
  constructor
  · constructor
    · unfold higherPair
      cases h : higherGo m.root key <;> cases kOk <;> cases vOk <;> simp
    · intro hc
      unfold higherPair
      cases h : higherGo m.root key with
      | none => exact absurd h hc
      | some p => simp
  constructor
  · constructor
    · unfold minPair
      cases h : minPairOf m.root <;> cases kOk <;> cases vOk <;> simp
    · intro hc
      unfold minPair
      cases h : minPairOf m.root with
      | none => exact absurd h hc
      | some p => simp
  · constructor
    · unfold maxPair
      cases h : maxPairOf m.root <;> cases kOk <;> cases vOk <;> simp
    · intro hc
      unfold maxPair
      cases h : maxPairOf m.root with
      | none => exact absurd h hc
      | some p => simp

/-- C8 witness: on the singleton Kansas map with a failing allocation knob,
`putPair` of Oregon reports ERR_HEAP_ALLOCATION and the map is unchanged,
and `getValue` of Kansas with a failing value copy reports
ERR_COPY_VALUE. -/
theorem resource_failure_no_mutation_witness :
    putPair (mapOfList [(kKansas, vKansas)]) kOregon vOregon false true true
        = (.ERR_HEAP_ALLOCATION, mapOfList [(kKansas, vKansas)]) ∧
      (getValue (mapOfList [(kKansas, vKansas)]) kKansas false).1 = .ERR_COPY_VALUE := by
  have h := resource_failure_no_mutation (mapOfList [(kKansas, vKansas)])
    kOregon vOregon (fun a b => equalsTreeNodeValue a b) vKansas false true true
  refine ⟨(h.2.1 (by decide)).1, ?_⟩
  have h2 := resource_failure_no_mutation (mapOfList [(kKansas, vKansas)])
    kKansas vKansas (fun a b => equalsTreeNodeValue a b) vKansas false true true
  exact h2.2.2.1.2 (by decide)

/-!
Basic structural lemmas about the embedded tree engine.
-/

namespace RBT

variable {κ ν : Type}

theorem isRed_node (c : Bool) (l : RBT κ ν) (k : κ) (v : ν) (r : RBT κ ν) :
    isRed (.node c l k v r) = c := by
  cases c <;> rfl

theorem isRed_nil : isRed (.nil : RBT κ ν) = false := rfl

theorem leftOf_nil : leftOf (.nil : RBT κ ν) = .nil := rfl

theorem leftOf_node (c : Bool) (l : RBT κ ν) (k : κ) (v : ν) (r : RBT κ ν) :
    leftOf (.node c l k v r) = l := rfl

theorem rightOf_nil : rightOf (.nil : RBT κ ν) = .nil := rfl

theorem rightOf_node (c : Bool) (l : RBT κ ν) (k : κ) (v : ν) (r : RBT κ ν) :
    rightOf (.node c l k v r) = r := rfl

theorem isRed_true_shape {t : RBT κ ν} (h : isRed t = true) :
    ∃ l k v r, t = .node true l k v r := by
  rcases t with _ | ⟨c, l, k, v, r⟩
  · simp [isRed] at h
  · cases c
    · simp [isRed] at h
    · exact ⟨l, k, v, r, rfl⟩

theorem isNil_true_iff {t : RBT κ ν} : isNil t = true ↔ t = .nil := by
  rcases t with _ | _ <;> simp [isNil]

theorem size_eq_length_inorder (t : RBT κ ν) : size t = (inorderKV t).length := by
  induction t with
  | nil => rfl
  | node c l k v r ihl ihr =>
    simp only [size, inorderKV, List.length_append, List.length_cons, ihl, ihr]
    omega

theorem inorder_rotL (t : RBT κ ν) : inorderKV (rotL t) = inorderKV t := by
  rcases t with _ | ⟨c, l, k, v, _ | ⟨cr, rl, rk, rv, rr⟩⟩ <;>
    simp [rotL, inorderKV]

theorem inorder_rotR (t : RBT κ ν) : inorderKV (rotR t) = inorderKV t := by
  rcases t with _ | ⟨c, _ | ⟨cl, ll, lk, lv, lr⟩, k, v, r⟩ <;>
    simp [rotR, inorderKV]

theorem inorder_flip (t : RBT κ ν) : inorderKV (flip t) = inorderKV t := by
  rcases t with _ | ⟨c, _ | ⟨cl, ll, lk, lv, lr⟩, k, v, _ | ⟨cr, rl, rk, rv, rr⟩⟩ <;>
    simp [flip, inorderKV]

theorem inorder_fixUp (t : RBT κ ν) : inorderKV (fixUp t) = inorderKV t := by
  simp only [fixUp]
  split_ifs <;> simp [inorder_rotL, inorder_rotR, inorder_flip]

theorem inorder_moveRedLeft (t : RBT κ ν) : inorderKV (moveRedLeft t) = inorderKV t := by
  rcases t with _ | ⟨c, L, k, v, R⟩
  · rfl
  rcases L with _ | ⟨cl, ll, lk, lv, lr⟩ <;> rcases R with _ | ⟨cr, RL, rk, rv, rr⟩
  all_goals try rcases RL with _ | ⟨crl, rll, rlk, rlv, rlr⟩
  all_goals try cases crl
  all_goals
    simp [moveRedLeft, flip, rotL, rotR, setRight, rightOf, leftOf, isRed, inorderKV]

theorem inorder_moveRedRight (t : RBT κ ν) : inorderKV (moveRedRight t) = inorderKV t := by
  rcases t with _ | ⟨c, L, k, v, R⟩
  · rfl
  rcases L with _ | ⟨cl, LL, lk, lv, lr⟩ <;> rcases R with _ | ⟨cr, rl, rk, rv, rr⟩
  all_goals try rcases LL with _ | ⟨cll, lll, llk, llv, llr⟩
  all_goals try cases cll
  all_goals
    simp [moveRedRight, flip, rotL, rotR, setRight, rightOf, leftOf, isRed, inorderKV]

theorem inorder_blacken (t : RBT κ ν) : inorderKV (blacken t) = inorderKV t := by
  rcases t with _ | _ <;> rfl

theorem inorder_setRed (t : RBT κ ν) : inorderKV (setRed t) = inorderKV t := by
  rcases t with _ | _ <;> rfl

theorem inorder_redTop (t : RBT κ ν) : inorderKV (redTop t) = inorderKV t := by
  unfold redTop
  split_ifs <;> simp [inorder_setRed]

theorem size_of_inorder_eq {t s : RBT κ ν} (h : inorderKV t = inorderKV s) :
    size t = size s := by
  rw [size_eq_length_inorder, size_eq_length_inorder, h]

theorem isRed_blacken (t : RBT κ ν) : isRed (blacken t) = false := by
  rcases t with _ | _ <;> rfl

theorem keysOf_nil : keysOf (.nil : RBT κ ν) = [] := rfl

theorem keysOf_node (c : Bool) (l : RBT κ ν) (k : κ) (v : ν) (r : RBT κ ν) :
    keysOf (.node c l k v r) = keysOf l ++ k :: keysOf r := by
  simp [keysOf, inorderKV]

theorem isBal_nil_iff {n : Nat} : IsBal (.nil : RBT κ ν) n ↔ n = 0 := by
  constructor
  · intro h; cases h; rfl
  · rintro rfl; exact .nil

theorem isBal_red_iff {l : RBT κ ν} {k : κ} {v : ν} {r : RBT κ ν} {n : Nat} :
    IsBal (.node true l k v r) n ↔ IsBal l n ∧ IsBal r n := by
  constructor
  · intro h; cases h with | red h1 h2 => exact ⟨h1, h2⟩
  · rintro ⟨h1, h2⟩; exact .red h1 h2

theorem isBal_black_iff {l : RBT κ ν} {k : κ} {v : ν} {r : RBT κ ν} {n : Nat} :
    IsBal (.node false l k v r) n ↔ ∃ m, n = m + 1 ∧ IsBal l m ∧ IsBal r m := by
  constructor
  · intro h
    cases h with | black h1 h2 => exact ⟨_, rfl, h1, h2⟩
  · rintro ⟨m, rfl, h1, h2⟩; exact .black h1 h2

theorem isBal_zero_black {t : RBT κ ν} (hb : IsBal t 0) (hr : isRed t = false) :
    t = .nil := by
  rcases t with _ | ⟨c, l, k, v, r⟩
  · rfl
  · cases c
    · rcases isBal_black_iff.1 hb with ⟨m, hm, _⟩
      omega
    · simp [isRed] at hr

theorem ordered_node_iff [LinearOrder κ] {c : Bool} {l : RBT κ ν} {k : κ} {v : ν}
    {r : RBT κ ν} :
    Ordered (.node c l k v r) ↔
      Ordered l ∧ Ordered r ∧ (∀ a ∈ keysOf l, a < k) ∧ ∀ b ∈ keysOf r, k < b := by
  simp only [Ordered, keysOf_node, List.Sorted] at *
  constructor
  · intro h
    have hA := (List.pairwise_append.1 h).1
    have hkB := (List.pairwise_append.1 h).2.1
    have hcross := (List.pairwise_append.1 h).2.2
    exact ⟨hA, (List.pairwise_cons.1 hkB).2,
      fun a ha => hcross a ha k (List.mem_cons_self k _),
      (List.pairwise_cons.1 hkB).1⟩
  · rintro ⟨hA, hB, hAk, hkB⟩
    refine List.pairwise_append.2 ⟨hA, List.pairwise_cons.2 ⟨hkB, hB⟩, ?_⟩
    intro x hx y hy
    rcases List.mem_cons.1 hy with rfl | hy2
    · exact hAk x hx
    · exact lt_trans (hAk x hx) (hkB y hy2)

theorem ordered_of_inorder_eq [LinearOrder κ] {t s : RBT κ ν}
    (h : inorderKV t = inorderKV s) (hs : Ordered s) : Ordered t := by
  unfold Ordered keysOf at *
  rw [h]
  exact hs

theorem colorOk_blacken {t : RBT κ ν} (h : ColorOk t) : ColorOk (blacken t) := by
  rcases t with _ | ⟨c, l, k, v, r⟩
  · trivial
  · obtain ⟨h1, h2, h3, _⟩ := h
    exact ⟨h1, h2, h3, by simp⟩

theorem isBal_blacken {t : RBT κ ν} {n : Nat} (h : IsBal t n) :
    ∃ m, IsBal (blacken t) m := by
  rcases t with _ | ⟨c, l, k, v, r⟩
  · exact ⟨0, .nil⟩
  · cases c
    · exact ⟨n, h⟩
    · rcases isBal_red_iff.1 h with ⟨h1, h2⟩
      exact ⟨n + 1, .black h1 h2⟩

theorem red_left_black {t : RBT κ ν} (hc : ColorOk t) (hr : isRed t = true) :
    isRed (leftOf t) = false := by
  obtain ⟨l, k, v, r, rfl⟩ := isRed_true_shape hr
  exact hc.2.2.2 rfl

theorem fixUp_id {c : Bool} {l : RBT κ ν} {k : κ} {v : ν} {r : RBT κ ν}
    (hr : isRed r = false) (hll : isRed l = false ∨ isRed (leftOf l) = false) :
    fixUp (.node c l k v r) = .node c l k v r := by
  unfold fixUp
  rcases hll with h | h <;> simp [leftOf_node, rightOf_node, hr, h]

end RBT

open RBT in
/-- Length bookkeeping of sorted-position insertion. -/
theorem insList_length (key : κ) (nv : ν) :
    ∀ L : List (κ × ν), (insList key nv L).length = L.length + 1 := by
  intro L
  induction L with
  | nil => rfl
  | cons p ps ih =>
    unfold insList
    split_ifs <;> simp [ih]

theorem insList_append_lt {key k : κ} (nv v : ν) (h : key < k)
    (A B : List (κ × ν)) :
    insList key nv (A ++ (k, v) :: B) = insList key nv A ++ (k, v) :: B := by
  induction A with
  | nil => simp [insList, h]
  | cons p ps ih =>
    simp only [List.cons_append, insList]
    split_ifs <;> simp [ih]

theorem insList_append_gt {key k : κ} (nv v : ν) (h : k < key)
    (A B : List (κ × ν)) (hA : ∀ p ∈ A, p.1 < k) :
    insList key nv (A ++ (k, v) :: B) = A ++ (k, v) :: insList key nv B := by
  induction A with
  | nil => simp [insList, asymm h]
  | cons p ps ih =>
    have hp : p.1 < k := hA p (by simp)
    simp only [List.cons_append, insList,
      if_neg (not_lt.2 (le_of_lt (lt_trans hp h))), List.append_eq]
    rw [ih (fun q hq => hA q (by simp [hq]))]

theorem insList_keys_subset (key : κ) (nv : ν) :
    ∀ L : List (κ × ν), ∀ a ∈ (insList key nv L).map Prod.fst,
      a = key ∨ a ∈ L.map Prod.fst := by
  intro L
  induction L with
  | nil => simp [insList]
  | cons p ps ih =>
    intro a ha
    unfold insList at ha
    split_ifs at ha
    · rcases List.mem_map.1 ha with ⟨q, hq, rfl⟩
      rcases List.mem_cons.1 hq with rfl | hq2
      · exact Or.inl rfl
      · exact Or.inr (List.mem_map.2 ⟨q, hq2, rfl⟩)
    · rcases List.mem_map.1 ha with ⟨q, hq, rfl⟩
      rcases List.mem_cons.1 hq with rfl | hq2
      · exact Or.inr (by simp)
      · rcases ih q.1 (List.mem_map.2 ⟨q, hq2, rfl⟩) with h1 | h1
        · exact Or.inl h1
        · exact Or.inr (by rw [List.map_cons]; exact List.mem_cons.2 (Or.inr h1))

theorem insList_sorted (key : κ) (nv : ν) :
    ∀ L : List (κ × ν), (L.map Prod.fst).Sorted (· < ·) →
      key ∉ L.map Prod.fst → ((insList key nv L).map Prod.fst).Sorted (· < ·) := by
  intro L
  induction L with
  | nil =>
    intro _ _
    simp [insList, List.Sorted]
  | cons p ps ih =>
    intro hs hmem
    have hs2 : (ps.map Prod.fst).Sorted (· < ·) := (List.pairwise_cons.1 hs).2
    have hrel : ∀ b ∈ ps.map Prod.fst, p.1 < b := (List.pairwise_cons.1 hs).1
    have hne : key ≠ p.1 := by
      intro hEq
      exact hmem (by simp [hEq])
    have hmem2 : key ∉ ps.map Prod.fst := fun h2 => hmem (by simp [h2])
    unfold insList
    split_ifs with hlt
    · refine List.pairwise_cons.2 ⟨?_, hs⟩
      intro b hb
      rw [List.map_cons] at hb
      rcases List.mem_cons.1 hb with rfl | hb2
      · exact hlt
      · exact lt_trans hlt (hrel b hb2)
    · have hp : p.1 < key := lt_of_le_of_ne (not_lt.1 hlt) (Ne.symm hne)
      refine List.pairwise_cons.2 ⟨?_, ih hs2 hmem2⟩
      intro b hb
      rcases insList_keys_subset key nv ps b hb with rfl | hb2
      · exact hp
      · exact hrel b hb2

theorem lookupKV_insList_self (key : κ) (nv : ν) :
    ∀ L : List (κ × ν), key ∉ L.map Prod.fst →
      lookupKV key (insList key nv L) = some nv := by
  intro L
  induction L with
  | nil =>
    intro _
    simp [insList, lookupKV, List.find?]
  | cons p ps ih =>
    intro hmem
    have hne : ¬ p.1 = key := by
      intro hEq
      exact hmem (by simp [hEq])
    have hmem2 : key ∉ ps.map Prod.fst := fun h2 => hmem (by simp [h2])
    unfold insList
    split_ifs
    · simp [lookupKV, List.find?]
    · simp only [lookupKV, List.find?, decide_eq_false hne]
      simpa [lookupKV] using ih hmem2

open RBT in
/-- Duplicate detection of the recursive insertion: on an ordered tree,
`insGo` returns `none` exactly when the key is already present. -/
theorem insGo_none_iff {key : κ} (nv : ν) :
    ∀ t : RBT κ ν, Ordered t → (insGo key nv t = none ↔ key ∈ keysOf t) := by
  intro t
  induction t with
  | nil =>
    intro _
    simp [insGo, keysOf_nil]
  | node c l k v r ihl ihr =>
    intro ho
    rcases ordered_node_iff.1 ho with ⟨hol, hor, hlk, hkr⟩
    rw [keysOf_node]
    rcases lt_trichotomy key k with h | h | h
    · simp only [insGo, if_pos h, Option.map_eq_none']
      rw [ihl hol]
      simp only [List.mem_append, List.mem_cons]
      constructor
      · exact fun hm => Or.inl hm
      · rintro (hm | rfl | hm)
        · exact hm
        · exact absurd h (lt_irrefl key)
        · exact absurd (lt_trans h (hkr key hm)) (lt_irrefl key)
    · subst h
      simp [insGo, lt_irrefl]
    · simp only [insGo, if_neg (asymm h), if_pos h, Option.map_eq_none']
      rw [ihr hor]
      simp only [List.mem_append, List.mem_cons]
      constructor
      · exact fun hm => Or.inr (Or.inr hm)
      · rintro (hm | rfl | hm)
        · exact absurd (lt_trans h (hlk key hm)) (lt_irrefl k)
        · exact absurd h (lt_irrefl key)
        · exact hm

open RBT in
/-- In-order contract of a successful insertion: the new pair lands at its
sorted position, everything else unchanged. -/
theorem insGo_inorder {key : κ} (nv : ν) :
    ∀ t : RBT κ ν, Ordered t → ∀ t2, insGo key nv t = some t2 →
      inorderKV t2 = insList key nv (inorderKV t) := by
  intro t
  induction t with
  | nil =>
    intro _ t2 h
    simp only [insGo, Option.some.injEq] at h
    subst h
    rfl
  | node c l k v r ihl ihr =>
    intro ho t2 h
    rcases ordered_node_iff.1 ho with ⟨hol, hor, hlk, hkr⟩
    rcases lt_trichotomy key k with hc | hc | hc
    · simp only [insGo, if_pos hc] at h
      rcases Option.map_eq_some'.1 h with ⟨l2, hl2, rfl⟩
      rw [inorder_fixUp]
      show inorderKV l2 ++ (k, v) :: inorderKV r = _
      rw [ihl hol l2 hl2]
      show _ = insList key nv (inorderKV l ++ (k, v) :: inorderKV r)
      rw [insList_append_lt nv v hc]
    · subst hc
      simp [insGo, lt_irrefl] at h
    · simp only [insGo, if_neg (asymm hc), if_pos hc] at h
      rcases Option.map_eq_some'.1 h with ⟨r2, hr2, rfl⟩
      rw [inorder_fixUp]
      show inorderKV l ++ (k, v) :: inorderKV r2 = _
      rw [ihr hor r2 hr2]
      show _ = insList key nv (inorderKV l ++ (k, v) :: inorderKV r)
      rw [insList_append_gt nv v hc (inorderKV l) (inorderKV r)
        (fun p hp => hlk p.1 (List.mem_map.2 ⟨p, hp, rfl⟩))]

open RBT in
/-- Color and balance contract of a successful insertion: the black height
is preserved exactly and the result satisfies the shape contract indexed by
the input root color (full discipline below a BLACK node, a possibly
red-red root below a RED node, repaired by the parent fixup). -/
theorem insGo_balance {key : κ} (nv : ν) :
    ∀ t : RBT κ ν, ∀ n, ColorOk t → IsBal t n → ∀ t2, insGo key nv t = some t2 →
      IsBal t2 n ∧ InsShape (isRed t) t2 := by
  intro t
  induction t with
  | nil =>
    intro n _ hb t2 h
    have hn : n = 0 := isBal_nil_iff.1 hb
    subst hn
    simp only [insGo, Option.some.injEq] at h
    subst h
    exact ⟨.red .nil .nil, ⟨trivial, trivial, rfl, by simp [isRed_nil]⟩⟩
  | node c l k v r ihl ihr =>
    intro n hc hb t2 h
    obtain ⟨hcl, hcr, hrB, hcImp⟩ := hc
    rcases lt_trichotomy key k with hlt | heq | hgt
    · -- insertion into the left subtree
      simp only [insGo, if_pos hlt] at h
      rcases Option.map_eq_some'.1 h with ⟨l2, hl2, rfl⟩
      cases c
      · rcases isBal_black_iff.1 hb with ⟨m, rfl, hbl, hbr⟩
        cases hlr : isRed l
        · -- BLACK root, BLACK left child
          rcases ihl m hcl hbl l2 hl2 with ⟨hbal2, hshape⟩
          rw [hlr] at hshape
          have hl2ll : isRed l2 = false ∨ isRed (leftOf l2) = false := by
            cases h2 : isRed l2
            · exact Or.inl rfl
            · exact Or.inr (red_left_black hshape h2)
          rw [fixUp_id hrB hl2ll]
          exact ⟨.black hbal2 hbr, ⟨hshape, hcr, hrB, by simp⟩⟩
        · -- BLACK root, RED left child
          rcases ihl m hcl hbl l2 hl2 with ⟨hbal2, hshape⟩
          rw [hlr] at hshape
          rcases hshape with ⟨a2, k2, v2, b2, rfl, hca2, hcb2, hb2B⟩
          rcases isBal_red_iff.1 hbal2 with ⟨hba2, hbb2⟩
          cases ha2r : isRed a2
          · rw [fixUp_id hrB (Or.inr (by simpa [leftOf_node] using ha2r))]
            refine ⟨.black (isBal_red_iff.2 ⟨hba2, hbb2⟩) hbr, ?_⟩
            exact ⟨⟨hca2, hcb2, hb2B, fun _ => ha2r⟩, hcr, hrB, by simp⟩
          · -- red-red left chain: rotate right, then flip
            rcases isRed_true_shape ha2r with ⟨aa, ak, av, ab, rfl⟩
            obtain ⟨hcaa, hcab, habB, haaB⟩ := hca2
            rcases isBal_red_iff.1 hba2 with ⟨hbaa, hbab⟩
            have hfix :
                fixUp (.node false (.node true (.node true aa ak av ab) k2 v2 b2) k v r)
                  = .node true (.node false aa ak av ab) k2 v2 (.node false b2 k v r) := by
              unfold fixUp
              simp [leftOf_node, rightOf_node, isRed_node, hrB, rotR, rotL, RBT.flip]
            rw [hfix]
            refine ⟨isBal_red_iff.2 ⟨.black hbaa hbab, .black hbb2 hbr⟩, ?_⟩
            exact ⟨⟨hcaa, hcab, habB, by simp⟩, ⟨hcb2, hcr, hrB, by simp⟩,
              by simp [isRed_node], by simp [isRed_node]⟩
      · -- RED root: left child is BLACK, the red-red signal moves up
        have hlB : isRed l = false := hcImp rfl
        rcases isBal_red_iff.1 hb with ⟨hbl, hbr⟩
        rcases ihl n hcl hbl l2 hl2 with ⟨hbal2, hshape⟩
        rw [hlB] at hshape
        have hl2ll : isRed l2 = false ∨ isRed (leftOf l2) = false := by
          cases h2 : isRed l2
          · exact Or.inl rfl
          · exact Or.inr (red_left_black hshape h2)
        rw [fixUp_id hrB hl2ll]
        exact ⟨isBal_red_iff.2 ⟨hbal2, hbr⟩, ⟨l2, k, v, r, rfl, hshape, hcr, hrB⟩⟩
    · subst heq
      simp [insGo, lt_irrefl] at h
    · -- insertion into the (always BLACK) right subtree
      simp only [insGo, if_neg (asymm hgt), if_pos hgt] at h
      rcases Option.map_eq_some'.1 h with ⟨r2, hr2, rfl⟩
      cases c
      · rcases isBal_black_iff.1 hb with ⟨m, rfl, hbl, hbr⟩
        rcases ihr m hcr hbr r2 hr2 with ⟨hbalr2, hshape⟩
        rw [hrB] at hshape
        cases hr2r : isRed r2
        · have hll : isRed l = false ∨ isRed (leftOf l) = false := by
            cases h2 : isRed l
            · exact Or.inl rfl
            · exact Or.inr (red_left_black hcl h2)
          rw [fixUp_id hr2r hll]
          exact ⟨.black hbl hbalr2, ⟨hcl, hshape, hr2r, by simp⟩⟩
        · rcases isRed_true_shape hr2r with ⟨rl2, rk2, rv2, rr2, rfl⟩
          obtain ⟨hcrl2, hcrr2, hrr2B, hrl2B⟩ := hshape
          have hrl2B2 : isRed rl2 = false := hrl2B rfl
          rcases isBal_red_iff.1 hbalr2 with ⟨hbrl2, hbrr2⟩
          cases hlr : isRed l
          · -- right-leaning red link: rotate left
            have hfix : fixUp (.node false l k v (.node true rl2 rk2 rv2 rr2))
                = .node false (.node true l k v rl2) rk2 rv2 rr2 := by
              unfold fixUp
              simp [leftOf_node, rightOf_node, isRed_node, hlr, hrl2B2, hrr2B, rotL]
            rw [hfix]
            refine ⟨.black (isBal_red_iff.2 ⟨hbl, hbrl2⟩) hbrr2, ?_⟩
            exact ⟨⟨hcl, hcrl2, hrl2B2, fun _ => hlr⟩, hcrr2, hrr2B, by simp⟩
          · -- both children RED: flip
            rcases isRed_true_shape hlr with ⟨la, lak, lav, lb, rfl⟩
            obtain ⟨hcla, hclb, hlbB, hlaB⟩ := hcl
            rcases isBal_red_iff.1 hbl with ⟨hbla, hblb⟩
            have hfix :
                fixUp (.node false (.node true la lak lav lb) k v
                    (.node true rl2 rk2 rv2 rr2))
                  = .node true (.node false la lak lav lb) k v
                      (.node false rl2 rk2 rv2 rr2) := by
              unfold fixUp
              simp [leftOf_node, rightOf_node, isRed_node, hlaB rfl, RBT.flip]
            rw [hfix]
            refine ⟨isBal_red_iff.2 ⟨.black hbla hblb, .black hbrl2 hbrr2⟩, ?_⟩
            exact ⟨⟨hcla, hclb, hlbB, by simp⟩, ⟨hcrl2, hcrr2, hrr2B, by simp⟩,
              by simp [isRed_node], by simp [isRed_node]⟩
      · -- RED root
        have hlB : isRed l = false := hcImp rfl
        rcases isBal_red_iff.1 hb with ⟨hbl, hbr⟩
        rcases ihr n hcr hbr r2 hr2 with ⟨hbalr2, hshape⟩
        rw [hrB] at hshape
        cases hr2r : isRed r2
        · rw [fixUp_id hr2r (Or.inl hlB)]
          exact ⟨isBal_red_iff.2 ⟨hbl, hbalr2⟩, ⟨l, k, v, r2, rfl, hcl, hshape, hr2r⟩⟩
        · rcases isRed_true_shape hr2r with ⟨rl2, rk2, rv2, rr2, rfl⟩
          obtain ⟨hcrl2, hcrr2, hrr2B, hrl2B⟩ := hshape
          have hrl2B2 : isRed rl2 = false := hrl2B rfl
          rcases isBal_red_iff.1 hbalr2 with ⟨hbrl2, hbrr2⟩
          have hfix : fixUp (.node true l k v (.node true rl2 rk2 rv2 rr2))
              = .node true (.node true l k v rl2) rk2 rv2 rr2 := by
            unfold fixUp
            simp [leftOf_node, rightOf_node, isRed_node, hlB, hrl2B2, hrr2B, rotL]
          rw [hfix]
          exact ⟨isBal_red_iff.2 ⟨isBal_red_iff.2 ⟨hbl, hbrl2⟩, hbrr2⟩,
            ⟨.node true l k v rl2, rk2, rv2, rr2, rfl,
              ⟨hcl, hcrl2, hrl2B2, fun _ => hlB⟩, hcrr2, hrr2B⟩⟩

open RBT in
/-- Invariant preservation of `putPair`: every outcome (success, duplicate,
resource failure) leaves a map satisfying the full invariant. -/
theorem putPair_inv {m : TreeMap κ ν} (hm : Inv m) (key : κ) (nv : ν)
    (aOk kOk vOk : Bool) : Inv (putPair m key nv aOk kOk vOk).2 := by
  unfold putPair
  cases h : insGo key nv m.root with
  | none => exact hm
  | some t2 =>
    cases aOk
    · exact hm
    cases kOk
    · exact hm
    cases vOk
    · exact hm
    simp only [Bool.not_true, Bool.false_eq_true, if_false]
    have hmem : key ∉ keysOf m.root := by
      intro hmem2
      rw [← insGo_none_iff nv m.root hm.ord] at hmem2
      rw [h] at hmem2
      cases hmem2
    rcases hm.bal with ⟨n, hbal⟩
    have hcolor := insGo_balance nv m.root n hm.color hbal t2 h
    rw [hm.rootBlack] at hcolor
    have hino := insGo_inorder nv m.root hm.ord t2 h
    refine ⟨?_, ?_, ?_, ?_, ?_⟩
    · show Ordered (blacken t2)
      unfold Ordered keysOf
      rw [inorder_blacken, hino]
      exact insList_sorted key nv (inorderKV m.root) hm.ord hmem
    · exact colorOk_blacken hcolor.2
    · exact isBal_blacken hcolor.1
    · exact isRed_blacken t2
    · show m.nodeAmount + 1 = size (blacken t2)
      rw [size_eq_length_inorder, inorder_blacken, hino, insList_length,
        ← size_eq_length_inorder, hm.count]

open RBT in
/-- C7: inserting a pair whose key is already present is a pure no-op: the
call reports ALREADY_CONTAINS and the map (tree structure, node colors,
stored values and node count) is returned exactly as it was, whatever the
state of the resource knobs. -/
theorem putPair_existing_key_is_noop {κ ν : Type} [LinearOrder κ]
    (m : TreeMap κ ν) (key : κ) (nv : ν) (allocOk kOk vOk : Bool)
    (hord : Ordered m.root) (hmem : key ∈ keysOf m.root) :
    putPair m key nv allocOk kOk vOk = (.ALREADY_CONTAINS, m) := by
  unfold putPair
  rw [(insGo_none_iff nv m.root hord).2 hmem]

/-- C7 witness: re-inserting Kansas (with the Oregon value) into the
singleton Kansas map reports ALREADY_CONTAINS and changes nothing. -/
theorem putPair_existing_key_is_noop_witness :
    putPair (mapOfList [(kKansas, vKansas)]) kKansas vOregon true true true
      = (.ALREADY_CONTAINS, mapOfList [(kKansas, vKansas)]) :=
  putPair_existing_key_is_noop (mapOfList [(kKansas, vKansas)]) kKansas vOregon
    true true true (by decide) (by decide)

/-!
Deletion development: the three entry points share the borrowing discipline;
each preserves color, order and exact black height, never turns a BLACK root
RED, and removes exactly one pair (the minimum, the maximum, or the matched
key).
-/

theorem cons_append_eq {α : Type} {p : α} {A B : List α} (h : p :: A = B) :
    ∀ X : List α, p :: (A ++ X) = B ++ X := by
  intro X
  rw [← h]
  rfl

namespace RBT

variable {κ ν : Type}

theorem colorOk_red_node {l : RBT κ ν} {k : κ} {v : ν} {r : RBT κ ν}
    (h : ColorOk (.node true l k v r)) :
    ColorOk l ∧ ColorOk r ∧ isRed r = false ∧ isRed l = false :=
  ⟨h.1, h.2.1, h.2.2.1, h.2.2.2 rfl⟩

theorem black_shape {t : RBT κ ν} {n : Nat} (hb : IsBal t (n + 1))
    (hr : isRed t = false) :
    ∃ l k v r, t = .node false l k v r ∧ IsBal l n ∧ IsBal r n := by
  rcases t with _ | ⟨c, l, k, v, r⟩
  · rw [isBal_nil_iff] at hb
    omega
  · cases c
    · rcases isBal_black_iff.1 hb with ⟨m, hm, h1, h2⟩
      have : m = n := by omega
      subst this
      exact ⟨l, k, v, r, rfl, h1, h2⟩
    · simp [isRed_node] at hr

theorem size_node (c : Bool) (l : RBT κ ν) (k : κ) (v : ν) (r : RBT κ ν) :
    size (.node c l k v r) = size l + size r + 1 := rfl

end RBT

open RBT in
/-- Full contract of the delete-minimum descent: on a nonempty tree with the
color discipline, exact black height `n` and the seeded redness
precondition, it removes exactly the head of the in-order sequence,
preserves discipline and black height, and never turns a BLACK root RED. -/
theorem delMinF_spec :
    ∀ fuel : Nat, ∀ t : RBT κ ν, ∀ n : Nat, size t ≤ fuel → ColorOk t →
      IsBal t n → Pre t → t ≠ .nil →
      ∃ t2 p, delMinF fuel t = (t2, some p) ∧ ColorOk t2 ∧ IsBal t2 n ∧
        (isRed t2 = true → isRed t = true) ∧ p :: inorderKV t2 = inorderKV t := by
  intro fuel
  induction fuel with
  | zero =>
    intro t n hsz _ _ _ hne
    rcases t with _ | ⟨c, l, k, v, r⟩
    · exact absurd rfl hne
    · simp [size_node] at hsz
  | succ fuel ih =>
    intro t n hsz hc hb hp hne
    rcases t with _ | ⟨c, l, k, v, r⟩
    · exact absurd rfl hne
    obtain ⟨hcl, hcr, hrB, hcImp⟩ := hc
    rcases l with _ | ⟨cl, ll, lk, lv, lr⟩
    · -- left child null: this node is RED with a null right child; remove it
      have hcT : c = true := by
        rcases hp with h | h
        · simpa [isRed_node] using h
        · simp [leftOf_node, isRed_nil] at h
      subst hcT
      rcases isBal_red_iff.1 hb with ⟨hbl, hbr⟩
      have hn0 : n = 0 := isBal_nil_iff.1 hbl
      subst hn0
      have hrnil : r = .nil := isBal_zero_black hbr hrB
      subst hrnil
      exact ⟨.nil, (k, v), rfl, trivial, .nil, by simp [isRed_nil], rfl⟩
    cases cl
    · -- BLACK left child
      cases hllr : isRed ll
      · -- BLACK left grandchild as well: borrow redness (moveRedLeft)
        have hcT : c = true := by
          rcases hp with h | h
          · simpa [isRed_node] using h
          · rw [leftOf_node, isRed_node] at h
            cases h
        subst hcT
        rcases isBal_red_iff.1 hb with ⟨hbl, hbr⟩
        rcases isBal_black_iff.1 hbl with ⟨m, rfl, hbll, hblr⟩
        obtain ⟨hcll, hclr, hlrB, _⟩ := hcl
        rcases black_shape hbr hrB with ⟨rl, rk, rv, rr, rfl, hbrl, hbrr⟩
        obtain ⟨hcrl, hcrr, hrrB, _⟩ := hcr
        cases hrlr : isRed rl
        · -- plain flip branch of moveRedLeft
          have hmv : moveRedLeft (.node true (.node false ll lk lv lr) k v
                (.node false rl rk rv rr))
              = .node false (.node true ll lk lv lr) k v (.node true rl rk rv rr) := by
            unfold moveRedLeft
            simp [show RBT.flip (.node true (.node false ll lk lv lr) k v
                  (.node false rl rk rv rr))
                = RBT.node false (.node true ll lk lv lr) k v
                    (.node true rl rk rv rr) from rfl,
              rightOf_node, leftOf_node, hrlr]
          have hstep : delMinF (fuel + 1)
                (.node true (.node false ll lk lv lr) k v (.node false rl rk rv rr))
              = (fixUp (.node false
                    (delMinF fuel (.node true ll lk lv lr)).1 k v
                    (.node true rl rk rv rr)),
                 (delMinF fuel (.node true ll lk lv lr)).2) := by
            simp only [delMinF, isRed_node, leftOf_node, hllr, Bool.not_false,
              Bool.and_self, if_true, hmv]
          have hszl : size (.node true ll lk lv lr) ≤ fuel := by
            simp only [size_node] at hsz ⊢
            omega
          rcases ih (.node true ll lk lv lr) m hszl ⟨hcll, hclr, hlrB, fun _ => hllr⟩
              (isBal_red_iff.2 ⟨hbll, hblr⟩) (Or.inl (by simp [isRed_node]))
              (by simp) with ⟨l2, p, heq, hcl3, hbl3, hred3, hino3⟩
          rw [heq] at hstep
          cases hl2r : isRed l2
          · -- recursion returned BLACK: the temporary right-red rotates left
            have hfix : fixUp (.node false l2 k v (.node true rl rk rv rr))
                = .node false (.node true l2 k v rl) rk rv rr := by
              unfold fixUp
              simp [leftOf_node, rightOf_node, isRed_node, hl2r, hrrB, rotL]
            rw [hfix] at hstep
            refine ⟨_, p, hstep, ⟨⟨hcl3, hcrl, hrlr, fun _ => hl2r⟩, hcrr, hrrB,
              by simp⟩, .black (isBal_red_iff.2 ⟨hbl3, hbrl⟩) hbrr,
              by simp [isRed_node], ?_⟩
            have h1 := cons_append_eq hino3
              ((k, v) :: (inorderKV rl ++ (rk, rv) :: inorderKV rr))
            simp only [inorderKV, List.append_assoc, List.cons_append] at h1 ⊢
            exact h1
          · -- recursion returned RED: both children RED, flip
            rcases isRed_true_shape hl2r with ⟨l2a, l2k, l2v, l2b, rfl⟩
            obtain ⟨hcl2a, hcl2b, hl2bB, hl2aB⟩ := colorOk_red_node hcl3
            rcases isBal_red_iff.1 hbl3 with ⟨hbl2a, hbl2b⟩
            have hfix : fixUp (.node false (.node true l2a l2k l2v l2b) k v
                  (.node true rl rk rv rr))
                = .node true (.node false l2a l2k l2v l2b) k v
                    (.node false rl rk rv rr) := by
              unfold fixUp
              simp [leftOf_node, rightOf_node, isRed_node, hl2aB, RBT.flip]
            rw [hfix] at hstep
            refine ⟨_, p, hstep, ⟨⟨hcl2a, hcl2b, hl2bB, by simp⟩,
              ⟨hcrl, hcrr, hrrB, by simp⟩, by simp [isRed_node],
              by simp [isRed_node]⟩,
              isBal_red_iff.2 ⟨.black hbl2a hbl2b, .black hbrl hbrr⟩,
              fun _ => by simp [isRed_node], ?_⟩
            have h1 := cons_append_eq hino3
              ((k, v) :: (inorderKV rl ++ (rk, rv) :: inorderKV rr))
            simp only [inorderKV, List.append_assoc, List.cons_append] at h1 ⊢
            exact h1
        · -- the right child's left child is RED: rotating branch of moveRedLeft
          rcases isRed_true_shape hrlr with ⟨rll, rlk, rlv, rlr, rfl⟩
          obtain ⟨hcrll, hcrlr, hrlrB, hrllB⟩ := colorOk_red_node hcrl
          rcases isBal_red_iff.1 hbrl with ⟨hbrll, hbrlr⟩
          have hmv : moveRedLeft (.node true (.node false ll lk lv lr) k v
                (.node false (.node true rll rlk rlv rlr) rk rv rr))
              = .node true (.node false (.node true ll lk lv lr) k v rll) rlk rlv
                  (.node false rlr rk rv rr) := rfl
          have hstep : delMinF (fuel + 1)
                (.node true (.node false ll lk lv lr) k v
                  (.node false (.node true rll rlk rlv rlr) rk rv rr))
              = (fixUp (.node true
                    (delMinF fuel (.node false (.node true ll lk lv lr) k v rll)).1
                    rlk rlv (.node false rlr rk rv rr)),
                 (delMinF fuel
                    (.node false (.node true ll lk lv lr) k v rll)).2) := by
            simp only [delMinF, isRed_node, leftOf_node, hllr, Bool.not_false,
              Bool.and_self, if_true, hmv]
          have hszl : size (.node false (.node true ll lk lv lr) k v rll) ≤ fuel := by
            simp only [size_node] at hsz ⊢
            omega
          rcases ih (.node false (.node true ll lk lv lr) k v rll) (m + 1) hszl
              ⟨⟨hcll, hclr, hlrB, fun _ => hllr⟩, hcrll, hrllB, by simp⟩
              (.black (isBal_red_iff.2 ⟨hbll, hblr⟩) hbrll)
              (Or.inr (by simp [leftOf_node, isRed_node])) (by simp) with
            ⟨l2, p, heq, hcl3, hbl3, hred3, hino3⟩
          rw [heq] at hstep
          have hl2B : isRed l2 = false := by
            cases h2 : isRed l2
            · rfl
            · have := hred3 h2
              simp [isRed_node] at this
          rw [fixUp_id (by simp [isRed_node]) (Or.inl hl2B)] at hstep
          refine ⟨_, p, hstep, ⟨hcl3, ⟨hcrlr, hcrr, hrrB, by simp⟩,
            by simp [isRed_node], fun _ => hl2B⟩,
            isBal_red_iff.2 ⟨hbl3, .black hbrlr hbrr⟩,
            fun _ => by simp [isRed_node], ?_⟩
          have h1 := cons_append_eq hino3
            ((rlk, rlv) :: (inorderKV rlr ++ (rk, rv) :: inorderKV rr))
          simp only [inorderKV, List.append_assoc, List.cons_append] at h1 ⊢
          exact h1
      · -- BLACK left child with RED left grandchild: descend directly
        have hcT : c = true := by
          rcases hp with h | h
          · simpa [isRed_node] using h
          · rw [leftOf_node, isRed_node] at h
            cases h
        subst hcT
        rcases isBal_red_iff.1 hb with ⟨hbl, hbr⟩
        have hstep : delMinF (fuel + 1)
              (.node true (.node false ll lk lv lr) k v r)
            = (fixUp (.node true
                  (delMinF fuel (.node false ll lk lv lr)).1 k v r),
               (delMinF fuel (.node false ll lk lv lr)).2) := by
          simp [delMinF, isRed_node, leftOf_node, hllr]
        have hszl : size (.node false ll lk lv lr) ≤ fuel := by
          simp only [size_node] at hsz ⊢
          omega
        rcases ih (.node false ll lk lv lr) n hszl hcl hbl
            (Or.inr (by simp [leftOf_node, hllr])) (by simp) with
          ⟨l2, p, heq, hcl3, hbl3, hred3, hino3⟩
        rw [heq] at hstep
        have hl2B : isRed l2 = false := by
          cases h2 : isRed l2
          · rfl
          · have := hred3 h2
            simp [isRed_node] at this
        rw [fixUp_id hrB (Or.inl hl2B)] at hstep
        refine ⟨_, p, hstep, ⟨hcl3, hcr, hrB, fun _ => hl2B⟩,
          isBal_red_iff.2 ⟨hbl3, hbr⟩, fun _ => by simp [isRed_node], ?_⟩
        have h1 := cons_append_eq hino3 ((k, v) :: inorderKV r)
        simp only [inorderKV, List.append_assoc, List.cons_append] at h1 ⊢
        exact h1
    · -- RED left child: descend directly (the root is BLACK)
      have hcF : c = false := by
        cases c
        · rfl
        · have := hcImp rfl
          simp [isRed_node] at this
      subst hcF
      rcases isBal_black_iff.1 hb with ⟨m, rfl, hbl, hbr⟩
      have hstep : delMinF (fuel + 1)
            (.node false (.node true ll lk lv lr) k v r)
          = (fixUp (.node false
                (delMinF fuel (.node true ll lk lv lr)).1 k v r),
             (delMinF fuel (.node true ll lk lv lr)).2) := by
        simp [delMinF, isRed_node]
      have hszl : size (.node true ll lk lv lr) ≤ fuel := by
        simp only [size_node] at hsz ⊢
        omega
      rcases ih (.node true ll lk lv lr) m hszl hcl hbl
          (Or.inl (by simp [isRed_node])) (by simp) with
        ⟨l2, p, heq, hcl3, hbl3, hred3, hino3⟩
      rw [heq] at hstep
      have hll2 : isRed l2 = false ∨ isRed (leftOf l2) = false := by
        cases h2 : isRed l2
        · exact Or.inl rfl
        · exact Or.inr (red_left_black hcl3 h2)
      rw [fixUp_id hrB hll2] at hstep
      refine ⟨_, p, hstep, ⟨hcl3, hcr, hrB, by simp⟩, .black hbl3 hbr,
        by simp [isRed_node], ?_⟩
      have h1 := cons_append_eq hino3 ((k, v) :: inorderKV r)
      simp only [inorderKV, List.append_assoc, List.cons_append] at h1 ⊢
      exact h1

open RBT in
/-- Full contract of the delete-maximum descent, mirror of `delMinF_spec`:
the input is either a disciplined seeded tree or the transient right-leaning
configuration produced by the rotating branch of `moveRedRight`; the result
removes exactly the last pair of the in-order sequence, preserves discipline
and black height, and never turns a BLACK root RED. -/
theorem delMaxF_spec :
    ∀ fuel : Nat, ∀ t : RBT κ ν, ∀ n : Nat, size t ≤ fuel →
      ((ColorOk t ∧ IsBal t n ∧ Pre t ∧ t ≠ .nil) ∨ RightLeanCfg t n) →
      ∃ t2 p, delMaxF fuel t = (t2, some p) ∧ ColorOk t2 ∧ IsBal t2 n ∧
        (isRed t2 = true → isRed t = true) ∧ inorderKV t2 ++ [p] = inorderKV t := by
  intro fuel
  induction fuel with
  | zero =>
    intro t n hsz hh
    rcases hh with ⟨_, _, _, hne⟩ | ⟨L, K, V, rl, rk, rv, rr, rfl, _⟩
    · rcases t with _ | ⟨c, l, k, v, r⟩
      · exact absurd rfl hne
      · simp [size_node] at hsz
    · simp [size_node] at hsz
  | succ fuel ih =>
    intro t n hsz hh
    rcases hh with ⟨hc, hb, hp, hne⟩ |
      ⟨L, K, V, rl, rk, rv, rr, rfl, hcL, hLB, hcR, m, rfl, hbL, hbR⟩
    · -- disciplined seeded input
      rcases t with _ | ⟨c, l, k, v, r⟩
      · exact absurd rfl hne
      obtain ⟨hcl, hcr, hrB, hcImp⟩ := hc
      cases hlr : isRed l
      · -- BLACK left child: the root is RED by the seeding precondition
        have hcT : c = true := by
          rcases hp with h | h
          · simpa [isRed_node] using h
          · rw [leftOf_node] at h
            rw [hlr] at h
            cases h
        subst hcT
        rcases isBal_red_iff.1 hb with ⟨hbl, hbr⟩
        rcases r with _ | ⟨cr, rl, rk, rv, rr⟩
        · -- null right child: the RED root is the maximum, remove it
          have hn0 : n = 0 := isBal_nil_iff.1 hbr
          subst hn0
          have hlnil : l = .nil := isBal_zero_black hbl hlr
          subst hlnil
          exact ⟨.nil, (k, v), rfl, trivial, .nil, by simp [isRed_nil], rfl⟩
        have hcrF : cr = false := by simpa [isRed_node] using hrB
        subst hcrF
        rcases isBal_black_iff.1 hbr with ⟨m, rfl, hbrl, hbrr⟩
        cases hrlr : isRed rl
        · -- BLACK right child with BLACK left grandchild: borrow (moveRedRight)
          obtain ⟨hcrl, hcrr, hrrB, _⟩ := hcr
          rcases black_shape hbl hlr with ⟨La, lak, lav, Lb, rfl, hbLa, hbLb⟩
          obtain ⟨hcLa, hcLb, hLbB, _⟩ := hcl
          cases hLar : isRed La
          · -- plain flip branch of moveRedRight
            have hmv : moveRedRight (.node true (.node false La lak lav Lb) k v
                  (.node false rl rk rv rr))
                = .node false (.node true La lak lav Lb) k v
                    (.node true rl rk rv rr) := by
              unfold moveRedRight
              simp [show RBT.flip (.node true (.node false La lak lav Lb) k v
                    (.node false rl rk rv rr))
                  = RBT.node false (.node true La lak lav Lb) k v
                      (.node true rl rk rv rr) from rfl,
                leftOf_node, hLar]
            have hstep : delMaxF (fuel + 1)
                  (.node true (.node false La lak lav Lb) k v
                    (.node false rl rk rv rr))
                = (fixUp (.node false (.node true La lak lav Lb) k v
                      (delMaxF fuel (.node true rl rk rv rr)).1),
                   (delMaxF fuel (.node true rl rk rv rr)).2) := by
              simp [delMaxF, isRed_node, leftOf_node, hrlr, hmv]
            have hszr : size (.node true rl rk rv rr) ≤ fuel := by
              simp only [size_node] at hsz ⊢
              omega
            rcases ih (.node true rl rk rv rr) m hszr
                (Or.inl ⟨⟨hcrl, hcrr, hrrB, fun _ => hrlr⟩,
                  isBal_red_iff.2 ⟨hbrl, hbrr⟩,
                  Or.inl (by simp [isRed_node]), by simp⟩) with
              ⟨r3, p, heq, hc3, hb3, hred3, hino3⟩
            rw [heq] at hstep
            cases hr3 : isRed r3
            · -- recursion returned BLACK: the fixup is the identity
              rw [fixUp_id hr3 (Or.inr (by simp [leftOf_node, hLar]))] at hstep
              refine ⟨_, p, hstep, ⟨⟨hcLa, hcLb, hLbB, fun _ => hLar⟩, hc3, hr3,
                by simp⟩, .black (isBal_red_iff.2 ⟨hbLa, hbLb⟩) hb3,
                by simp [isRed_node], ?_⟩
              simp only [inorderKV, List.append_assoc, List.cons_append] at hino3 ⊢
              rw [hino3]
            · -- recursion returned RED: both children RED, flip
              rcases isRed_true_shape hr3 with ⟨r3a, r3k, r3v, r3b, rfl⟩
              obtain ⟨hcr3a, hcr3b, hr3bB, hr3aB⟩ := colorOk_red_node hc3
              rcases isBal_red_iff.1 hb3 with ⟨hbr3a, hbr3b⟩
              have hfix : fixUp (.node false (.node true La lak lav Lb) k v
                    (.node true r3a r3k r3v r3b))
                  = .node true (.node false La lak lav Lb) k v
                      (.node false r3a r3k r3v r3b) := by
                unfold fixUp
                simp [leftOf_node, rightOf_node, isRed_node, hLar, RBT.flip]
              rw [hfix] at hstep
              refine ⟨_, p, hstep, ⟨⟨hcLa, hcLb, hLbB, by simp⟩,
                ⟨hcr3a, hcr3b, hr3bB, by simp⟩, by simp [isRed_node],
                by simp [isRed_node]⟩,
                isBal_red_iff.2 ⟨.black hbLa hbLb, .black hbr3a hbr3b⟩,
                fun _ => by simp [isRed_node], ?_⟩
              simp only [inorderKV, List.append_assoc, List.cons_append] at hino3 ⊢
              rw [hino3]
          · -- RED left grandchild: rotating branch of moveRedRight, the
            -- recursion receives the transient right-leaning configuration
            rcases isRed_true_shape hLar with ⟨Laa, lk2, lv2, Lab, rfl⟩
            obtain ⟨hcLaa, hcLab, hLabB, hLaaB⟩ := colorOk_red_node hcLa
            rcases isBal_red_iff.1 hbLa with ⟨hbLaa, hbLab⟩
            have hmv : moveRedRight (.node true
                  (.node false (.node true Laa lk2 lv2 Lab) lak lav Lb) k v
                  (.node false rl rk rv rr))
                = .node true (.node false Laa lk2 lv2 Lab) lak lav
                    (.node false Lb k v (.node true rl rk rv rr)) := rfl
            have hstep : delMaxF (fuel + 1) (.node true
                  (.node false (.node true Laa lk2 lv2 Lab) lak lav Lb) k v
                  (.node false rl rk rv rr))
                = (fixUp (.node true (.node false Laa lk2 lv2 Lab) lak lav
                      (delMaxF fuel
                        (.node false Lb k v (.node true rl rk rv rr))).1),
                   (delMaxF fuel
                      (.node false Lb k v (.node true rl rk rv rr))).2) := by
              simp [delMaxF, isRed_node, leftOf_node, hrlr, hmv]
            have hszr : size (.node false Lb k v (.node true rl rk rv rr))
                ≤ fuel := by
              simp only [size_node] at hsz ⊢
              omega
            rcases ih (.node false Lb k v (.node true rl rk rv rr)) (m + 1) hszr
                (Or.inr ⟨Lb, k, v, rl, rk, rv, rr, rfl, hcLb, hLbB,
                  ⟨hcrl, hcrr, hrrB, fun _ => hrlr⟩, m, rfl, hbLb,
                  isBal_red_iff.2 ⟨hbrl, hbrr⟩⟩) with
              ⟨r3, p, heq, hc3, hb3, hred3, hino3⟩
            rw [heq] at hstep
            have hr3B : isRed r3 = false := by
              cases h2 : isRed r3
              · rfl
              · have := hred3 h2
                simp [isRed_node] at this
            rw [fixUp_id hr3B (Or.inl (by simp [isRed_node]))] at hstep
            refine ⟨_, p, hstep, ⟨⟨hcLaa, hcLab, hLabB, by simp⟩, hc3, hr3B,
              fun _ => by simp [isRed_node]⟩,
              isBal_red_iff.2 ⟨.black hbLaa hbLab, hb3⟩,
              fun _ => by simp [isRed_node], ?_⟩
            simp only [inorderKV, List.append_assoc, List.cons_append] at hino3 ⊢
            rw [hino3]
        · -- BLACK right child with RED left grandchild: descend directly
          have hstep : delMaxF (fuel + 1)
                (.node true l k v (.node false rl rk rv rr))
              = (fixUp (.node true l k v
                    (delMaxF fuel (.node false rl rk rv rr)).1),
                 (delMaxF fuel (.node false rl rk rv rr)).2) := by
            simp [delMaxF, isRed_node, leftOf_node, hlr, hrlr]
          have hszr : size (.node false rl rk rv rr) ≤ fuel := by
            simp only [size_node] at hsz ⊢
            omega
          rcases ih (.node false rl rk rv rr) (m + 1) hszr
              (Or.inl ⟨hcr, .black hbrl hbrr,
                Or.inr (by simp [leftOf_node, hrlr]), by simp⟩) with
            ⟨r3, p, heq, hc3, hb3, hred3, hino3⟩
          rw [heq] at hstep
          have hr3B : isRed r3 = false := by
            cases h2 : isRed r3
            · rfl
            · have := hred3 h2
              simp [isRed_node] at this
          rw [fixUp_id hr3B (Or.inl hlr)] at hstep
          refine ⟨_, p, hstep, ⟨hcl, hc3, hr3B, fun _ => hlr⟩,
            isBal_red_iff.2 ⟨hbl, hb3⟩, fun _ => by simp [isRed_node], ?_⟩
          simp only [inorderKV, List.append_assoc, List.cons_append] at hino3 ⊢
          rw [hino3]
      · -- RED left child: rotate it right, the red link moves to the right
        rcases isRed_true_shape hlr with ⟨ll, lk, lv, lr, rfl⟩
        obtain ⟨hcll, hclr, hlrB, hllB⟩ := colorOk_red_node hcl
        have hcF : c = false := by
          cases c
          · rfl
          · have := hcImp rfl
            simp [isRed_node] at this
        subst hcF
        rcases isBal_black_iff.1 hb with ⟨m, rfl, hbl, hbr⟩
        rcases isBal_red_iff.1 hbl with ⟨hbll, hblr⟩
        have hstep : delMaxF (fuel + 1)
              (.node false (.node true ll lk lv lr) k v r)
            = (fixUp (.node false ll lk lv
                  (delMaxF fuel (.node true lr k v r)).1),
               (delMaxF fuel (.node true lr k v r)).2) := by
          simp [delMaxF, isRed_node, rotR, leftOf_node]
        have hszr : size (.node true lr k v r) ≤ fuel := by
          simp only [size_node] at hsz ⊢
          omega
        rcases ih (.node true lr k v r) m hszr
            (Or.inl ⟨⟨hclr, hcr, hrB, fun _ => hlrB⟩,
              isBal_red_iff.2 ⟨hblr, hbr⟩,
              Or.inl (by simp [isRed_node]), by simp⟩) with
          ⟨r3, p, heq, hc3, hb3, hred3, hino3⟩
        rw [heq] at hstep
        cases hr3 : isRed r3
        · rw [fixUp_id hr3 (Or.inl hllB)] at hstep
          refine ⟨_, p, hstep, ⟨hcll, hc3, hr3, by simp⟩, .black hbll hb3,
            by simp [isRed_node], ?_⟩
          simp only [inorderKV, List.append_assoc, List.cons_append] at hino3 ⊢
          rw [hino3]
        · rcases isRed_true_shape hr3 with ⟨r3a, r3k, r3v, r3b, rfl⟩
          obtain ⟨hcr3a, hcr3b, hr3bB, hr3aB⟩ := colorOk_red_node hc3
          rcases isBal_red_iff.1 hb3 with ⟨hbr3a, hbr3b⟩
          have hfix : fixUp (.node false ll lk lv (.node true r3a r3k r3v r3b))
              = .node false (.node true ll lk lv r3a) r3k r3v r3b := by
            unfold fixUp
            simp [leftOf_node, rightOf_node, isRed_node, hllB, hr3bB, rotL]
          rw [hfix] at hstep
          refine ⟨_, p, hstep, ⟨⟨hcll, hcr3a, hr3aB, fun _ => hllB⟩, hcr3b,
            hr3bB, by simp⟩, .black (isBal_red_iff.2 ⟨hbll, hbr3a⟩) hbr3b,
            by simp [isRed_node], ?_⟩
          simp only [inorderKV, List.append_assoc, List.cons_append] at hino3 ⊢
          rw [hino3]
    · -- transient right-leaning input: descend into the RED right child
      obtain ⟨hcrl, hcrr, hrrB, hrlBf⟩ := hcR
      have hrlB := hrlBf rfl
      rcases isBal_red_iff.1 hbR with ⟨hbrl, hbrr⟩
      have hstep : delMaxF (fuel + 1)
            (.node false L K V (.node true rl rk rv rr))
          = (fixUp (.node false L K V
                (delMaxF fuel (.node true rl rk rv rr)).1),
             (delMaxF fuel (.node true rl rk rv rr)).2) := by
        simp [delMaxF, isRed_node, hLB]
      have hszr : size (.node true rl rk rv rr) ≤ fuel := by
        simp only [size_node] at hsz ⊢
        omega
      rcases ih (.node true rl rk rv rr) m hszr
          (Or.inl ⟨⟨hcrl, hcrr, hrrB, fun _ => hrlB⟩,
            isBal_red_iff.2 ⟨hbrl, hbrr⟩,
            Or.inl (by simp [isRed_node]), by simp⟩) with
        ⟨r3, p, heq, hc3, hb3, hred3, hino3⟩
      rw [heq] at hstep
      cases hr3 : isRed r3
      · rw [fixUp_id hr3 (Or.inl hLB)] at hstep
        refine ⟨_, p, hstep, ⟨hcL, hc3, hr3, by simp⟩, .black hbL hb3,
          by simp [isRed_node], ?_⟩
        simp only [inorderKV, List.append_assoc, List.cons_append] at hino3 ⊢
        rw [hino3]
      · rcases isRed_true_shape hr3 with ⟨r3a, r3k, r3v, r3b, rfl⟩
        obtain ⟨hcr3a, hcr3b, hr3bB, hr3aB⟩ := colorOk_red_node hc3
        rcases isBal_red_iff.1 hb3 with ⟨hbr3a, hbr3b⟩
        have hfix : fixUp (.node false L K V (.node true r3a r3k r3v r3b))
            = .node false (.node true L K V r3a) r3k r3v r3b := by
          unfold fixUp
          simp [leftOf_node, rightOf_node, isRed_node, hLB, hr3bB, rotL]
        rw [hfix] at hstep
        refine ⟨_, p, hstep, ⟨⟨hcL, hcr3a, hr3aB, fun _ => hLB⟩, hcr3b, hr3bB,
          by simp⟩, .black (isBal_red_iff.2 ⟨hbL, hbr3a⟩) hbr3b,
          by simp [isRed_node], ?_⟩
        simp only [inorderKV, List.append_assoc, List.cons_append] at hino3 ⊢
        rw [hino3]

theorem split_append_eq {α : Type} {X A B : List α} {p : α} (h : X = A ++ p :: B)
    (C : List α) : X ++ C = A ++ p :: (B ++ C) := by
  rw [h]
  simp

theorem append_ctx_eq {α : Type} {X A B : List α} (h : X = A ++ B) (C : List α) :
    X ++ C = A ++ (B ++ C) := by
  rw [h, List.append_assoc]

theorem ctx_append_split {α : Type} {X A B : List α} {p : α} (h : X = A ++ p :: B)
    (P : List α) : P ++ X = (P ++ A) ++ p :: B := by
  rw [h, List.append_assoc]

theorem ctx_append_eq {α : Type} {X A B : List α} (h : X = A ++ B) (P : List α) :
    P ++ X = (P ++ A) ++ B := by
  rw [h, List.append_assoc]

namespace RBT

variable {κ ν : Type}

/-- A subtree whose key sequence is a contiguous chunk of an ordered tree's
key sequence is itself ordered. -/
theorem ordered_chunk [LinearOrder κ] {t t2 : RBT κ ν} (pre suf : List κ)
    (h : keysOf t = pre ++ (keysOf t2 ++ suf)) (ht : Ordered t) : Ordered t2 := by
  have hs : List.Sublist (keysOf t2) (keysOf t) := by
    rw [h]
    exact (List.sublist_append_left (keysOf t2) suf).trans
      (List.sublist_append_right pre (keysOf t2 ++ suf))
  exact List.Pairwise.sublist hs ht

/-- In an ordered tree a key smaller than the root key can only live in the
left subtree. -/
theorem key_mem_left [LinearOrder κ] {c : Bool} {l : RBT κ ν} {k : κ} {v : ν}
    {r : RBT κ ν} {key : κ} (hord : Ordered (.node c l k v r))
    (hmem : key ∈ keysOf (.node c l k v r)) (hlt : key < k) :
    key ∈ keysOf l := by
  obtain ⟨_, _, _, hkr⟩ := ordered_node_iff.1 hord
  rw [keysOf_node] at hmem
  rcases List.mem_append.1 hmem with h | h
  · exact h
  · rcases List.mem_cons.1 h with rfl | h2
    · exact absurd hlt (lt_irrefl key)
    · exact absurd hlt (asymm (hkr key h2))

/-- In an ordered tree a key at least the root key is the root key or lives
in the right subtree. -/
theorem key_mem_root_right [LinearOrder κ] {c : Bool} {l : RBT κ ν} {k : κ}
    {v : ν} {r : RBT κ ν} {key : κ} (hord : Ordered (.node c l k v r))
    (hmem : key ∈ keysOf (.node c l k v r)) (hge : ¬ key < k) :
    key = k ∨ key ∈ keysOf r := by
  obtain ⟨_, _, hlk, _⟩ := ordered_node_iff.1 hord
  rw [keysOf_node] at hmem
  rcases List.mem_append.1 hmem with h | h
  · exact absurd (hlk key h) hge
  · exact List.mem_cons.1 h

theorem inorder_ne_nil (c : Bool) (l : RBT κ ν) (k : κ) (v : ν) (r : RBT κ ν) :
    inorderKV (.node c l k v r) ≠ [] := by
  simp [inorderKV]

/-- `minPairOf` is the head of the in-order sequence. -/
theorem minPairOf_eq_head : ∀ t : RBT κ ν, minPairOf t = (inorderKV t).head? := by
  intro t
  induction t with
  | nil => rfl
  | node c l k v r ihl ihr =>
    rcases l with _ | ⟨cl, ll, lk, lv, lr⟩
    · simp [minPairOf, inorderKV]
    · rw [show minPairOf (.node c (.node cl ll lk lv lr) k v r)
            = minPairOf (.node cl ll lk lv lr) from rfl, ihl,
        show inorderKV (.node c (.node cl ll lk lv lr) k v r)
            = inorderKV (.node cl ll lk lv lr) ++ (k, v) :: inorderKV r from rfl,
        List.head?_append_of_ne_nil _ (inorder_ne_nil cl ll lk lv lr)]

end RBT

set_option maxHeartbeats 3200000 in
open RBT in
/-- Full contract of the delete-by-key descent: on an ordered disciplined
seeded tree (or the transient right-leaning configuration with every key of
its left subtree below the target), a present key is removed exactly — the
in-order sequence loses precisely the pair carrying the key, the removed
pair is reported, discipline and black height are preserved, and a BLACK
root never turns RED. -/
theorem delF_spec :
    ∀ fuel : Nat, ∀ key : κ, ∀ t : RBT κ ν, ∀ n : Nat, size t ≤ fuel →
      key ∈ keysOf t → Ordered t →
      ((ColorOk t ∧ IsBal t n ∧ Pre t) ∨
        (RightLeanCfg t n ∧ ∀ a ∈ keysOf (leftOf t), a < key)) →
      ∃ t2 v0 A B, delF fuel key t = (t2, some (key, v0)) ∧ ColorOk t2 ∧
        IsBal t2 n ∧ (isRed t2 = true → isRed t = true) ∧
        inorderKV t = A ++ (key, v0) :: B ∧ inorderKV t2 = A ++ B := by
  intro fuel
  induction fuel with
  | zero =>
    intro key t n hsz hmem _ _
    rcases t with _ | ⟨c, l, k, v, r⟩
    · simp [keysOf_nil] at hmem
    · simp [size_node] at hsz
  | succ fuel ih =>
    intro key t n hsz hmem hord hh
    rcases hh with ⟨hc, hb, hp⟩ | ⟨hrl, hLlt⟩
    · -- disciplined seeded input
      rcases t with _ | ⟨c, l, k, v, r⟩
      · simp [keysOf_nil] at hmem
      obtain ⟨hcl, hcr, hrB, hcImp⟩ := hc
      obtain ⟨hordl, hordr, hlk, hkr⟩ := ordered_node_iff.1 hord
      by_cases hklt : key < k
      · -- the key lies left of the root: left descent with borrowing
        have hmeml : key ∈ keysOf l := key_mem_left hord hmem hklt
        rcases l with _ | ⟨cl, ll, lk, lv, lr⟩
        · simp [keysOf_nil] at hmeml
        cases cl
        · cases hllr : isRed ll
          · -- BLACK left child with BLACK left grandchild: moveRedLeft
            have hcT : c = true := by
              rcases hp with h | h
              · simpa [isRed_node] using h
              · rw [leftOf_node, isRed_node] at h
                cases h
            subst hcT
            rcases isBal_red_iff.1 hb with ⟨hbl, hbr⟩
            rcases isBal_black_iff.1 hbl with ⟨m, rfl, hbll, hblr⟩
            obtain ⟨hcll, hclr, hlrB, _⟩ := hcl
            rcases black_shape hbr hrB with ⟨rl, rk, rv, rr, rfl, hbrl, hbrr⟩
            obtain ⟨hcrl, hcrr, hrrB, _⟩ := hcr
            cases hrlr : isRed rl
            · -- plain flip branch of moveRedLeft
              have hmv : moveRedLeft (.node true (.node false ll lk lv lr) k v
                    (.node false rl rk rv rr))
                  = .node false (.node true ll lk lv lr) k v
                      (.node true rl rk rv rr) := by
                unfold moveRedLeft
                simp [show RBT.flip (.node true (.node false ll lk lv lr) k v
                      (.node false rl rk rv rr))
                    = RBT.node false (.node true ll lk lv lr) k v
                        (.node true rl rk rv rr) from rfl,
                  rightOf_node, leftOf_node, hrlr]
              have hstep : delF (fuel + 1) key
                    (.node true (.node false ll lk lv lr) k v
                      (.node false rl rk rv rr))
                  = (fixUp (.node false
                        (delF fuel key (.node true ll lk lv lr)).1 k v
                        (.node true rl rk rv rr)),
                     (delF fuel key (.node true ll lk lv lr)).2) := by
                simp [delF, hklt, isRed_node, leftOf_node, hllr, hmv]
              have hszl : size (.node true ll lk lv lr) ≤ fuel := by
                simp only [size_node] at hsz ⊢
                omega
              have hml2 : key ∈ keysOf (.node true ll lk lv lr) := by
                simpa [keysOf_node] using hmeml
              have hol2 : Ordered (.node true ll lk lv lr) :=
                ordered_of_inorder_eq rfl hordl
              rcases ih key (.node true ll lk lv lr) m hszl hml2 hol2
                  (Or.inl ⟨⟨hcll, hclr, hlrB, fun _ => hllr⟩,
                    isBal_red_iff.2 ⟨hbll, hblr⟩,
                    Or.inl (by simp [isRed_node])⟩) with
                ⟨l3, v0, A, B, heq, hc3, hb3, hred3, hsplit, hino3⟩
              rw [heq] at hstep
              cases hl3r : isRed l3
              · -- recursion returned BLACK: the temporary right-red rotates left
                have hfix : fixUp (.node false l3 k v (.node true rl rk rv rr))
                    = .node false (.node true l3 k v rl) rk rv rr := by
                  unfold fixUp
                  simp [leftOf_node, rightOf_node, isRed_node, hl3r, hrrB, rotL]
                rw [hfix] at hstep
                refine ⟨_, v0, A,
                  B ++ ((k, v) :: (inorderKV rl ++ (rk, rv) :: inorderKV rr)),
                  hstep, ⟨⟨hc3, hcrl, hrlr, fun _ => hl3r⟩, hcrr, hrrB, by simp⟩,
                  .black (isBal_red_iff.2 ⟨hb3, hbrl⟩) hbrr,
                  by simp [isRed_node], ?_, ?_⟩
                · have h1 := split_append_eq hsplit
                    ((k, v) :: (inorderKV rl ++ (rk, rv) :: inorderKV rr))
                  simp only [inorderKV, List.append_assoc, List.cons_append,
                    List.nil_append] at h1 ⊢
                  exact h1
                · have h1 := append_ctx_eq hino3
                    ((k, v) :: (inorderKV rl ++ (rk, rv) :: inorderKV rr))
                  simp only [inorderKV, List.append_assoc, List.cons_append,
                    List.nil_append] at h1 ⊢
                  exact h1
              · -- recursion returned RED: both children RED, flip
                rcases isRed_true_shape hl3r with ⟨l3a, l3k, l3v, l3b, rfl⟩
                obtain ⟨hcl3a, hcl3b, hl3bB, hl3aB⟩ := colorOk_red_node hc3
                rcases isBal_red_iff.1 hb3 with ⟨hbl3a, hbl3b⟩
                have hfix : fixUp (.node false (.node true l3a l3k l3v l3b) k v
                      (.node true rl rk rv rr))
                    = .node true (.node false l3a l3k l3v l3b) k v
                        (.node false rl rk rv rr) := by
                  unfold fixUp
                  simp [leftOf_node, rightOf_node, isRed_node, hl3aB, RBT.flip]
                rw [hfix] at hstep
                refine ⟨_, v0, A,
                  B ++ ((k, v) :: (inorderKV rl ++ (rk, rv) :: inorderKV rr)),
                  hstep, ⟨⟨hcl3a, hcl3b, hl3bB, by simp⟩,
                  ⟨hcrl, hcrr, hrrB, by simp⟩, by simp [isRed_node],
                  by simp [isRed_node]⟩,
                  isBal_red_iff.2 ⟨.black hbl3a hbl3b, .black hbrl hbrr⟩,
                  fun _ => by simp [isRed_node], ?_, ?_⟩
                · have h1 := split_append_eq hsplit
                    ((k, v) :: (inorderKV rl ++ (rk, rv) :: inorderKV rr))
                  simp only [inorderKV, List.append_assoc, List.cons_append,
                    List.nil_append] at h1 ⊢
                  exact h1
                · have h1 := append_ctx_eq hino3
                    ((k, v) :: (inorderKV rl ++ (rk, rv) :: inorderKV rr))
                  simp only [inorderKV, List.append_assoc, List.cons_append,
                    List.nil_append] at h1 ⊢
                  exact h1
            · -- rotating branch of moveRedLeft
              rcases isRed_true_shape hrlr with ⟨rll, rlk, rlv, rlr, rfl⟩
              obtain ⟨hcrll, hcrlr, hrlrB, hrllB⟩ := colorOk_red_node hcrl
              rcases isBal_red_iff.1 hbrl with ⟨hbrll, hbrlr⟩
              have hmv : moveRedLeft (.node true (.node false ll lk lv lr) k v
                    (.node false (.node true rll rlk rlv rlr) rk rv rr))
                  = .node true
                      (.node false (.node true ll lk lv lr) k v rll) rlk rlv
                      (.node false rlr rk rv rr) := rfl
              have hstep : delF (fuel + 1) key
                    (.node true (.node false ll lk lv lr) k v
                      (.node false (.node true rll rlk rlv rlr) rk rv rr))
                  = (fixUp (.node true
                        (delF fuel key
                          (.node false (.node true ll lk lv lr) k v rll)).1
                        rlk rlv (.node false rlr rk rv rr)),
                     (delF fuel key
                        (.node false (.node true ll lk lv lr) k v rll)).2) := by
                simp [delF, hklt, isRed_node, leftOf_node, hllr, hmv]
              have hszl : size (.node false (.node true ll lk lv lr) k v rll)
                  ≤ fuel := by
                simp only [size_node] at hsz ⊢
                omega
              have hml2 : key ∈ keysOf
                  (.node false (.node true ll lk lv lr) k v rll) := by
                simp only [keysOf_node, List.mem_append, List.mem_cons]
                  at hmeml ⊢
                tauto
              have hol2 : Ordered
                  (.node false (.node true ll lk lv lr) k v rll) :=
                ordered_chunk []
                  (rlk :: (keysOf rlr ++ rk :: keysOf rr))
                  (by simp [keysOf_node]) hord
              rcases ih key (.node false (.node true ll lk lv lr) k v rll)
                  (m + 1) hszl hml2 hol2
                  (Or.inl ⟨⟨⟨hcll, hclr, hlrB, fun _ => hllr⟩, hcrll, hrllB,
                    by simp⟩, .black (isBal_red_iff.2 ⟨hbll, hblr⟩) hbrll,
                    Or.inr (by simp [leftOf_node, isRed_node])⟩) with
                ⟨l3, v0, A, B, heq, hc3, hb3, hred3, hsplit, hino3⟩
              rw [heq] at hstep
              have hl3B : isRed l3 = false := by
                cases h2 : isRed l3
                · rfl
                · have := hred3 h2
                  simp [isRed_node] at this
              rw [fixUp_id (by simp [isRed_node]) (Or.inl hl3B)] at hstep
              refine ⟨_, v0, A,
                B ++ ((rlk, rlv) :: (inorderKV rlr ++ (rk, rv) :: inorderKV rr)),
                hstep, ⟨hc3, ⟨hcrlr, hcrr, hrrB, by simp⟩,
                by simp [isRed_node], fun _ => hl3B⟩,
                isBal_red_iff.2 ⟨hb3, .black hbrlr hbrr⟩,
                fun _ => by simp [isRed_node], ?_, ?_⟩
              · have h1 := split_append_eq hsplit
                  ((rlk, rlv) :: (inorderKV rlr ++ (rk, rv) :: inorderKV rr))
                simp only [inorderKV, List.append_assoc, List.cons_append,
                  List.nil_append] at h1 ⊢
                exact h1
              · have h1 := append_ctx_eq hino3
                  ((rlk, rlv) :: (inorderKV rlr ++ (rk, rv) :: inorderKV rr))
                simp only [inorderKV, List.append_assoc, List.cons_append,
                  List.nil_append] at h1 ⊢
                exact h1
          · -- BLACK left child with RED left grandchild: descend directly
            have hcT : c = true := by
              rcases hp with h | h
              · simpa [isRed_node] using h
              · rw [leftOf_node, isRed_node] at h
                cases h
            subst hcT
            rcases isBal_red_iff.1 hb with ⟨hbl, hbr⟩
            have hstep : delF (fuel + 1) key
                  (.node true (.node false ll lk lv lr) k v r)
                = (fixUp (.node true
                      (delF fuel key (.node false ll lk lv lr)).1 k v r),
                   (delF fuel key (.node false ll lk lv lr)).2) := by
              simp [delF, hklt, isRed_node, leftOf_node, hllr]
            have hszl : size (.node false ll lk lv lr) ≤ fuel := by
              simp only [size_node] at hsz ⊢
              omega
            rcases ih key (.node false ll lk lv lr) n hszl hmeml hordl
                (Or.inl ⟨hcl, hbl, Or.inr (by simp [leftOf_node, hllr])⟩) with
              ⟨l3, v0, A, B, heq, hc3, hb3, hred3, hsplit, hino3⟩
            rw [heq] at hstep
            have hl3B : isRed l3 = false := by
              cases h2 : isRed l3
              · rfl
              · have := hred3 h2
                simp [isRed_node] at this
            rw [fixUp_id hrB (Or.inl hl3B)] at hstep
            refine ⟨_, v0, A, B ++ ((k, v) :: inorderKV r), hstep,
              ⟨hc3, hcr, hrB, fun _ => hl3B⟩, isBal_red_iff.2 ⟨hb3, hbr⟩,
              fun _ => by simp [isRed_node], ?_, ?_⟩
            · have h1 := split_append_eq hsplit ((k, v) :: inorderKV r)
              simp only [inorderKV, List.append_assoc, List.cons_append,
                List.nil_append] at h1 ⊢
              exact h1
            · have h1 := append_ctx_eq hino3 ((k, v) :: inorderKV r)
              simp only [inorderKV, List.append_assoc, List.cons_append,
                List.nil_append] at h1 ⊢
              exact h1
        · -- RED left child: descend directly (the root is BLACK)
          have hcF : c = false := by
            cases c
            · rfl
            · have := hcImp rfl
              simp [isRed_node] at this
          subst hcF
          rcases isBal_black_iff.1 hb with ⟨m, rfl, hbl, hbr⟩
          have hstep : delF (fuel + 1) key
                (.node false (.node true ll lk lv lr) k v r)
              = (fixUp (.node false
                    (delF fuel key (.node true ll lk lv lr)).1 k v r),
                 (delF fuel key (.node true ll lk lv lr)).2) := by
            simp [delF, hklt, isRed_node]
          have hszl : size (.node true ll lk lv lr) ≤ fuel := by
            simp only [size_node] at hsz ⊢
            omega
          rcases ih key (.node true ll lk lv lr) m hszl hmeml hordl
              (Or.inl ⟨hcl, hbl, Or.inl (by simp [isRed_node])⟩) with
            ⟨l3, v0, A, B, heq, hc3, hb3, hred3, hsplit, hino3⟩
          rw [heq] at hstep
          have hll3 : isRed l3 = false ∨ isRed (leftOf l3) = false := by
            cases h2 : isRed l3
            · exact Or.inl rfl
            · exact Or.inr (red_left_black hc3 h2)
          rw [fixUp_id hrB hll3] at hstep
          refine ⟨_, v0, A, B ++ ((k, v) :: inorderKV r), hstep,
            ⟨hc3, hcr, hrB, by simp⟩, .black hb3 hbr,
            by simp [isRed_node], ?_, ?_⟩
          · have h1 := split_append_eq hsplit ((k, v) :: inorderKV r)
            simp only [inorderKV, List.append_assoc, List.cons_append,
              List.nil_append] at h1 ⊢
            exact h1
          · have h1 := append_ctx_eq hino3 ((k, v) :: inorderKV r)
            simp only [inorderKV, List.append_assoc, List.cons_append,
              List.nil_append] at h1 ⊢
            exact h1
      · -- the key is the root key or lies right of it
        have hkle : k ≤ key := le_of_not_lt hklt
        cases hlr : isRed l
        · -- BLACK left child: the root is RED by the seeding precondition
          have hcT : c = true := by
            rcases hp with h | h
            · simpa [isRed_node] using h
            · rw [leftOf_node] at h
              rw [hlr] at h
              cases h
          subst hcT
          rcases isBal_red_iff.1 hb with ⟨hbl, hbr⟩
          rcases r with _ | ⟨cr, rl, rk, rv, rr⟩
          · -- null right child: the RED root carries the key, remove it
            have hn0 : n = 0 := isBal_nil_iff.1 hbr
            subst hn0
            have hlnil : l = .nil := isBal_zero_black hbl hlr
            subst hlnil
            have hkeq : key = k := by
              simpa [keysOf_node, keysOf_nil] using hmem
            subst hkeq
            refine ⟨.nil, v, [], [], ?_, trivial, .nil, by simp [isRed_nil],
              by simp [inorderKV], by simp [inorderKV]⟩
            simp [delF, lt_self_iff_false, isRed_nil, isNil]
          have hcrF : cr = false := by simpa [isRed_node] using hrB
          subst hcrF
          rcases isBal_black_iff.1 hbr with ⟨m, rfl, hbrl, hbrr⟩
          cases hrlr : isRed rl
          · -- BLACK right child with BLACK left grandchild: moveRedRight
            obtain ⟨hcrl, hcrr, hrrB, _⟩ := hcr
            rcases black_shape hbl hlr with ⟨La, lak, lav, Lb, rfl, hbLa, hbLb⟩
            obtain ⟨hcLa, hcLb, hLbB, _⟩ := hcl
            cases hLar : isRed La
            · -- plain flip branch of moveRedRight
              have hmv : moveRedRight (.node true (.node false La lak lav Lb)
                    k v (.node false rl rk rv rr))
                  = .node false (.node true La lak lav Lb) k v
                      (.node true rl rk rv rr) := by
                unfold moveRedRight
                simp [show RBT.flip (.node true (.node false La lak lav Lb) k v
                      (.node false rl rk rv rr))
                    = RBT.node false (.node true La lak lav Lb) k v
                        (.node true rl rk rv rr) from rfl,
                  leftOf_node, hLar]
              by_cases hkeq : key = k
              · -- exact match: replace by the in-order successor
                subst hkeq
                have hszr : size (.node true rl rk rv rr) ≤ fuel := by
                  simp only [size_node] at hsz ⊢
                  omega
                rcases delMinF_spec fuel (.node true rl rk rv rr) m hszr
                    ⟨hcrl, hcrr, hrrB, fun _ => hrlr⟩
                    (isBal_red_iff.2 ⟨hbrl, hbrr⟩)
                    (Or.inl (by simp [isRed_node])) (by simp) with
                  ⟨rm, pm, heqm, hcm, hbm, hredm, hinom⟩
                rcases pm with ⟨sk, sv⟩
                have hminEq : minPairOf (.node true rl rk rv rr)
                    = some (sk, sv) := by
                  rw [minPairOf_eq_head, ← hinom]
                  rfl
                have hstep : delF (fuel + 1) key
                      (.node true (.node false La lak lav Lb) key v
                        (.node false rl rk rv rr))
                    = (fixUp (.node false (.node true La lak lav Lb) sk sv rm),
                       some (key, v)) := by
                  simp [delF, lt_self_iff_false, isRed_node, leftOf_node,
                    hrlr, isNil, hmv, hminEq, heqm]
                cases hrm : isRed rm
                · rw [fixUp_id hrm (Or.inr (by simp [leftOf_node, hLar]))]
                    at hstep
                  refine ⟨_, v, inorderKV La ++ (lak, lav) :: inorderKV Lb,
                    inorderKV rl ++ (rk, rv) :: inorderKV rr, hstep,
                    ⟨⟨hcLa, hcLb, hLbB, fun _ => hLar⟩, hcm, hrm, by simp⟩,
                    .black (isBal_red_iff.2 ⟨hbLa, hbLb⟩) hbm,
                    by simp [isRed_node], ?_, ?_⟩
                  · simp only [inorderKV, List.append_assoc, List.cons_append,
                      List.nil_append]
                  · simp only [inorderKV, List.append_assoc, List.cons_append,
                      List.nil_append] at hinom ⊢
                    rw [hinom]
                · rcases isRed_true_shape hrm with ⟨rma, rmk, rmv, rmb, rfl⟩
                  obtain ⟨hcrma, hcrmb, hrmbB, hrmaB⟩ := colorOk_red_node hcm
                  rcases isBal_red_iff.1 hbm with ⟨hbrma, hbrmb⟩
                  have hfix : fixUp (.node false (.node true La lak lav Lb)
                        sk sv (.node true rma rmk rmv rmb))
                      = .node true (.node false La lak lav Lb) sk sv
                          (.node false rma rmk rmv rmb) := by
                    unfold fixUp
                    simp [leftOf_node, rightOf_node, isRed_node, hLar, RBT.flip]
                  rw [hfix] at hstep
                  refine ⟨_, v, inorderKV La ++ (lak, lav) :: inorderKV Lb,
                    inorderKV rl ++ (rk, rv) :: inorderKV rr, hstep,
                    ⟨⟨hcLa, hcLb, hLbB, by simp⟩,
                    ⟨hcrma, hcrmb, hrmbB, by simp⟩, by simp [isRed_node],
                    by simp [isRed_node]⟩,
                    isBal_red_iff.2 ⟨.black hbLa hbLb, .black hbrma hbrmb⟩,
                    fun _ => by simp [isRed_node], ?_, ?_⟩
                  · simp only [inorderKV, List.append_assoc, List.cons_append,
                      List.nil_append]
                  · simp only [inorderKV, List.append_assoc, List.cons_append,
                      List.nil_append] at hinom ⊢
                    rw [hinom]
              · -- the key lies strictly right: recurse into the red right
                have hmr2 : key ∈ keysOf (.node true rl rk rv rr) := by
                  rcases key_mem_root_right hord hmem hklt with h | h
                  · exact absurd h hkeq
                  · simpa [keysOf_node] using h
                have hor2 : Ordered (.node true rl rk rv rr) :=
                  ordered_of_inorder_eq rfl hordr
                have hstep : delF (fuel + 1) key
                      (.node true (.node false La lak lav Lb) k v
                        (.node false rl rk rv rr))
                    = (fixUp (.node false (.node true La lak lav Lb) k v
                          (delF fuel key (.node true rl rk rv rr)).1),
                       (delF fuel key (.node true rl rk rv rr)).2) := by
                  simp [delF, hklt, isRed_node, leftOf_node, hrlr, isNil,
                    hmv, hkeq]
                have hszr : size (.node true rl rk rv rr) ≤ fuel := by
                  simp only [size_node] at hsz ⊢
                  omega
                rcases ih key (.node true rl rk rv rr) m hszr hmr2 hor2
                    (Or.inl ⟨⟨hcrl, hcrr, hrrB, fun _ => hrlr⟩,
                      isBal_red_iff.2 ⟨hbrl, hbrr⟩,
                      Or.inl (by simp [isRed_node])⟩) with
                  ⟨r3, v0, A, B, heq, hc3, hb3, hred3, hsplit, hino3⟩
                rw [heq] at hstep
                cases hr3 : isRed r3
                · rw [fixUp_id hr3 (Or.inr (by simp [leftOf_node, hLar]))]
                    at hstep
                  refine ⟨_, v0,
                    (inorderKV La ++ (lak, lav) :: inorderKV Lb ++ [(k, v)])
                      ++ A, B, hstep,
                    ⟨⟨hcLa, hcLb, hLbB, fun _ => hLar⟩, hc3, hr3, by simp⟩,
                    .black (isBal_red_iff.2 ⟨hbLa, hbLb⟩) hb3,
                    by simp [isRed_node], ?_, ?_⟩
                  · have h1 := ctx_append_split hsplit
                      (inorderKV La ++ (lak, lav) :: inorderKV Lb ++ [(k, v)])
                    simp only [inorderKV, List.append_assoc, List.cons_append,
                      List.nil_append] at h1 ⊢
                    exact h1
                  · have h1 := ctx_append_eq hino3
                      (inorderKV La ++ (lak, lav) :: inorderKV Lb ++ [(k, v)])
                    simp only [inorderKV, List.append_assoc, List.cons_append,
                      List.nil_append] at h1 ⊢
                    exact h1
                · rcases isRed_true_shape hr3 with ⟨r3a, r3k, r3v, r3b, rfl⟩
                  obtain ⟨hcr3a, hcr3b, hr3bB, hr3aB⟩ := colorOk_red_node hc3
                  rcases isBal_red_iff.1 hb3 with ⟨hbr3a, hbr3b⟩
                  have hfix : fixUp (.node false (.node true La lak lav Lb)
                        k v (.node true r3a r3k r3v r3b))
                      = .node true (.node false La lak lav Lb) k v
                          (.node false r3a r3k r3v r3b) := by
                    unfold fixUp
                    simp [leftOf_node, rightOf_node, isRed_node, hLar, RBT.flip]
                  rw [hfix] at hstep
                  refine ⟨_, v0,
                    (inorderKV La ++ (lak, lav) :: inorderKV Lb ++ [(k, v)])
                      ++ A, B, hstep,
                    ⟨⟨hcLa, hcLb, hLbB, by simp⟩,
                    ⟨hcr3a, hcr3b, hr3bB, by simp⟩, by simp [isRed_node],
                    by simp [isRed_node]⟩,
                    isBal_red_iff.2 ⟨.black hbLa hbLb, .black hbr3a hbr3b⟩,
                    fun _ => by simp [isRed_node], ?_, ?_⟩
                  · have h1 := ctx_append_split hsplit
                      (inorderKV La ++ (lak, lav) :: inorderKV Lb ++ [(k, v)])
                    simp only [inorderKV, List.append_assoc, List.cons_append,
                      List.nil_append] at h1 ⊢
                    exact h1
                  · have h1 := ctx_append_eq hino3
                      (inorderKV La ++ (lak, lav) :: inorderKV Lb ++ [(k, v)])
                    simp only [inorderKV, List.append_assoc, List.cons_append,
                      List.nil_append] at h1 ⊢
                    exact h1
            · -- RED left grandchild: rotating branch of moveRedRight, the
              -- recursion receives the transient right-leaning configuration
              rcases isRed_true_shape hLar with ⟨Laa, lk2, lv2, Lab, rfl⟩
              obtain ⟨hcLaa, hcLab, hLabB, hLaaB⟩ := colorOk_red_node hcLa
              rcases isBal_red_iff.1 hbLa with ⟨hbLaa, hbLab⟩
              have hmv : moveRedRight (.node true
                    (.node false (.node true Laa lk2 lv2 Lab) lak lav Lb) k v
                    (.node false rl rk rv rr))
                  = .node true (.node false Laa lk2 lv2 Lab) lak lav
                      (.node false Lb k v (.node true rl rk rv rr)) := rfl
              have hkne2 : ¬ key = lak :=
                fun h => hklt (h ▸ hlk lak (by simp [keysOf_node]))
              have hstep : delF (fuel + 1) key (.node true
                    (.node false (.node true Laa lk2 lv2 Lab) lak lav Lb) k v
                    (.node false rl rk rv rr))
                  = (fixUp (.node true (.node false Laa lk2 lv2 Lab) lak lav
                        (delF fuel key
                          (.node false Lb k v (.node true rl rk rv rr))).1),
                     (delF fuel key
                        (.node false Lb k v (.node true rl rk rv rr))).2) := by
                simp [delF, hklt, isRed_node, leftOf_node, hrlr, isNil,
                  hmv, hkne2]
              have hszr : size (.node false Lb k v (.node true rl rk rv rr))
                  ≤ fuel := by
                simp only [size_node] at hsz ⊢
                omega
              have hmR2 : key ∈ keysOf
                  (.node false Lb k v (.node true rl rk rv rr)) := by
                rcases key_mem_root_right hord hmem hklt with h | h
                · simp [keysOf_node, h]
                · simp only [keysOf_node, List.mem_append, List.mem_cons]
                    at h ⊢
                  tauto
              have hoR2 : Ordered
                  (.node false Lb k v (.node true rl rk rv rr)) :=
                ordered_chunk (keysOf Laa ++ lk2 :: keysOf Lab ++ [lak]) []
                  (by simp [keysOf_node]) hord
              have hLblt : ∀ a ∈ keysOf
                  (leftOf (.node false Lb k v (.node true rl rk rv rr))),
                  a < key := by
                intro a ha
                rw [leftOf_node] at ha
                refine lt_of_lt_of_le (hlk a ?_) hkle
                simp only [keysOf_node, List.mem_append, List.mem_cons]
                tauto
              rcases ih key (.node false Lb k v (.node true rl rk rv rr))
                  (m + 1) hszr hmR2 hoR2
                  (Or.inr ⟨⟨Lb, k, v, rl, rk, rv, rr, rfl, hcLb, hLbB,
                    ⟨hcrl, hcrr, hrrB, fun _ => hrlr⟩, m, rfl, hbLb,
                    isBal_red_iff.2 ⟨hbrl, hbrr⟩⟩, hLblt⟩) with
                ⟨r3, v0, A, B, heq, hc3, hb3, hred3, hsplit, hino3⟩
              rw [heq] at hstep
              have hr3B : isRed r3 = false := by
                cases h2 : isRed r3
                · rfl
                · have := hred3 h2
                  simp [isRed_node] at this
              rw [fixUp_id hr3B (Or.inl (by simp [isRed_node]))] at hstep
              refine ⟨_, v0,
                (inorderKV Laa ++ (lk2, lv2) :: inorderKV Lab ++ [(lak, lav)])
                  ++ A, B, hstep,
                ⟨⟨hcLaa, hcLab, hLabB, by simp⟩, hc3, hr3B,
                fun _ => by simp [isRed_node]⟩,
                isBal_red_iff.2 ⟨.black hbLaa hbLab, hb3⟩,
                fun _ => by simp [isRed_node], ?_, ?_⟩
              · have h1 := ctx_append_split hsplit
                  (inorderKV Laa ++ (lk2, lv2) :: inorderKV Lab ++ [(lak, lav)])
                simp only [inorderKV, List.append_assoc, List.cons_append,
                  List.nil_append] at h1 ⊢
                exact h1
              · have h1 := ctx_append_eq hino3
                  (inorderKV Laa ++ (lk2, lv2) :: inorderKV Lab ++ [(lak, lav)])
                simp only [inorderKV, List.append_assoc, List.cons_append,
                  List.nil_append] at h1 ⊢
                exact h1
          · -- BLACK right child with RED left grandchild: no borrowing
            by_cases hkeq : key = k
            · -- exact match: replace by the in-order successor
              subst hkeq
              have hszr : size (.node false rl rk rv rr) ≤ fuel := by
                simp only [size_node] at hsz ⊢
                omega
              rcases delMinF_spec fuel (.node false rl rk rv rr) (m + 1) hszr
                  hcr (.black hbrl hbrr)
                  (Or.inr (by simp [leftOf_node, hrlr])) (by simp) with
                ⟨rm, pm, heqm, hcm, hbm, hredm, hinom⟩
              rcases pm with ⟨sk, sv⟩
              have hrmB : isRed rm = false := by
                cases h2 : isRed rm
                · rfl
                · have := hredm h2
                  simp [isRed_node] at this
              have hminEq : minPairOf (.node false rl rk rv rr)
                  = some (sk, sv) := by
                rw [minPairOf_eq_head, ← hinom]
                rfl
              have hstep : delF (fuel + 1) key
                    (.node true l key v (.node false rl rk rv rr))
                  = (fixUp (.node true l sk sv rm), some (key, v)) := by
                simp [delF, lt_self_iff_false, isRed_node, hlr, leftOf_node,
                  hrlr, isNil, hminEq, heqm]
              rw [fixUp_id hrmB (Or.inl hlr)] at hstep
              refine ⟨_, v, inorderKV l,
                inorderKV rl ++ (rk, rv) :: inorderKV rr, hstep,
                ⟨hcl, hcm, hrmB, fun _ => hlr⟩, isBal_red_iff.2 ⟨hbl, hbm⟩,
                fun _ => by simp [isRed_node], ?_, ?_⟩
              · simp only [inorderKV, List.append_assoc, List.cons_append,
                  List.nil_append]
              · simp only [inorderKV, List.append_assoc, List.cons_append,
                  List.nil_append] at hinom ⊢
                rw [hinom]
            · -- the key lies strictly right: recurse into the right child
              have hmr : key ∈ keysOf (.node false rl rk rv rr) :=
                (key_mem_root_right hord hmem hklt).resolve_left hkeq
              have hstep : delF (fuel + 1) key
                    (.node true l k v (.node false rl rk rv rr))
                  = (fixUp (.node true l k v
                        (delF fuel key (.node false rl rk rv rr)).1),
                     (delF fuel key (.node false rl rk rv rr)).2) := by
                simp [delF, hklt, isRed_node, hlr, leftOf_node, hrlr, isNil,
                  hkeq]
              have hszr : size (.node false rl rk rv rr) ≤ fuel := by
                simp only [size_node] at hsz ⊢
                omega
              rcases ih key (.node false rl rk rv rr) (m + 1) hszr hmr hordr
                  (Or.inl ⟨hcr, .black hbrl hbrr,
                    Or.inr (by simp [leftOf_node, hrlr])⟩) with
                ⟨r3, v0, A, B, heq, hc3, hb3, hred3, hsplit, hino3⟩
              rw [heq] at hstep
              have hr3B : isRed r3 = false := by
                cases h2 : isRed r3
                · rfl
                · have := hred3 h2
                  simp [isRed_node] at this
              rw [fixUp_id hr3B (Or.inl hlr)] at hstep
              refine ⟨_, v0, (inorderKV l ++ [(k, v)]) ++ A, B, hstep,
                ⟨hcl, hc3, hr3B, fun _ => hlr⟩, isBal_red_iff.2 ⟨hbl, hb3⟩,
                fun _ => by simp [isRed_node], ?_, ?_⟩
              · have h1 := ctx_append_split hsplit (inorderKV l ++ [(k, v)])
                simp only [inorderKV, List.append_assoc, List.cons_append,
                  List.nil_append] at h1 ⊢
                exact h1
              · have h1 := ctx_append_eq hino3 (inorderKV l ++ [(k, v)])
                simp only [inorderKV, List.append_assoc, List.cons_append,
                  List.nil_append] at h1 ⊢
                exact h1
        · -- RED left child: rotate it right, the red link moves to the right
          rcases isRed_true_shape hlr with ⟨ll, lk, lv, lr, rfl⟩
          obtain ⟨hcll, hclr, hlrB, hllB⟩ := colorOk_red_node hcl
          have hcF : c = false := by
            cases c
            · rfl
            · have := hcImp rfl
              simp [isRed_node] at this
          subst hcF
          rcases isBal_black_iff.1 hb with ⟨m, rfl, hbl, hbr⟩
          rcases isBal_red_iff.1 hbl with ⟨hbll, hblr⟩
          have hlkk : lk < k := hlk lk (by simp [keysOf_node])
          have hkneL : ¬ key = lk := by
            intro h
            rw [h] at hkle
            exact absurd (lt_of_lt_of_le hlkk hkle) (lt_irrefl lk)
          have hstep : delF (fuel + 1) key
                (.node false (.node true ll lk lv lr) k v r)
              = (fixUp (.node false ll lk lv
                    (delF fuel key (.node true lr k v r)).1),
                 (delF fuel key (.node true lr k v r)).2) := by
            simp [delF, hklt, isRed_node, rotR, leftOf_node, isNil, hkneL]
          have hmr2 : key ∈ keysOf (.node true lr k v r) := by
            rcases key_mem_root_right hord hmem hklt with h | h
            · simp [keysOf_node, h]
            · simp only [keysOf_node, List.mem_append, List.mem_cons] at h ⊢
              tauto
          have hor2 : Ordered (.node true lr k v r) :=
            ordered_chunk (keysOf ll ++ [lk]) []
              (by simp [keysOf_node]) hord
          have hszr : size (.node true lr k v r) ≤ fuel := by
            simp only [size_node] at hsz ⊢
            omega
          rcases ih key (.node true lr k v r) m hszr hmr2 hor2
              (Or.inl ⟨⟨hclr, hcr, hrB, fun _ => hlrB⟩,
                isBal_red_iff.2 ⟨hblr, hbr⟩,
                Or.inl (by simp [isRed_node])⟩) with
            ⟨r3, v0, A, B, heq, hc3, hb3, hred3, hsplit, hino3⟩
          rw [heq] at hstep
          cases hr3 : isRed r3
          · rw [fixUp_id hr3 (Or.inl hllB)] at hstep
            refine ⟨_, v0, (inorderKV ll ++ [(lk, lv)]) ++ A, B, hstep,
              ⟨hcll, hc3, hr3, by simp⟩, .black hbll hb3,
              by simp [isRed_node], ?_, ?_⟩
            · have h1 := ctx_append_split hsplit (inorderKV ll ++ [(lk, lv)])
              simp only [inorderKV, List.append_assoc, List.cons_append,
                List.nil_append] at h1 ⊢
              exact h1
            · have h1 := ctx_append_eq hino3 (inorderKV ll ++ [(lk, lv)])
              simp only [inorderKV, List.append_assoc, List.cons_append,
                List.nil_append] at h1 ⊢
              exact h1
          · rcases isRed_true_shape hr3 with ⟨r3a, r3k, r3v, r3b, rfl⟩
            obtain ⟨hcr3a, hcr3b, hr3bB, hr3aB⟩ := colorOk_red_node hc3
            rcases isBal_red_iff.1 hb3 with ⟨hbr3a, hbr3b⟩
            have hfix : fixUp (.node false ll lk lv
                  (.node true r3a r3k r3v r3b))
                = .node false (.node true ll lk lv r3a) r3k r3v r3b := by
              unfold fixUp
              simp [leftOf_node, rightOf_node, isRed_node, hllB, hr3bB, rotL]
            rw [hfix] at hstep
            refine ⟨_, v0, (inorderKV ll ++ [(lk, lv)]) ++ A, B, hstep,
              ⟨⟨hcll, hcr3a, hr3aB, fun _ => hllB⟩, hcr3b, hr3bB, by simp⟩,
              .black (isBal_red_iff.2 ⟨hbll, hbr3a⟩) hbr3b,
              by simp [isRed_node], ?_, ?_⟩
            · have h1 := ctx_append_split hsplit (inorderKV ll ++ [(lk, lv)])
              simp only [inorderKV, List.append_assoc, List.cons_append,
                List.nil_append] at h1 ⊢
              exact h1
            · have h1 := ctx_append_eq hino3 (inorderKV ll ++ [(lk, lv)])
              simp only [inorderKV, List.append_assoc, List.cons_append,
                List.nil_append] at h1 ⊢
              exact h1
    · -- transient right-leaning input: the key is the root key or right of it
      rcases hrl with ⟨L, K, V, rl, rk, rv, rr, rfl, hcL, hLB, hcR, m, rfl,
        hbL, hbR⟩
      obtain ⟨hcrl, hcrr, hrrB, hrlBf⟩ := hcR
      have hrlB := hrlBf rfl
      rcases isBal_red_iff.1 hbR with ⟨hbrl, hbrr⟩
      simp only [leftOf_node] at hLlt
      obtain ⟨hordL, hordR, hLK, hKR⟩ := ordered_node_iff.1 hord
      have hnKlt : ¬ key < K := by
        rw [keysOf_node] at hmem
        rcases List.mem_append.1 hmem with h | h
        · exact absurd (hLlt key h) (lt_irrefl key)
        · rcases List.mem_cons.1 h with rfl | h2
          · exact lt_irrefl key
          · exact asymm (hKR key h2)
      by_cases hkeq : key = K
      · -- exact match at the right-leaning root: successor replacement
        subst hkeq
        have hszr : size (.node true rl rk rv rr) ≤ fuel := by
          simp only [size_node] at hsz ⊢
          omega
        rcases delMinF_spec fuel (.node true rl rk rv rr) m hszr
            ⟨hcrl, hcrr, hrrB, fun _ => hrlB⟩
            (isBal_red_iff.2 ⟨hbrl, hbrr⟩)
            (Or.inl (by simp [isRed_node])) (by simp) with
          ⟨rm, pm, heqm, hcm, hbm, hredm, hinom⟩
        rcases pm with ⟨sk, sv⟩
        have hminEq : minPairOf (.node true rl rk rv rr) = some (sk, sv) := by
          rw [minPairOf_eq_head, ← hinom]
          rfl
        have hstep : delF (fuel + 1) key
              (.node false L key V (.node true rl rk rv rr))
            = (fixUp (.node false L sk sv rm), some (key, V)) := by
          simp [delF, lt_self_iff_false, isRed_node, hLB, leftOf_node, isNil,
            hminEq, heqm]
        cases hrm : isRed rm
        · rw [fixUp_id hrm (Or.inl hLB)] at hstep
          refine ⟨_, V, inorderKV L,
            inorderKV rl ++ (rk, rv) :: inorderKV rr, hstep,
            ⟨hcL, hcm, hrm, by simp⟩, .black hbL hbm,
            by simp [isRed_node], ?_, ?_⟩
          · simp only [inorderKV, List.append_assoc, List.cons_append,
              List.nil_append]
          · simp only [inorderKV, List.append_assoc, List.cons_append,
              List.nil_append] at hinom ⊢
            rw [hinom]
        · rcases isRed_true_shape hrm with ⟨rma, rmk, rmv, rmb, rfl⟩
          obtain ⟨hcrma, hcrmb, hrmbB, hrmaB⟩ := colorOk_red_node hcm
          rcases isBal_red_iff.1 hbm with ⟨hbrma, hbrmb⟩
          have hfix : fixUp (.node false L sk sv
                (.node true rma rmk rmv rmb))
              = .node false (.node true L sk sv rma) rmk rmv rmb := by
            unfold fixUp
            simp [leftOf_node, rightOf_node, isRed_node, hLB, hrmbB, rotL]
          rw [hfix] at hstep
          refine ⟨_, V, inorderKV L,
            inorderKV rl ++ (rk, rv) :: inorderKV rr, hstep,
            ⟨⟨hcL, hcrma, hrmaB, fun _ => hLB⟩, hcrmb, hrmbB, by simp⟩,
            .black (isBal_red_iff.2 ⟨hbL, hbrma⟩) hbrmb,
            by simp [isRed_node], ?_, ?_⟩
          · simp only [inorderKV, List.append_assoc, List.cons_append,
              List.nil_append]
          · simp only [inorderKV, List.append_assoc, List.cons_append,
              List.nil_append] at hinom ⊢
            rw [hinom]
      · -- the key lies strictly right: recurse into the red right child
        have hmr2 : key ∈ keysOf (.node true rl rk rv rr) := by
          rcases key_mem_root_right hord hmem hnKlt with h | h
          · exact absurd h hkeq
          · exact h
        have hstep : delF (fuel + 1) key
              (.node false L K V (.node true rl rk rv rr))
            = (fixUp (.node false L K V
                  (delF fuel key (.node true rl rk rv rr)).1),
               (delF fuel key (.node true rl rk rv rr)).2) := by
          simp [delF, hnKlt, isRed_node, hLB, leftOf_node, isNil, hkeq]
        have hszr : size (.node true rl rk rv rr) ≤ fuel := by
          simp only [size_node] at hsz ⊢
          omega
        rcases ih key (.node true rl rk rv rr) m hszr hmr2 hordR
            (Or.inl ⟨⟨hcrl, hcrr, hrrB, fun _ => hrlB⟩,
              isBal_red_iff.2 ⟨hbrl, hbrr⟩,
              Or.inl (by simp [isRed_node])⟩) with
          ⟨r3, v0, A, B, heq, hc3, hb3, hred3, hsplit, hino3⟩
        rw [heq] at hstep
        cases hr3 : isRed r3
        · rw [fixUp_id hr3 (Or.inl hLB)] at hstep
          refine ⟨_, v0, (inorderKV L ++ [(K, V)]) ++ A, B, hstep,
            ⟨hcL, hc3, hr3, by simp⟩, .black hbL hb3,
            by simp [isRed_node], ?_, ?_⟩
          · have h1 := ctx_append_split hsplit (inorderKV L ++ [(K, V)])
            simp only [inorderKV, List.append_assoc, List.cons_append,
              List.nil_append] at h1 ⊢
            exact h1
          · have h1 := ctx_append_eq hino3 (inorderKV L ++ [(K, V)])
            simp only [inorderKV, List.append_assoc, List.cons_append,
              List.nil_append] at h1 ⊢
            exact h1
        · rcases isRed_true_shape hr3 with ⟨r3a, r3k, r3v, r3b, rfl⟩
          obtain ⟨hcr3a, hcr3b, hr3bB, hr3aB⟩ := colorOk_red_node hc3
          rcases isBal_red_iff.1 hb3 with ⟨hbr3a, hbr3b⟩
          have hfix : fixUp (.node false L K V (.node true r3a r3k r3v r3b))
              = .node false (.node true L K V r3a) r3k r3v r3b := by
            unfold fixUp
            simp [leftOf_node, rightOf_node, isRed_node, hLB, hr3bB, rotL]
          rw [hfix] at hstep
          refine ⟨_, v0, (inorderKV L ++ [(K, V)]) ++ A, B, hstep,
            ⟨⟨hcL, hcr3a, hr3aB, fun _ => hLB⟩, hcr3b, hr3bB, by simp⟩,
            .black (isBal_red_iff.2 ⟨hbL, hbr3a⟩) hbr3b,
            by simp [isRed_node], ?_, ?_⟩
          · have h1 := ctx_append_split hsplit (inorderKV L ++ [(K, V)])
            simp only [inorderKV, List.append_assoc, List.cons_append,
              List.nil_append] at h1 ⊢
            exact h1
          · have h1 := ctx_append_eq hino3 (inorderKV L ++ [(K, V)])
            simp only [inorderKV, List.append_assoc, List.cons_append,
              List.nil_append] at h1 ⊢
            exact h1

/-!
Bridges between the tree searches and association-list membership, and the
invariant preservation of the four public mutating operations.
-/

theorem sorted_split_bounds {κ ν : Type} [LinearOrder κ]
    {A B : List (κ × ν)} {key : κ} {v0 : ν}
    (hs : ((A ++ (key, v0) :: B).map Prod.fst).Sorted (· < ·)) :
    (∀ p ∈ A, p.1 < key) ∧ ∀ p ∈ B, key < p.1 := by
  rw [List.map_append, List.map_cons] at hs
  have h3 := (List.pairwise_append.1 hs).2.2
  have h2 := List.pairwise_cons.1 (List.pairwise_append.1 hs).2.1
  exact ⟨fun p hp =>
      h3 p.1 (List.mem_map_of_mem Prod.fst hp) key (List.mem_cons_self key _),
    fun p hp => h2.1 p.1 (List.mem_map_of_mem Prod.fst hp)⟩

theorem eraseKey_of_split {κ ν : Type} [LinearOrder κ]
    {A B : List (κ × ν)} {key : κ} (v0 : ν)
    (hA : ∀ p ∈ A, p.1 < key) (hB : ∀ p ∈ B, key < p.1) :
    eraseKey key (A ++ (key, v0) :: B) = A ++ B := by
  unfold eraseKey
  rw [List.filter_append, List.filter_cons]
  have h1 : List.filter (fun p => !(decide (p.1 = key))) A = A :=
    List.filter_eq_self.2 fun p hp => by simp [ne_of_lt (hA p hp)]
  have h2 : List.filter (fun p => !(decide (p.1 = key))) B = B :=
    List.filter_eq_self.2 fun p hp => by simp [ne_of_gt (hB p hp)]
  rw [h1, h2]
  simp

theorem key_not_mem_erase {κ ν : Type} [LinearOrder κ] (key : κ)
    (l : List (κ × ν)) : key ∉ (eraseKey key l).map Prod.fst := by
  intro h
  rcases List.mem_map.1 h with ⟨p, hp, hk⟩
  rcases List.mem_filter.1 hp with ⟨_, hf⟩
  simp only [Bool.not_eq_true', decide_eq_false_iff_not] at hf
  exact hf hk

theorem mem_insList_self (key : κ) (nv : ν) :
    ∀ L : List (κ × ν), (key, nv) ∈ insList key nv L := by
  intro L
  induction L with
  | nil => simp [insList]
  | cons p ps ihp =>
    unfold insList
    split_ifs
    · exact List.mem_cons_self _ _
    · exact List.mem_cons_of_mem p ihp

namespace RBT

variable {κ ν : Type}

theorem mem_keys_of_mem_inorder {t : RBT κ ν} {p : κ × ν}
    (h : p ∈ inorderKV t) : p.1 ∈ keysOf t :=
  List.mem_map_of_mem Prod.fst h

/-- Exact search agrees with association membership on ordered trees. -/
theorem getV_some_iff [LinearOrder κ] (key : κ) (v : ν) :
    ∀ t : RBT κ ν, Ordered t →
      (getV t key = some v ↔ (key, v) ∈ inorderKV t) := by
  intro t
  induction t with
  | nil => intro _; simp [getV, inorderKV]
  | node c l a w r ihl ihr =>
    intro hord
    obtain ⟨hordl, hordr, hlk, hkr⟩ := ordered_node_iff.1 hord
    rcases lt_trichotomy key a with h1 | h1 | h1
    · rw [show getV (.node c l a w r) key = getV l key from by
          simp [getV, h1], ihl hordl]
      simp only [inorderKV, List.mem_append, List.mem_cons, Prod.mk.injEq]
      constructor
      · exact fun h => Or.inl h
      · rintro (h | ⟨rfl, rfl⟩ | h)
        · exact h
        · exact absurd h1 (lt_irrefl _)
        · exact absurd (hkr key (mem_keys_of_mem_inorder h)) (asymm h1)
    · subst h1
      rw [show getV (.node c l key w r) key = some w from by simp [getV]]
      simp only [inorderKV, List.mem_append, List.mem_cons, Prod.mk.injEq,
        Option.some.injEq]
      constructor
      · rintro rfl
        simp
      · rintro (h | ⟨_, rfl⟩ | h)
        · exact absurd (hlk key (mem_keys_of_mem_inorder h)) (lt_irrefl key)
        · rfl
        · exact absurd (hkr key (mem_keys_of_mem_inorder h)) (lt_irrefl key)
    · rw [show getV (.node c l a w r) key = getV r key from by
          simp [getV, h1, asymm h1], ihr hordr]
      simp only [inorderKV, List.mem_append, List.mem_cons, Prod.mk.injEq]
      constructor
      · exact fun h => Or.inr (Or.inr h)
      · rintro (h | ⟨rfl, rfl⟩ | h)
        · exact absurd (hlk key (mem_keys_of_mem_inorder h)) (asymm h1)
        · exact absurd h1 (lt_irrefl _)
        · exact h

/-- Key membership test agrees with the key list on ordered trees. -/
theorem containsB_true_iff [LinearOrder κ] {t : RBT κ ν} (hord : Ordered t)
    (key : κ) : containsB t key = true ↔ key ∈ keysOf t := by
  unfold containsB
  rw [Option.isSome_iff_exists]
  constructor
  · rintro ⟨v, hv⟩
    exact mem_keys_of_mem_inorder ((getV_some_iff key v t hord).1 hv)
  · intro h
    unfold keysOf at h
    rcases List.mem_map.1 h with ⟨⟨k2, v2⟩, hmem, hk⟩
    exact ⟨v2, (getV_some_iff key v2 t hord).2
      ((show k2 = key from hk) ▸ hmem)⟩

/-- The value scan agrees with association membership through the pluggable
value equality. -/
theorem containsVB_true_iff (veq : ν → ν → Bool) (tgt : ν) :
    ∀ t : RBT κ ν,
      (containsVB veq t tgt = true ↔ ∃ p ∈ inorderKV t, veq p.2 tgt = true) := by
  intro t
  induction t with
  | nil => simp [containsVB, inorderKV]
  | node c l k v r ihl ihr =>
    simp only [containsVB, Bool.or_eq_true, ihl, ihr, inorderKV,
      List.mem_append, List.mem_cons]
    constructor
    · rintro ((h | ⟨p, hp, hv⟩) | ⟨p, hp, hv⟩)
      · exact ⟨(k, v), Or.inr (Or.inl rfl), h⟩
      · exact ⟨p, Or.inl hp, hv⟩
      · exact ⟨p, Or.inr (Or.inr hp), hv⟩
    · rintro ⟨p, (hp | hp | hp), hv⟩
      · exact Or.inl (Or.inr ⟨p, hp, hv⟩)
      · exact Or.inl (Or.inl (by rw [hp] at hv; exact hv))
      · exact Or.inr ⟨p, hp, hv⟩

/-- Distinct keys of an ordered tree determine their values. -/
theorem inorder_key_unique [LinearOrder κ] {t : RBT κ ν} (hord : Ordered t)
    {k : κ} {v1 v2 : ν} (h1 : (k, v1) ∈ inorderKV t)
    (h2 : (k, v2) ∈ inorderKV t) : v1 = v2 := by
  have hnd : ((inorderKV t).map Prod.fst).Nodup := by
    have hs := hord
    unfold Ordered keysOf at hs
    exact hs.imp (fun h => ne_of_lt h)
  have heq : (k, v1) = ((k, v2) : κ × ν) :=
    List.inj_on_of_nodup_map hnd h1 h2 rfl
  exact congrArg Prod.snd heq

/-- The top-level redness seeding hands the deletion descents a disciplined,
seeded tree with the same content. -/
theorem redTop_ready {t : RBT κ ν} {n : Nat} (hc : ColorOk t)
    (hr : isRed t = false) (hb : IsBal t n) (hne : t ≠ .nil) :
    ColorOk (redTop t) ∧ Pre (redTop t) ∧ inorderKV (redTop t) = inorderKV t ∧
      redTop t ≠ .nil ∧ ∃ n2, IsBal (redTop t) n2 := by
  rcases t with _ | ⟨c, l, k, v, r⟩
  · exact absurd rfl hne
  have hcF : c = false := by
    cases c
    · rfl
    · simp [isRed_node] at hr
  subst hcF
  obtain ⟨hcl, hcr, hrB, _⟩ := hc
  rcases isBal_black_iff.1 hb with ⟨m, rfl, hbl, hbr⟩
  cases hlB : isRed l
  · have hEq : redTop (.node false l k v r) = .node true l k v r := by
      simp [redTop, leftOf_node, rightOf_node, hlB, hrB, setRed]
    rw [hEq]
    exact ⟨⟨hcl, hcr, hrB, fun _ => hlB⟩, Or.inl (by simp [isRed_node]), rfl,
      by simp, m, isBal_red_iff.2 ⟨hbl, hbr⟩⟩
  · have hEq : redTop (.node false l k v r) = .node false l k v r := by
      simp [redTop, leftOf_node, hlB]
    rw [hEq]
    exact ⟨⟨hcl, hcr, hrB, by simp⟩, Or.inr (by simp [leftOf_node, hlB]),
      rfl, by simp, m + 1, .black hbl hbr⟩

end RBT

open RBT in
/-- A freshly created map satisfies the full invariant vacuously. -/
theorem inv_empty : Inv (⟨.nil, 0⟩ : TreeMap κ ν) :=
  ⟨List.sorted_nil, trivial, ⟨0, .nil⟩, rfl, rfl⟩

open RBT in
/-- A successful creation yields exactly the empty map. -/
theorem createTreeMap_some {keySize valueSize : Nat} {kc ve kcp vcp fp : Bool}
    {m0 : TreeMap κ ν} {st : Status}
    (h : createTreeMap keySize valueSize kc ve kcp vcp fp = (some m0, st)) :
    m0 = ⟨.nil, 0⟩ := by
  unfold createTreeMap at h
  split_ifs at h <;> simp_all

open RBT in
/-- An absent key leaves `deletePair` without any effect. -/
theorem deletePair_absent {m : TreeMap κ ν} {key : κ}
    (h : containsB m.root key = false) :
    deletePair m key = (.DOES_NOT_CONTAIN, m, none) := by
  simp [deletePair, h]

open RBT in
/-- Full contract of `deletePair` on a present key: SUCCESS, the original
pair reported, the count decremented, the key erased from the association
and the invariant intact. -/
theorem deletePair_present {m : TreeMap κ ν} (hm : Inv m) {key : κ}
    (hmem : key ∈ keysOf m.root) :
    ∃ t2 v0,
      deletePair m key = (.SUCCESS, ⟨t2, m.nodeAmount - 1⟩, some (key, v0)) ∧
      Inv (⟨t2, m.nodeAmount - 1⟩ : TreeMap κ ν) ∧
      inorderKV t2 = eraseKey key (inorderKV m.root) ∧
      (key, v0) ∈ inorderKV m.root := by
  have hcont : containsB m.root key = true := (containsB_true_iff hm.ord key).2 hmem
  have hne : m.root ≠ .nil := by
    intro h
    rw [h] at hmem
    simp [keysOf_nil] at hmem
  rcases hm.bal with ⟨n, hbal⟩
  obtain ⟨hc0, hp0, hino0, hne0, n0, hb0⟩ :=
    redTop_ready hm.color hm.rootBlack hbal hne
  have hord0 : Ordered (redTop m.root) := ordered_of_inorder_eq hino0 hm.ord
  have hmem0 : key ∈ keysOf (redTop m.root) := by
    unfold keysOf
    rw [hino0]
    exact hmem
  rcases delF_spec (size (redTop m.root)) key (redTop m.root) n0 (le_refl _)
      hmem0 hord0 (Or.inl ⟨hc0, hb0, hp0⟩) with
    ⟨t2, v0, A, B, heq, hc2, hb2, _, hsplit, hino2⟩
  have hsplitRoot : inorderKV m.root = A ++ (key, v0) :: B := by
    rw [← hino0, hsplit]
  obtain ⟨hA, hB⟩ := sorted_split_bounds (by
    have hs := hm.ord
    unfold Ordered keysOf at hs
    rw [hsplitRoot] at hs
    exact hs)
  have hord2 : Ordered t2 := by
    have hsub : List.Sublist (inorderKV t2) (inorderKV m.root) := by
      rw [hino2, hsplitRoot]
      exact (List.sublist_cons_self (key, v0) B).append_left A
    have hs := hm.ord
    unfold Ordered keysOf at hs ⊢
    exact List.Pairwise.sublist (hsub.map Prod.fst) hs
  refine ⟨blacken t2, v0, ?_, ?_, ?_, ?_⟩
  · simp only [deletePair, hcont, if_true]
    rw [heq]
  · refine ⟨ordered_of_inorder_eq (inorder_blacken t2) hord2,
      colorOk_blacken hc2, isBal_blacken hb2, isRed_blacken t2, ?_⟩
    show m.nodeAmount - 1 = size (blacken t2)
    have e1 : m.nodeAmount = size m.root := hm.count
    have e2 : size m.root = (inorderKV t2).length + 1 := by
      rw [size_eq_length_inorder, hsplitRoot, hino2]
      simp [List.length_append]
      omega
    have e3 : size (blacken t2) = (inorderKV t2).length := by
      rw [size_of_inorder_eq (inorder_blacken t2), size_eq_length_inorder]
    omega
  · rw [inorder_blacken, hino2, hsplitRoot, eraseKey_of_split v0 hA hB]
  · rw [hsplitRoot]
    exact List.mem_append.2 (Or.inr (List.mem_cons_self _ _))

open RBT in
/-- `deletePair` preserves the invariant in every case. -/
theorem deletePair_inv {m : TreeMap κ ν} (hm : Inv m) (key : κ) :
    Inv (deletePair m key).2.1 := by
  cases hcont : containsB m.root key
  · rw [deletePair_absent hcont]
    exact hm
  · rcases deletePair_present hm ((containsB_true_iff hm.ord key).1 hcont) with
      ⟨t2, v0, heq, hinv, _, _⟩
    rw [heq]
    exact hinv

open RBT in
/-- `pollFirstPair` preserves the invariant in every case. -/
theorem pollFirstPair_inv {m : TreeMap κ ν} (hm : Inv m) :
    Inv (pollFirstPair m).2.1 := by
  rcases m with ⟨root, amt⟩
  rcases root with _ | ⟨c, l, k, v, r⟩
  · exact hm
  rcases hm.bal with ⟨n, hbal⟩
  obtain ⟨hc0, hp0, hino0, hne0, n0, hb0⟩ :=
    redTop_ready hm.color hm.rootBlack hbal (by simp)
  rcases delMinF_spec (size (redTop (.node c l k v r)))
      (redTop (.node c l k v r)) n0 (le_refl _) hc0 hb0 hp0 hne0 with
    ⟨t2, p, heq, hc2, hb2, _, hino2⟩
  have hres : (pollFirstPair (⟨.node c l k v r, amt⟩ : TreeMap κ ν)).2.1
      = ⟨blacken t2, amt - 1⟩ := by
    simp only [pollFirstPair]
    rw [heq]
  rw [hres]
  have hord2 : Ordered t2 := by
    have hs : Ordered (redTop (.node c l k v r)) :=
      ordered_of_inorder_eq hino0 hm.ord
    unfold Ordered keysOf at hs ⊢
    rw [← hino2, List.map_cons] at hs
    exact (List.pairwise_cons.1 hs).2
  refine ⟨ordered_of_inorder_eq (inorder_blacken t2) hord2,
    colorOk_blacken hc2, isBal_blacken hb2, isRed_blacken t2, ?_⟩
  show amt - 1 = size (blacken t2)
  have e1 : amt = size (RBT.node c l k v r) := hm.count
  have e2 : size (RBT.node c l k v r) = (inorderKV t2).length + 1 := by
    rw [size_eq_length_inorder, ← hino0, ← hino2]
    simp
  have e3 : size (blacken t2) = (inorderKV t2).length := by
    rw [size_of_inorder_eq (inorder_blacken t2), size_eq_length_inorder]
  omega

open RBT in
/-- `pollLastPair` preserves the invariant in every case. -/
theorem pollLastPair_inv {m : TreeMap κ ν} (hm : Inv m) :
    Inv (pollLastPair m).2.1 := by
  rcases m with ⟨root, amt⟩
  rcases root with _ | ⟨c, l, k, v, r⟩
  · exact hm
  rcases hm.bal with ⟨n, hbal⟩
  obtain ⟨hc0, hp0, hino0, hne0, n0, hb0⟩ :=
    redTop_ready hm.color hm.rootBlack hbal (by simp)
  rcases delMaxF_spec (size (redTop (.node c l k v r)))
      (redTop (.node c l k v r)) n0 (le_refl _)
      (Or.inl ⟨hc0, hb0, hp0, hne0⟩) with
    ⟨t2, p, heq, hc2, hb2, _, hino2⟩
  have hres : (pollLastPair (⟨.node c l k v r, amt⟩ : TreeMap κ ν)).2.1
      = ⟨blacken t2, amt - 1⟩ := by
    simp only [pollLastPair]
    rw [heq]
  rw [hres]
  have hord2 : Ordered t2 := by
    have hs : Ordered (redTop (.node c l k v r)) :=
      ordered_of_inorder_eq hino0 hm.ord
    unfold Ordered keysOf at hs ⊢
    rw [← hino2, List.map_append] at hs
    exact (List.pairwise_append.1 hs).1
  refine ⟨ordered_of_inorder_eq (inorder_blacken t2) hord2,
    colorOk_blacken hc2, isBal_blacken hb2, isRed_blacken t2, ?_⟩
  show amt - 1 = size (blacken t2)
  have e1 : amt = size (RBT.node c l k v r) := hm.count
  have e2 : size (RBT.node c l k v r) = (inorderKV t2).length + 1 := by
    rw [size_eq_length_inorder, ← hino0, ← hino2]
    simp [List.length_append]
  have e3 : size (blacken t2) = (inorderKV t2).length := by
    rw [size_of_inorder_eq (inorder_blacken t2), size_eq_length_inorder]
  omega

open RBT in
/-- Every public mutating call preserves the invariant. -/
theorem applyOp_inv {m : TreeMap κ ν} (hm : Inv m) (op : MapOp κ ν) :
    Inv (applyOp m op) := by
  cases op with
  | put key nv aOk kOk vOk => exact putPair_inv hm key nv aOk kOk vOk
  | del key => exact deletePair_inv hm key
  | pollFirst => exact pollFirstPair_inv hm
  | pollLast => exact pollLastPair_inv hm

open RBT in
/-- Every sequence of public mutating calls preserves the invariant. -/
theorem applyOps_inv {m : TreeMap κ ν} (hm : Inv m) :
    ∀ ops : List (MapOp κ ν), Inv (applyOps m ops) := by
  intro ops
  induction ops generalizing m with
  | nil => exact hm
  | cons op ops ihp => exact ihp (applyOp_inv hm op)

namespace RBT

variable {κ ν : Type}

theorem colorOk_noRedRight : ∀ t : RBT κ ν, ColorOk t → NoRedRight t := by
  intro t
  induction t with
  | nil => intro _; trivial
  | node c l k v r ihl ihr =>
    rintro ⟨h1, h2, h3, _⟩
    exact ⟨ihl h1, ihr h2, h3⟩

theorem colorOk_noRedRed : ∀ t : RBT κ ν, ColorOk t → NoRedRed t := by
  intro t
  induction t with
  | nil => intro _; trivial
  | node c l k v r ihl ihr =>
    rintro ⟨h1, h2, _, h4⟩
    exact ⟨ihl h1, ihr h2, h4⟩

/-- The inductive black-height assignment pins every entry of `pathBlacks`. -/
theorem pathBlacks_const {t : RBT κ ν} {n : Nat} (hb : IsBal t n) :
    ∀ x ∈ pathBlacks t, x = n := by
  induction hb with
  | nil =>
    intro x hx
    simpa [pathBlacks] using hx
  | red h1 h2 ih1 ih2 =>
    intro x hx
    simp only [pathBlacks, List.mem_map, List.mem_append] at hx
    rcases hx with ⟨y, hy | hy, rfl⟩
    · simp [ih1 y hy]
    · simp [ih2 y hy]
  | black h1 h2 ih1 ih2 =>
    intro x hx
    simp only [pathBlacks, List.mem_map, List.mem_append] at hx
    rcases hx with ⟨y, hy | hy, rfl⟩
    · simp [ih1 y hy]
    · simp [ih2 y hy]

end RBT

open RBT in
/-- C1: after any sequence of the public mutating operations (putPair with
any resource outcome, deletePair, pollFirstPair, pollLastPair) applied to a
map created by `createTreeMap`, the tree rooted at the map's root satisfies
every structural invariant: the in-order key sequence is strictly
increasing (hence duplicate-free), no node has a RED right child, no RED
node has a RED left child, every root-to-null path crosses the same number
of BLACK nodes, the root is BLACK, and `nodeAmount` equals the number of
reachable nodes. -/
theorem invariants_after_any_op_sequence {κ ν : Type} [LinearOrder κ]
    (keySize valueSize : Nat) (kc ve kcp vcp fp : Bool)
    (m0 : TreeMap κ ν) (st : Status)
    (hcreate : createTreeMap keySize valueSize kc ve kcp vcp fp = (some m0, st))
    (ops : List (MapOp κ ν)) :
    List.Chain' (· < ·) (keysOf (applyOps m0 ops).root) ∧
    NoRedRight (applyOps m0 ops).root ∧
    NoRedRed (applyOps m0 ops).root ∧
    (∀ x ∈ pathBlacks (applyOps m0 ops).root,
      ∀ y ∈ pathBlacks (applyOps m0 ops).root, x = y) ∧
    isRed (applyOps m0 ops).root = false ∧
    (applyOps m0 ops).nodeAmount = size (applyOps m0 ops).root := by
  have hm0 : m0 = ⟨.nil, 0⟩ := createTreeMap_some hcreate
  subst hm0
  have hinv := applyOps_inv inv_empty ops
  rcases hinv.bal with ⟨n, hbal⟩
  exact ⟨List.chain'_iff_pairwise.2 hinv.ord,
    colorOk_noRedRight _ hinv.color, colorOk_noRedRed _ hinv.color,
    fun x hx y hy =>
      (pathBlacks_const hbal x hx).trans (pathBlacks_const hbal y hy).symm,
    hinv.rootBlack, hinv.count⟩

open RBT in
/-- C1 witness: a concrete creation followed by three insertions, a
deletion and a poll. -/
theorem invariants_after_any_op_sequence_witness :
    createTreeMap 4 4 true true true true true
      = (some (⟨.nil, 0⟩ : TreeMap Nat Nat), .SUCCESS) ∧
    (List.Chain' (· < ·) (keysOf (applyOps (⟨.nil, 0⟩ : TreeMap Nat Nat)
        [.put 2 20 true true true, .put 1 10 true true true,
         .put 3 30 true true true, .del 2, .pollFirst]).root) ∧
    NoRedRight (applyOps (⟨.nil, 0⟩ : TreeMap Nat Nat)
        [.put 2 20 true true true, .put 1 10 true true true,
         .put 3 30 true true true, .del 2, .pollFirst]).root ∧
    NoRedRed (applyOps (⟨.nil, 0⟩ : TreeMap Nat Nat)
        [.put 2 20 true true true, .put 1 10 true true true,
         .put 3 30 true true true, .del 2, .pollFirst]).root ∧
    (∀ x ∈ pathBlacks (applyOps (⟨.nil, 0⟩ : TreeMap Nat Nat)
        [.put 2 20 true true true, .put 1 10 true true true,
         .put 3 30 true true true, .del 2, .pollFirst]).root,
      ∀ y ∈ pathBlacks (applyOps (⟨.nil, 0⟩ : TreeMap Nat Nat)
        [.put 2 20 true true true, .put 1 10 true true true,
         .put 3 30 true true true, .del 2, .pollFirst]).root, x = y) ∧
    isRed (applyOps (⟨.nil, 0⟩ : TreeMap Nat Nat)
        [.put 2 20 true true true, .put 1 10 true true true,
         .put 3 30 true true true, .del 2, .pollFirst]).root = false ∧
    (applyOps (⟨.nil, 0⟩ : TreeMap Nat Nat)
        [.put 2 20 true true true, .put 1 10 true true true,
         .put 3 30 true true true, .del 2, .pollFirst]).nodeAmount
      = size (applyOps (⟨.nil, 0⟩ : TreeMap Nat Nat)
        [.put 2 20 true true true, .put 1 10 true true true,
         .put 3 30 true true true, .del 2, .pollFirst]).root) :=
  ⟨by decide,
    invariants_after_any_op_sequence 4 4 true true true true true
      (⟨.nil, 0⟩ : TreeMap Nat Nat) .SUCCESS (by decide)
      [.put 2 20 true true true, .put 1 10 true true true,
       .put 3 30 true true true, .del 2, .pollFirst]⟩

open RBT in
/-- C2: for any pair successfully inserted by putPair, getValue on the key
reports SUCCESS handing back the stored value, and containsKey and
containsValue (through the pluggable value equality) both report SUCCESS;
after deletePair on that key succeeds — provided the value occurs under no
other key — containsKey and containsValue both report DOES_NOT_CONTAIN and
the node count has dropped by exactly one. -/
theorem put_get_contains_delete_roundtrip {κ ν : Type} [LinearOrder κ]
    (m : TreeMap κ ν) (hm : Inv m) (key : κ) (v : ν) (veq : ν → ν → Bool)
    (hrefl : veq v v = true) (m2 : TreeMap κ ν)
    (hput : putPair m key v true true true = (.SUCCESS, m2))
    (honly : ∀ p ∈ inorderKV m2.root, veq p.2 v = true → p.1 = key) :
    getValue m2 key true = (.SUCCESS, m2, some v) ∧
    containsKey m2 key = .SUCCESS ∧
    containsValue veq m2 v = .SUCCESS ∧
    ∃ m3 : TreeMap κ ν, deletePair m2 key = (.SUCCESS, m3, some (key, v)) ∧
      containsKey m3 key = .DOES_NOT_CONTAIN ∧
      containsValue veq m3 v = .DOES_NOT_CONTAIN ∧
      m3.nodeAmount + 1 = m2.nodeAmount := by
  have hinv2 : Inv m2 := by
    have h := putPair_inv hm key v true true true
    rw [hput] at h
    exact h
  obtain ⟨t2, hins, hm2⟩ : ∃ t2, insGo key v m.root = some t2 ∧
      m2 = ⟨blacken t2, m.nodeAmount + 1⟩ := by
    cases h : insGo key v m.root with
    | none =>
      simp only [putPair, h] at hput
      simp at hput
    | some t2 =>
      simp only [putPair, h, Bool.not_true, Bool.false_eq_true, if_false]
        at hput
      rw [Prod.mk.injEq] at hput
      exact ⟨t2, rfl, hput.2.symm⟩
  have hino2 : inorderKV m2.root = insList key v (inorderKV m.root) := by
    rw [hm2]
    show inorderKV (blacken t2) = _
    rw [inorder_blacken]
    exact insGo_inorder v m.root hm.ord t2 hins
  have hmem2 : (key, v) ∈ inorderKV m2.root := by
    rw [hino2]
    exact mem_insList_self key v _
  have hgv : getV m2.root key = some v :=
    (getV_some_iff key v m2.root hinv2.ord).2 hmem2
  refine ⟨?_, ?_, ?_, ?_⟩
  · simp [getValue, hgv]
  · simp [containsKey, containsB, hgv]
  · have hcv : containsVB veq m2.root v = true :=
      (containsVB_true_iff veq v m2.root).2 ⟨(key, v), hmem2, hrefl⟩
    simp [containsValue, hcv]
  · have hkm2 : key ∈ keysOf m2.root := mem_keys_of_mem_inorder hmem2
    rcases deletePair_present hinv2 hkm2 with
      ⟨t3, v0, heq3, hinv3, hero3, hmem3⟩
    have hv0 : v0 = v := inorder_key_unique hinv2.ord hmem3 hmem2
    rw [hv0] at heq3
    refine ⟨⟨t3, m2.nodeAmount - 1⟩, heq3, ?_, ?_, ?_⟩
    · have hcb : containsB t3 key = false := by
        cases hcb2 : containsB t3 key
        · rfl
        · have hk3 := (containsB_true_iff hinv3.ord key).1 hcb2
          unfold keysOf at hk3
          rw [hero3] at hk3
          exact absurd hk3 (key_not_mem_erase key _)
      simp [containsKey, hcb]
    · have hcv3 : containsVB veq t3 v = false := by
        cases hcv2 : containsVB veq t3 v
        · rfl
        · rcases (containsVB_true_iff veq v t3).1 hcv2 with ⟨p, hp3, hveq⟩
          have hpm2 : p ∈ inorderKV m2.root := by
            have hp4 := hp3
            rw [hero3] at hp4
            exact (List.mem_filter.1 hp4).1
          have hpk : p.1 = key := honly p hpm2 hveq
          have hmem4 : p.1 ∈ (eraseKey key (inorderKV m2.root)).map Prod.fst
              := by
            rw [← hero3]
            exact List.mem_map_of_mem Prod.fst hp3
          rw [hpk] at hmem4
          exact absurd hmem4 (key_not_mem_erase key _)
      simp [containsValue, hcv3]
    · have hc2 : m2.nodeAmount = m.nodeAmount + 1 := by rw [hm2]
      show m2.nodeAmount - 1 + 1 = m2.nodeAmount
      omega

namespace RBT

variable {κ ν : Type}

theorem floorGo_none [LinearOrder κ] (q : κ) :
    ∀ t : RBT κ ν, (∀ k2 ∈ keysOf t, ¬ k2 ≤ q) → floorGo t q = none := by
  intro t
  induction t with
  | nil => intro _; rfl
  | node c l k v r ihl ihr =>
    intro hall
    have h1 : q < k := lt_of_not_le (hall k (by simp [keysOf_node]))
    rw [show floorGo (.node c l k v r) q = floorGo l q from by
      simp [floorGo, h1]]
    exact ihl fun k2 hk2 => hall k2
      (by simp only [keysOf_node, List.mem_append, List.mem_cons]
          exact Or.inl hk2)

theorem ceilGo_none [LinearOrder κ] (q : κ) :
    ∀ t : RBT κ ν, (∀ k2 ∈ keysOf t, ¬ q ≤ k2) → ceilGo t q = none := by
  intro t
  induction t with
  | nil => intro _; rfl
  | node c l k v r ihl ihr =>
    intro hall
    have h1 : k < q := lt_of_not_le (hall k (by simp [keysOf_node]))
    rw [show ceilGo (.node c l k v r) q = ceilGo r q from by
      simp [ceilGo, h1]]
    exact ihr fun k2 hk2 => hall k2
      (by simp only [keysOf_node, List.mem_append, List.mem_cons]; tauto)

theorem lowerGo_none [LinearOrder κ] (q : κ) :
    ∀ t : RBT κ ν, (∀ k2 ∈ keysOf t, ¬ k2 < q) → lowerGo t q = none := by
  intro t
  induction t with
  | nil => intro _; rfl
  | node c l k v r ihl ihr =>
    intro hall
    have h1 : ¬ k < q := hall k (by simp [keysOf_node])
    rw [show lowerGo (.node c l k v r) q = lowerGo l q from by
      simp [lowerGo, h1]]
    exact ihl fun k2 hk2 => hall k2
      (by simp only [keysOf_node, List.mem_append, List.mem_cons]
          exact Or.inl hk2)

theorem higherGo_none [LinearOrder κ] (q : κ) :
    ∀ t : RBT κ ν, (∀ k2 ∈ keysOf t, ¬ q < k2) → higherGo t q = none := by
  intro t
  induction t with
  | nil => intro _; rfl
  | node c l k v r ihl ihr =>
    intro hall
    have h1 : ¬ q < k := hall k (by simp [keysOf_node])
    rw [show higherGo (.node c l k v r) q = higherGo r q from by
      simp [higherGo, h1]]
    exact ihr fun k2 hk2 => hall k2
      (by simp only [keysOf_node, List.mem_append, List.mem_cons]; tauto)

/-- The floor descent returns the largest pair at most the query. -/
theorem floorGo_spec [LinearOrder κ] (q : κ) :
    ∀ t : RBT κ ν, Ordered t → ∀ x vx, (x, vx) ∈ inorderKV t → x ≤ q →
      (∀ k2 ∈ keysOf t, k2 ≤ q → k2 ≤ x) → floorGo t q = some (x, vx) := by
  intro t
  induction t with
  | nil =>
    intro _ x vx hmem
    simp [inorderKV] at hmem
  | node c l k v r ihl ihr =>
    intro hord x vx hmem hle hmax
    obtain ⟨hordl, hordr, hlk, hkr⟩ := ordered_node_iff.1 hord
    simp only [inorderKV, List.mem_append, List.mem_cons] at hmem
    by_cases h1 : q < k
    · have hml : (x, vx) ∈ inorderKV l := by
        rcases hmem with hm | hm | hm
        · exact hm
        · rw [Prod.mk.injEq] at hm
          rw [hm.1] at hle
          exact absurd (lt_of_le_of_lt hle h1) (lt_irrefl k)
        · have hx := hkr x (mem_keys_of_mem_inorder hm)
          exact absurd (lt_trans hx (lt_of_le_of_lt hle h1)) (lt_irrefl k)
      have hl := ihl hordl x vx hml hle fun k2 hk2 hk2q => hmax k2
        (by simp only [keysOf_node, List.mem_append, List.mem_cons]
            exact Or.inl hk2) hk2q
      simp [floorGo, h1, hl]
    · by_cases h2 : k < q
      · have hkx : k ≤ x := hmax k (by simp [keysOf_node]) (le_of_lt h2)
        rcases lt_or_eq_of_le hkx with hkx2 | hkx2
        · have hmr : (x, vx) ∈ inorderKV r := by
            rcases hmem with hm | hm | hm
            · exact absurd hkx2 (asymm (hlk x (mem_keys_of_mem_inorder hm)))
            · rw [Prod.mk.injEq] at hm
              rw [hm.1] at hkx2
              exact absurd hkx2 (lt_irrefl k)
            · exact hm
          have hr := ihr hordr x vx hmr hle fun k2 hk2 hk2q => hmax k2
            (by simp only [keysOf_node, List.mem_append, List.mem_cons]; tauto)
            hk2q
          simp [floorGo, h1, h2, hr]
        · have hnone : floorGo r q = none := floorGo_none q r
            fun k2 hk2 hk2q => absurd (hmax k2
              (by simp only [keysOf_node, List.mem_append, List.mem_cons]
                  tauto) hk2q)
              (not_le.2 (hkx2 ▸ hkr k2 hk2))
          have hvx : vx = v := by
            rcases hmem with hm | hm | hm
            · have hxl := hlk x (mem_keys_of_mem_inorder hm)
              rw [hkx2] at hxl
              exact absurd hxl (lt_irrefl x)
            · rw [Prod.mk.injEq] at hm
              exact hm.2
            · have hxr := hkr x (mem_keys_of_mem_inorder hm)
              rw [hkx2] at hxr
              exact absurd hxr (lt_irrefl x)
          rw [← hkx2, hvx]
          simp [floorGo, h1, h2, hnone]
      · have hqk : q = k := le_antisymm (not_lt.1 h2) (not_lt.1 h1)
        have hkx : k ≤ x := hmax k (by simp [keysOf_node]) (le_of_eq hqk.symm)
        have hxk : x = k := le_antisymm (hqk ▸ hle) hkx
        have hvx : vx = v := by
          rcases hmem with hm | hm | hm
          · have hxl := hlk x (mem_keys_of_mem_inorder hm)
            rw [hxk] at hxl
            exact absurd hxl (lt_irrefl k)
          · rw [Prod.mk.injEq] at hm
            exact hm.2
          · have hxr := hkr x (mem_keys_of_mem_inorder hm)
            rw [hxk] at hxr
            exact absurd hxr (lt_irrefl k)
        rw [hxk, hvx]
        simp [floorGo, h1, h2]

/-- The ceiling descent returns the smallest pair at least the query. -/
theorem ceilGo_spec [LinearOrder κ] (q : κ) :
    ∀ t : RBT κ ν, Ordered t → ∀ y vy, (y, vy) ∈ inorderKV t → q ≤ y →
      (∀ k2 ∈ keysOf t, q ≤ k2 → y ≤ k2) → ceilGo t q = some (y, vy) := by
  intro t
  induction t with
  | nil =>
    intro _ y vy hmem
    simp [inorderKV] at hmem
  | node c l k v r ihl ihr =>
    intro hord y vy hmem hle hmin
    obtain ⟨hordl, hordr, hlk, hkr⟩ := ordered_node_iff.1 hord
    simp only [inorderKV, List.mem_append, List.mem_cons] at hmem
    by_cases h1 : k < q
    · have hmr : (y, vy) ∈ inorderKV r := by
        rcases hmem with hm | hm | hm
        · have hy := hlk y (mem_keys_of_mem_inorder hm)
          exact absurd (lt_trans (lt_of_lt_of_le h1 hle) hy) (lt_irrefl k)
        · rw [Prod.mk.injEq] at hm
          rw [hm.1] at hle
          exact absurd (lt_of_lt_of_le h1 hle) (lt_irrefl k)
        · exact hm
      have hr := ihr hordr y vy hmr hle fun k2 hk2 hk2q => hmin k2
        (by simp only [keysOf_node, List.mem_append, List.mem_cons]; tauto)
        hk2q
      simp [ceilGo, h1, hr]
    · by_cases h2 : q < k
      · have hky : y ≤ k := hmin k (by simp [keysOf_node]) (le_of_lt h2)
        rcases lt_or_eq_of_le hky with hky2 | hky2
        · have hml : (y, vy) ∈ inorderKV l := by
            rcases hmem with hm | hm | hm
            · exact hm
            · rw [Prod.mk.injEq] at hm
              rw [hm.1] at hky2
              exact absurd hky2 (lt_irrefl k)
            · exact absurd hky2 (asymm (hkr y (mem_keys_of_mem_inorder hm)))
          have hl := ihl hordl y vy hml hle fun k2 hk2 hk2q => hmin k2
            (by simp only [keysOf_node, List.mem_append, List.mem_cons]
                exact Or.inl hk2) hk2q
          simp [ceilGo, h1, h2, hl]
        · have hnone : ceilGo l q = none := ceilGo_none q l
            fun k2 hk2 hk2q => absurd (hmin k2
              (by simp only [keysOf_node, List.mem_append, List.mem_cons]
                  exact Or.inl hk2) hk2q)
              (not_le.2 (hky2 ▸ hlk k2 hk2))
          have hvy : vy = v := by
            rcases hmem with hm | hm | hm
            · have hyl := hlk y (mem_keys_of_mem_inorder hm)
              rw [hky2] at hyl
              exact absurd hyl (lt_irrefl k)
            · rw [Prod.mk.injEq] at hm
              exact hm.2
            · have hyr := hkr y (mem_keys_of_mem_inorder hm)
              rw [hky2] at hyr
              exact absurd hyr (lt_irrefl k)
          rw [hky2, hvy]
          simp [ceilGo, h1, h2, hnone]
      · have hqk : q = k := le_antisymm (not_lt.1 h1) (not_lt.1 h2)
        have hky : y ≤ k := hmin k (by simp [keysOf_node]) (le_of_eq hqk)
        have hyk : y = k := le_antisymm hky (hqk ▸ hle)
        have hvy : vy = v := by
          rcases hmem with hm | hm | hm
          · have hyl := hlk y (mem_keys_of_mem_inorder hm)
            rw [hyk] at hyl
            exact absurd hyl (lt_irrefl k)
          · rw [Prod.mk.injEq] at hm
            exact hm.2
          · have hyr := hkr y (mem_keys_of_mem_inorder hm)
            rw [hyk] at hyr
            exact absurd hyr (lt_irrefl k)
        rw [hyk, hvy]
        simp [ceilGo, h1, h2]

/-- The strict floor descent returns the largest pair strictly below the
query. -/
theorem lowerGo_spec [LinearOrder κ] (q : κ) :
    ∀ t : RBT κ ν, Ordered t → ∀ x vx, (x, vx) ∈ inorderKV t → x < q →
      (∀ k2 ∈ keysOf t, k2 < q → k2 ≤ x) → lowerGo t q = some (x, vx) := by
  intro t
  induction t with
  | nil =>
    intro _ x vx hmem
    simp [inorderKV] at hmem
  | node c l k v r ihl ihr =>
    intro hord x vx hmem hlt hmax
    obtain ⟨hordl, hordr, hlk, hkr⟩ := ordered_node_iff.1 hord
    simp only [inorderKV, List.mem_append, List.mem_cons] at hmem
    by_cases h1 : k < q
    · have hkx : k ≤ x := hmax k (by simp [keysOf_node]) h1
      rcases lt_or_eq_of_le hkx with hkx2 | hkx2
      · have hmr : (x, vx) ∈ inorderKV r := by
          rcases hmem with hm | hm | hm
          · exact absurd hkx2 (asymm (hlk x (mem_keys_of_mem_inorder hm)))
          · rw [Prod.mk.injEq] at hm
            rw [hm.1] at hkx2
            exact absurd hkx2 (lt_irrefl k)
          · exact hm
        have hr := ihr hordr x vx hmr hlt fun k2 hk2 hk2q => hmax k2
          (by simp only [keysOf_node, List.mem_append, List.mem_cons]; tauto)
          hk2q
        simp [lowerGo, h1, hr]
      · have hnone : lowerGo r q = none := lowerGo_none q r
          fun k2 hk2 hk2q => absurd (hmax k2
            (by simp only [keysOf_node, List.mem_append, List.mem_cons]
                tauto) hk2q)
            (not_le.2 (hkx2 ▸ hkr k2 hk2))
        have hvx : vx = v := by
          rcases hmem with hm | hm | hm
          · have hxl := hlk x (mem_keys_of_mem_inorder hm)
            rw [hkx2] at hxl
            exact absurd hxl (lt_irrefl x)
          · rw [Prod.mk.injEq] at hm
            exact hm.2
          · have hxr := hkr x (mem_keys_of_mem_inorder hm)
            rw [hkx2] at hxr
            exact absurd hxr (lt_irrefl x)
        rw [← hkx2, hvx]
        simp [lowerGo, h1, hnone]
    · have hml : (x, vx) ∈ inorderKV l := by
        rcases hmem with hm | hm | hm
        · exact hm
        · rw [Prod.mk.injEq] at hm
          rw [hm.1] at hlt
          exact absurd hlt h1
        · have hx := hkr x (mem_keys_of_mem_inorder hm)
          exact absurd (lt_trans hx hlt) h1
      have hl := ihl hordl x vx hml hlt fun k2 hk2 hk2q => hmax k2
        (by simp only [keysOf_node, List.mem_append, List.mem_cons]
            exact Or.inl hk2) hk2q
      simp [lowerGo, h1, hl]

/-- The strict ceiling descent returns the smallest pair strictly above the
query. -/
theorem higherGo_spec [LinearOrder κ] (q : κ) :
    ∀ t : RBT κ ν, Ordered t → ∀ y vy, (y, vy) ∈ inorderKV t → q < y →
      (∀ k2 ∈ keysOf t, q < k2 → y ≤ k2) → higherGo t q = some (y, vy) := by
  intro t
  induction t with
  | nil =>
    intro _ y vy hmem
    simp [inorderKV] at hmem
  | node c l k v r ihl ihr =>
    intro hord y vy hmem hlt hmin
    obtain ⟨hordl, hordr, hlk, hkr⟩ := ordered_node_iff.1 hord
    simp only [inorderKV, List.mem_append, List.mem_cons] at hmem
    by_cases h1 : q < k
    · have hky : y ≤ k := hmin k (by simp [keysOf_node]) h1
      rcases lt_or_eq_of_le hky with hky2 | hky2
      · have hml : (y, vy) ∈ inorderKV l := by
          rcases hmem with hm | hm | hm
          · exact hm
          · rw [Prod.mk.injEq] at hm
            rw [hm.1] at hky2
            exact absurd hky2 (lt_irrefl k)
          · exact absurd hky2 (asymm (hkr y (mem_keys_of_mem_inorder hm)))
        have hl := ihl hordl y vy hml hlt fun k2 hk2 hk2q => hmin k2
          (by simp only [keysOf_node, List.mem_append, List.mem_cons]
              exact Or.inl hk2) hk2q
        simp [higherGo, h1, hl]
      · have hnone : higherGo l q = none := higherGo_none q l
          fun k2 hk2 hk2q => absurd (hmin k2
            (by simp only [keysOf_node, List.mem_append, List.mem_cons]
                exact Or.inl hk2) hk2q)
            (not_le.2 (hky2 ▸ hlk k2 hk2))
        have hvy : vy = v := by
          rcases hmem with hm | hm | hm
          · have hyl := hlk y (mem_keys_of_mem_inorder hm)
            rw [hky2] at hyl
            exact absurd hyl (lt_irrefl k)
          · rw [Prod.mk.injEq] at hm
            exact hm.2
          · have hyr := hkr y (mem_keys_of_mem_inorder hm)
            rw [hky2] at hyr
            exact absurd hyr (lt_irrefl k)
        rw [hky2, hvy]
        simp [higherGo, h1, hnone]
    · have hmr : (y, vy) ∈ inorderKV r := by
        rcases hmem with hm | hm | hm
        · have hy := hlk y (mem_keys_of_mem_inorder hm)
          exact absurd (lt_trans (lt_of_lt_of_le hy (not_lt.1 h1)) hlt)
            (lt_irrefl y)
        · rw [Prod.mk.injEq] at hm
          rw [hm.1] at hlt
          exact absurd hlt h1
        · exact hm
      have hr := ihr hordr y vy hmr hlt fun k2 hk2 hk2q => hmin k2
        (by simp only [keysOf_node, List.mem_append, List.mem_cons]; tauto)
        hk2q
      simp [higherGo, h1, hr]

end RBT

open RBT in
/-- C2 witness: inserting 3 ↦ 5 into the empty map, querying and deleting
it. -/
theorem put_get_contains_delete_roundtrip_witness :
    (Nat.beq 5 5 = true ∧
      putPair (⟨.nil, 0⟩ : TreeMap Nat Nat) 3 5 true true true
        = (.SUCCESS, (⟨.node false .nil 3 5 .nil, 1⟩ : TreeMap Nat Nat)) ∧
      ∀ p ∈ inorderKV
          ((⟨.node false .nil 3 5 .nil, 1⟩ : TreeMap Nat Nat)).root,
        Nat.beq p.2 5 = true → p.1 = 3) ∧
    (getValue (⟨.node false .nil 3 5 .nil, 1⟩ : TreeMap Nat Nat) 3 true
        = (.SUCCESS, (⟨.node false .nil 3 5 .nil, 1⟩ : TreeMap Nat Nat),
           some 5) ∧
    containsKey (⟨.node false .nil 3 5 .nil, 1⟩ : TreeMap Nat Nat) 3
        = .SUCCESS ∧
    containsValue Nat.beq (⟨.node false .nil 3 5 .nil, 1⟩ : TreeMap Nat Nat) 5
        = .SUCCESS ∧
    ∃ m3 : TreeMap Nat Nat,
      deletePair (⟨.node false .nil 3 5 .nil, 1⟩ : TreeMap Nat Nat) 3
          = (.SUCCESS, m3, some (3, 5)) ∧
      containsKey m3 3 = .DOES_NOT_CONTAIN ∧
      containsValue Nat.beq m3 5 = .DOES_NOT_CONTAIN ∧
      m3.nodeAmount + 1
        = (⟨.node false .nil 3 5 .nil, 1⟩ : TreeMap Nat Nat).nodeAmount) :=
  ⟨⟨by decide, by decide, by decide⟩,
    put_get_contains_delete_roundtrip (⟨.nil, 0⟩ : TreeMap Nat Nat) inv_empty
      3 5 Nat.beq (by decide)
      (⟨.node false .nil 3 5 .nil, 1⟩ : TreeMap Nat Nat) (by decide)
      (by decide)⟩

open RBT in
/-- C6 counterexample: in the four-state map the present keys satisfy
Alabama < Minnesota < Oregon, yet `lowerPair` of Minnesota surfaces the
Kansas pair — the greatest key strictly below the query — and not the
Alabama pair named by the claim's a < b < c reading. -/
theorem lowerPair_adjacency_counterexample :
    (kAlabama < kMinnesota ∧ kMinnesota < kOregon) ∧
    containsB (mapOfList [(kAlabama, vAlabama), (kKansas, vKansas),
      (kMinnesota, vMinnesota), (kOregon, vOregon)]).root kAlabama = true ∧
    containsB (mapOfList [(kAlabama, vAlabama), (kKansas, vKansas),
      (kMinnesota, vMinnesota), (kOregon, vOregon)]).root kMinnesota = true ∧
    containsB (mapOfList [(kAlabama, vAlabama), (kKansas, vKansas),
      (kMinnesota, vMinnesota), (kOregon, vOregon)]).root kOregon = true ∧
    (lowerPair (mapOfList [(kAlabama, vAlabama), (kKansas, vKansas),
      (kMinnesota, vMinnesota), (kOregon, vOregon)]) kMinnesota true true).2.2
      = some (kKansas, vKansas) ∧
    some (kKansas, vKansas) ≠ some (kAlabama, vAlabama) := by
  decide

open RBT in
/-- C6 (amended): on a map whose tree is ordered, the four navigation
queries return exactly the order-theoretic neighbors of the query key:
floorPair the greatest pair at most the query (an exact match included),
ceilingPair the least pair at least the query, lowerPair the greatest pair
strictly below, higherPair the least pair strictly above; when no
qualifying key exists the query reports DOES_NOT_CONTAIN with no pair.  In
particular lowerPair of b returns the pair of a, and higherPair of b the
pair of c, exactly when a and c are the present keys adjacent to b. -/
theorem navigation_query_laws {κ ν : Type} [LinearOrder κ]
    (m : TreeMap κ ν) (hord : Ordered m.root) :
    (∀ q x vx, (x, vx) ∈ inorderKV m.root → x ≤ q →
      (∀ k2 ∈ keysOf m.root, k2 ≤ q → k2 ≤ x) →
      floorPair m q true true = (.SUCCESS, m, some (x, vx))) ∧
    (∀ q y vy, (y, vy) ∈ inorderKV m.root → q ≤ y →
      (∀ k2 ∈ keysOf m.root, q ≤ k2 → y ≤ k2) →
      ceilingPair m q true true = (.SUCCESS, m, some (y, vy))) ∧
    (∀ q x vx, (x, vx) ∈ inorderKV m.root → x < q →
      (∀ k2 ∈ keysOf m.root, k2 < q → k2 ≤ x) →
      lowerPair m q true true = (.SUCCESS, m, some (x, vx))) ∧
    (∀ q y vy, (y, vy) ∈ inorderKV m.root → q < y →
      (∀ k2 ∈ keysOf m.root, q < k2 → y ≤ k2) →
      higherPair m q true true = (.SUCCESS, m, some (y, vy))) ∧
    (∀ q, (∀ k2 ∈ keysOf m.root, ¬ k2 ≤ q) →
      floorPair m q true true = (.DOES_NOT_CONTAIN, m, none)) ∧
    (∀ q, (∀ k2 ∈ keysOf m.root, ¬ q ≤ k2) →
      ceilingPair m q true true = (.DOES_NOT_CONTAIN, m, none)) ∧
    (∀ q, (∀ k2 ∈ keysOf m.root, ¬ k2 < q) →
      lowerPair m q true true = (.DOES_NOT_CONTAIN, m, none)) ∧
    (∀ q, (∀ k2 ∈ keysOf m.root, ¬ q < k2) →
      higherPair m q true true = (.DOES_NOT_CONTAIN, m, none)) := by
  refine ⟨?_, ?_, ?_, ?_, ?_, ?_, ?_, ?_⟩
  · intro q x vx hmem hle hmax
    simp [floorPair, floorGo_spec q m.root hord x vx hmem hle hmax]
  · intro q y vy hmem hle hmin
    simp [ceilingPair, ceilGo_spec q m.root hord y vy hmem hle hmin]
  · intro q x vx hmem hlt hmax
    simp [lowerPair, lowerGo_spec q m.root hord x vx hmem hlt hmax]
  · intro q y vy hmem hlt hmin
    simp [higherPair, higherGo_spec q m.root hord y vy hmem hlt hmin]
  · intro q hall
    simp [floorPair, floorGo_none q m.root hall]
  · intro q hall
    simp [ceilingPair, ceilGo_none q m.root hall]
  · intro q hall
    simp [lowerPair, lowerGo_none q m.root hall]
  · intro q hall
    simp [higherPair, higherGo_none q m.root hall]

open RBT in
/-- C6 witness: the amended navigation laws instantiated on the ordered
four-state map. -/
theorem navigation_query_laws_witness :
    Ordered (mapOfList [(kAlabama, vAlabama), (kKansas, vKansas),
      (kMinnesota, vMinnesota), (kOregon, vOregon)]).root ∧
    ((∀ q x vx, (x, vx) ∈ inorderKV (mapOfList [(kAlabama, vAlabama),
        (kKansas, vKansas), (kMinnesota, vMinnesota),
        (kOregon, vOregon)]).root → x ≤ q →
      (∀ k2 ∈ keysOf (mapOfList [(kAlabama, vAlabama), (kKansas, vKansas),
        (kMinnesota, vMinnesota), (kOregon, vOregon)]).root,
        k2 ≤ q → k2 ≤ x) →
      floorPair (mapOfList [(kAlabama, vAlabama), (kKansas, vKansas),
        (kMinnesota, vMinnesota), (kOregon, vOregon)]) q true true
        = (.SUCCESS, mapOfList [(kAlabama, vAlabama), (kKansas, vKansas),
            (kMinnesota, vMinnesota), (kOregon, vOregon)], some (x, vx))) ∧
    (∀ q y vy, (y, vy) ∈ inorderKV (mapOfList [(kAlabama, vAlabama),
        (kKansas, vKansas), (kMinnesota, vMinnesota),
        (kOregon, vOregon)]).root → q ≤ y →
      (∀ k2 ∈ keysOf (mapOfList [(kAlabama, vAlabama), (kKansas, vKansas),
        (kMinnesota, vMinnesota), (kOregon, vOregon)]).root,
        q ≤ k2 → y ≤ k2) →
      ceilingPair (mapOfList [(kAlabama, vAlabama), (kKansas, vKansas),
        (kMinnesota, vMinnesota), (kOregon, vOregon)]) q true true
        = (.SUCCESS, mapOfList [(kAlabama, vAlabama), (kKansas, vKansas),
            (kMinnesota, vMinnesota), (kOregon, vOregon)], some (y, vy))) ∧
    (∀ q x vx, (x, vx) ∈ inorderKV (mapOfList [(kAlabama, vAlabama),
        (kKansas, vKansas), (kMinnesota, vMinnesota),
        (kOregon, vOregon)]).root → x < q →
      (∀ k2 ∈ keysOf (mapOfList [(kAlabama, vAlabama), (kKansas, vKansas),
        (kMinnesota, vMinnesota), (kOregon, vOregon)]).root,
        k2 < q → k2 ≤ x) →
      lowerPair (mapOfList [(kAlabama, vAlabama), (kKansas, vKansas),
        (kMinnesota, vMinnesota), (kOregon, vOregon)]) q true true
        = (.SUCCESS, mapOfList [(kAlabama, vAlabama), (kKansas, vKansas),
            (kMinnesota, vMinnesota), (kOregon, vOregon)], some (x, vx))) ∧
    (∀ q y vy, (y, vy) ∈ inorderKV (mapOfList [(kAlabama, vAlabama),
        (kKansas, vKansas), (kMinnesota, vMinnesota),
        (kOregon, vOregon)]).root → q < y →
      (∀ k2 ∈ keysOf (mapOfList [(kAlabama, vAlabama), (kKansas, vKansas),
        (kMinnesota, vMinnesota), (kOregon, vOregon)]).root,
        q < k2 → y ≤ k2) →
      higherPair (mapOfList [(kAlabama, vAlabama), (kKansas, vKansas),
        (kMinnesota, vMinnesota), (kOregon, vOregon)]) q true true
        = (.SUCCESS, mapOfList [(kAlabama, vAlabama), (kKansas, vKansas),
            (kMinnesota, vMinnesota), (kOregon, vOregon)], some (y, vy))) ∧
    (∀ q, (∀ k2 ∈ keysOf (mapOfList [(kAlabama, vAlabama),
        (kKansas, vKansas), (kMinnesota, vMinnesota),
        (kOregon, vOregon)]).root, ¬ k2 ≤ q) →
      floorPair (mapOfList [(kAlabama, vAlabama), (kKansas, vKansas),
        (kMinnesota, vMinnesota), (kOregon, vOregon)]) q true true
        = (.DOES_NOT_CONTAIN, mapOfList [(kAlabama, vAlabama),
            (kKansas, vKansas), (kMinnesota, vMinnesota),
            (kOregon, vOregon)], none)) ∧
    (∀ q, (∀ k2 ∈ keysOf (mapOfList [(kAlabama, vAlabama),
        (kKansas, vKansas), (kMinnesota, vMinnesota),
        (kOregon, vOregon)]).root, ¬ q ≤ k2) →
      ceilingPair (mapOfList [(kAlabama, vAlabama), (kKansas, vKansas),
        (kMinnesota, vMinnesota), (kOregon, vOregon)]) q true true
        = (.DOES_NOT_CONTAIN, mapOfList [(kAlabama, vAlabama),
            (kKansas, vKansas), (kMinnesota, vMinnesota),
            (kOregon, vOregon)], none)) ∧
    (∀ q, (∀ k2 ∈ keysOf (mapOfList [(kAlabama, vAlabama),
        (kKansas, vKansas), (kMinnesota, vMinnesota),
        (kOregon, vOregon)]).root, ¬ k2 < q) →
      lowerPair (mapOfList [(kAlabama, vAlabama), (kKansas, vKansas),
        (kMinnesota, vMinnesota), (kOregon, vOregon)]) q true true
        = (.DOES_NOT_CONTAIN, mapOfList [(kAlabama, vAlabama),
            (kKansas, vKansas), (kMinnesota, vMinnesota),
            (kOregon, vOregon)], none)) ∧
    (∀ q, (∀ k2 ∈ keysOf (mapOfList [(kAlabama, vAlabama),
        (kKansas, vKansas), (kMinnesota, vMinnesota),
        (kOregon, vOregon)]).root, ¬ q < k2) →
      higherPair (mapOfList [(kAlabama, vAlabama), (kKansas, vKansas),
        (kMinnesota, vMinnesota), (kOregon, vOregon)]) q true true
        = (.DOES_NOT_CONTAIN, mapOfList [(kAlabama, vAlabama),
            (kKansas, vKansas), (kMinnesota, vMinnesota),
            (kOregon, vOregon)], none))) :=
  ⟨by decide,
    navigation_query_laws (mapOfList [(kAlabama, vAlabama),
      (kKansas, vKansas), (kMinnesota, vMinnesota), (kOregon, vOregon)])
      (by decide)⟩

end TreeMapSpec
